import Mathlib

/-!
# HtmlSed: a shallow embedding of `src/htmlsed.cpp`

`QString` is modelled as a list of characters (one `Char` per code unit),
`int` positions that are never negative as `Nat`, and the one length that can
become negative (the captured-contents length of a ReplaceContents rule) as
`Int`.  The three constant regular expressions of the file are embedded as
matchers that compute the match `QRegExp::indexIn` reports for them; the
regular expressions carried by rules, `QUrl` and the caller-supplied modifier
are parameters.
-/

namespace HtmlSed

/-- A `QString`: the sequence of its code units. -/
abbrev Str := List Char

/-! ## QChar / QString primitives -/

/-- `QChar::isSpace`: the characters `\t \n \v \f \r`, the space, U+0085,
U+00A0 and the Unicode separators. -/
def isSpace (c : Char) : Bool :=
  let n := c.toNat
  (9 ≤ n && n ≤ 13) || n == 32 || n == 133 || n == 160 || n == 5760 ||
  (8192 ≤ n && n ≤ 8202) || n == 8232 || n == 8233 || n == 8239 || n == 8287 ||
  n == 12288

/-- The character class `[a-zA-Z0-9]`. -/
def isAlnum (c : Char) : Bool :=
  let n := c.toNat
  (97 ≤ n && n ≤ 122) || (65 ≤ n && n ≤ 90) || (48 ≤ n && n ≤ 57)

/-- Upper-casing of one code unit, as `QString::toUpper` does it on the ASCII
letters; the constructor of `Tag` applies `toUpper` to runs of `[a-zA-Z0-9]`
only. -/
def upperChar (c : Char) : Char :=
  if 97 ≤ c.toNat && c.toNat ≤ 122 then Char.ofNat (c.toNat - 32) else c

/-- `QString::toUpper`. -/
def toUpper (s : Str) : Str := s.map upperChar

/-- `QString::startsWith`. -/
def startsWith : Str → Str → Bool
  | _, [] => true
  | [], _ :: _ => false
  | c :: cs, p :: ps => c == p && startsWith cs ps

/-- `QString::endsWith`. -/
def endsWith (s p : Str) : Bool := startsWith s.reverse p.reverse

/-- `QString::trimmed`: white space removed from both ends. -/
def trimmed (s : Str) : Str :=
  ((s.dropWhile isSpace).reverse.dropWhile isSpace).reverse

/-- `QString::mid(position)`: the characters from `position` to the end. -/
def midFrom (s : Str) (position : Nat) : Str := s.drop position

/-- `QString::mid(position, n)`: `n` characters from `position`; everything
from `position` on when `n` is negative or exceeds what is available. -/
def mid (s : Str) (position : Nat) (n : Int) : Str :=
  if n < 0 then s.drop position else (s.drop position).take n.toNat

/-- `QString::left(n)`. -/
def left (s : Str) (n : Nat) : Str := s.take n

/-- `QString::replace(pos, len, after)` (Qt 5): nothing happens when `pos` is
beyond the end; `len` is clipped to the characters available; the result is
the text before `pos`, then `after`, then the text from `pos + len` on.  For a
negative `len` the helper behind it moves the tail starting `-len` characters
before `pos`, which the same formula expresses (an index below 0, undefined in
C++, is taken as 0). -/
def replaceAt (s : Str) (pos : Nat) (len : Int) (after : Str) : Str :=
  if s.length < pos then s
  else
    let len1 : Int := if len > (s.length : Int) - pos then (s.length : Int) - pos else len
    s.take pos ++ after ++ s.drop ((pos : Int) + len1).toNat

/-- First index at which `pat` occurs in `s`, if any. -/
def findSub (pat : Str) : Str → Option Nat
  | [] => if pat.isEmpty then some 0 else none
  | c :: cs =>
    if startsWith (c :: cs) pat then some 0
    else (findSub pat cs).map (· + 1)

/-- The `int` a Qt search returns: the index, or `-1`. -/
def toIndex : Option Nat → Int
  | some i => (i : Int)
  | none => -1

/-- `QString::indexOf(pat, start)`. -/
def indexOf (s pat : Str) (start : Nat) : Int :=
  toIndex ((findSub pat (s.drop start)).map (· + start))

/-- `QString::indexOf(QChar)`. -/
def indexOfChar (s : Str) (c : Char) : Int :=
  toIndex (findSub [c] s)

/-! ## The constant regular expressions

Each matcher returns the `matchedLength` of the match that starts at the head
of its argument.  `QRegExp::indexIn` reports the leftmost position that has a
match.  For `RE_TAG` and `RE_TAG_NAME` a position has at most one match; for
`RE_TAG_ATTRIBUTE` the matcher returns the longest one, which is also the one
a greedy backtracking search finds first. -/

/-- `QRegExp::indexIn`: leftmost start position with a match, and the matched
length there. -/
def indexIn (matchAt : Str → Option Nat) : Str → Option (Nat × Nat)
  | [] => (matchAt []).map (fun l => (0, l))
  | c :: cs =>
    match matchAt (c :: cs) with
    | some l => some (0, l)
    | none => (indexIn matchAt cs).map (fun p => (p.1 + 1, p.2))

/-- `RE_TAG = "<[^!>][^>]*>"` at the head of the text: `<`, one character
that is neither `!` nor `>`, then everything up to the first `>`. -/
def RE_TAG : Str → Option Nat
  | a :: b :: rest =>
    if a == '<' && b != '!' && b != '>' then
      (findSub ['>'] rest).map (· + 3)
    else none
  | _ => none

/-- The class `[\s/>]` that ends a tag name. -/
def isNameEnd (c : Char) : Bool := isSpace c || c == '/' || c == '>'

/-- `RE_TAG_NAME = "[a-zA-Z0-9]+[\s/>]"` at the head of the text: the whole
run of alphanumerics (a shorter run would be followed by an alphanumeric,
which is not in `[\s/>]`) and one character of `[\s/>]`. -/
def RE_TAG_NAME (s : Str) : Option Nat :=
  let run := (s.takeWhile isAlnum).length
  if run == 0 then none
  else
    match s.drop run with
    | d :: _ => if isNameEnd d then some (run + 1) else none
    | [] => none

/-- The class `[^\s"']` of an unquoted attribute value. -/
def isUnquoted (c : Char) : Bool := !(isSpace c) && c != '"' && c != Char.ofNat 39

/-- The alternation `("[^"]*"|'[^']*'|[^\s"']*)` at the head of the text: a
quoted value needs its closing quote; the third alternative always matches,
possibly the empty text. -/
def attributeValueLength : Str → Nat
  | [] => 0
  | q :: rest =>
    if q == '"' || q == Char.ofNat 39 then
      match findSub [q] rest with
      | some k => k + 2
      | none => 0
    else ((q :: rest).takeWhile isUnquoted).length

/-- `RE_TAG_ATTRIBUTE = "[a-zA-Z0-9]+\s*=\s*(\"[^\"]*\"|'[^']*'|[^\s\"']*)"`
at the head of the text: the run of alphanumerics, white space, `=`, white
space, and the value. -/
def RE_TAG_ATTRIBUTE (s : Str) : Option Nat :=
  let run := (s.takeWhile isAlnum).length
  if run == 0 then none
  else
    let s1 := s.drop run
    let sp1 := (s1.takeWhile isSpace).length
    match s1.drop sp1 with
    | e :: s2 =>
      if e == '=' then
        let sp2 := (s2.takeWhile isSpace).length
        some (run + sp1 + 1 + sp2 + attributeValueLength (s2.drop sp2))
      else none
    | [] => none

/-! ## findTag -/

/-- `findTag(html, pos)`: the next tag or comment of `html`; the second
component is `pos` after the call (set to the start of what is returned, left
alone when the result is empty). -/
def findTag (html : Str) (pos : Nat) : Str × Nat :=
  let tag := indexIn RE_TAG html
  let tagPos : Int := toIndex (tag.map Prod.fst)
  let commentBeginPos : Int := indexOf html "<!--".toList 0
  if commentBeginPos ≠ -1 ∧ commentBeginPos < tagPos then
    let commentEndPos : Int := indexOf html "-->".toList commentBeginPos.toNat
    if commentEndPos ≠ -1 then
      let length : Int := commentEndPos + 3 - commentBeginPos
      (mid html commentBeginPos.toNat length, commentBeginPos.toNat)
    else
      ([], pos)
  else
    match tag with
    | some (p, length) => (mid html p length, p)
    | none => ([], pos)

/-! ## Tag -/

/-- `QMap<QString, QString>::operator<` on keys: code units compared
lexicographically. -/
def strLt : Str → Str → Bool
  | [], [] => false
  | [], _ :: _ => true
  | _ :: _, [] => false
  | a :: as, b :: bs => a.toNat < b.toNat || (a == b && strLt as bs)

/-- Modelled from the spec: the attribute table of a Tag (declared in
htmlsed.h, which is not among the sources) is a mapping from attribute name
to value with a deterministic iteration order; it is taken as Qt's `QMap`,
whose `operator[]` assignment overwrites the value of a key that is present
and otherwise inserts the key at its place in ascending key order. -/
def mapInsert (k v : Str) : List (Str × Str) → List (Str × Str)
  | [] => [(k, v)]
  | (k1, v1) :: rest =>
    if k == k1 then (k, v) :: rest
    else if strLt k k1 then (k, v) :: (k1, v1) :: rest
    else (k1, v1) :: mapInsert k v rest

/-- `QMap::value(key)`: the value stored for the key, or the empty text. -/
def mapValue (k : Str) : List (Str × Str) → Str
  | [] => []
  | (k1, v1) :: rest => if k == k1 then v1 else mapValue k rest

/-- `QMap::contains(key)`. -/
def mapContains (k : Str) : List (Str × Str) → Bool
  | [] => false
  | (k1, _) :: rest => k == k1 || mapContains k rest

/-- The members of `HtmlSed::Tag`. -/
structure Tag where
  myName : Str
  myAttributes : List (Str × Str)
  myIsOpening : Bool
  myIsClosing : Bool
  myIsReplaced : Bool
  myReplaceWith : Str
  myBeforeText : Str
  myAfterText : Str

/-- The attribute loop of the constructor (`while (true)` at line 93), with
`data.size()` as the bound on its iterations: every iteration that does not
leave the loop moves `offset` forward. -/
def parseAttributes (data : Str) : Nat → Nat → List (Str × Str) → List (Str × Str)
  | 0, _, attrs => attrs
  | fuel + 1, offset, attrs =>
    match indexIn RE_TAG_ATTRIBUTE (midFrom data offset) with
    | none => attrs
    | some (attrPos, matchedLength) =>
      let attr := mid data (offset + attrPos) matchedLength
      if attr.isEmpty then attrs
      else
        let offset1 := offset + attrPos + matchedLength
        let splitPos := indexOfChar attr '='
        if splitPos ≠ -1 then
          let attrName := toUpper (trimmed (left attr splitPos.toNat))
          let attrValue := trimmed (midFrom attr (splitPos.toNat + 1))
          let attrValue1 :=
            if startsWith attrValue [Char.ofNat 39] || startsWith attrValue ['"'] then
              mid attrValue 1 ((attrValue.length : Int) - 2)
            else attrValue
          parseAttributes data fuel offset1 (mapInsert attrName attrValue1 attrs)
        else parseAttributes data fuel offset1 attrs

/-- `HtmlSed::Tag::Tag(data)`. -/
def Tag.parse (data : Str) : Tag :=
  let myIsClosing0 := startsWith (trimmed data) "</".toList
  let myIsOpening := !myIsClosing0
  let myIsClosing := myIsClosing0 || endsWith (trimmed data) "/>".toList
  match indexIn RE_TAG_NAME data with
  | none =>
    { myName := [], myAttributes := [], myIsOpening := myIsOpening,
      myIsClosing := myIsClosing, myIsReplaced := false, myReplaceWith := [],
      myBeforeText := [], myAfterText := [] }
  | some (pos, length) =>
    { myName := toUpper (trimmed (mid data pos ((length : Int) - 1))),
      myAttributes := parseAttributes data data.length (pos + length) [],
      myIsOpening := myIsOpening, myIsClosing := myIsClosing,
      myIsReplaced := false, myReplaceWith := [],
      myBeforeText := [], myAfterText := [] }

/-- The text the `foreach` of `Tag::toString` appends for the attributes, in
the order of `keys()`. -/
def attributesText : List (Str × Str) → Str
  | [] => []
  | (attr, value) :: rest =>
    " ".toList ++ attr ++ "=\"".toList ++ value ++ "\"".toList ++ attributesText rest

/-- `HtmlSed::Tag::toString`. -/
def Tag.toString (t : Tag) : Str :=
  if t.myIsReplaced then t.myBeforeText ++ t.myReplaceWith ++ t.myAfterText
  else
    let out := "<".toList
      ++ (if !t.myIsOpening && t.myIsClosing then "/".toList else [])
      ++ t.myName
      ++ attributesText t.myAttributes
      ++ (if t.myIsOpening && t.myIsClosing then "/".toList else [])
      ++ ">".toList
    t.myBeforeText ++ out ++ t.myAfterText

/-- Modelled from the spec: `Tag::attribute` (htmlsed.h is not among the
sources) reads the named attribute, the empty text when it is absent. -/
def Tag.attribute (t : Tag) (attr : Str) : Str := mapValue attr t.myAttributes

/-- Modelled from the spec: `Tag::hasAttribute` (htmlsed.h is not among the
sources) tells whether the named attribute exists. -/
def Tag.hasAttribute (t : Tag) (attr : Str) : Bool := mapContains attr t.myAttributes

/-- Modelled from the spec: `Tag::setAttribute` (htmlsed.h is not among the
sources) overwrites the named attribute. -/
def Tag.setAttribute (t : Tag) (attr value : Str) : Tag :=
  { t with myAttributes := mapInsert attr value t.myAttributes }

/-- Modelled from the spec: `Tag::replaceWith` (htmlsed.h is not among the
sources) sets the literal replacement text of the tag. -/
def Tag.replaceWith (t : Tag) (w : Str) : Tag :=
  { t with myIsReplaced := true, myReplaceWith := w }

/-- Modelled from the spec: `Tag::setSurroundings` (htmlsed.h is not among the
sources) sets the text emitted before and after the tag. -/
def Tag.setSurroundings (t : Tag) (before after : Str) : Tag :=
  { t with myBeforeText := before, myAfterText := after }

/-! ## Rules and the rule set -/

/-- Modelled from the spec: `HtmlSed::Rule` (declared in htmlsed.h, which is
not among the sources), one case per `mode` with the fields the `Rule::`
setters of the source assign.  A `regExp` together with its `replaceWith` is
the text transformation `s.replace(regExp, replaceWith)`; the modifier is the
transformation its `modifyTag` performs on the tag. -/
inductive Rule where
  | REPLACE_TAG (replaceWith : Str) (openingTag closingTag : Bool)
  | REPLACE_ATTRIBUTE (attributeName : Str) (replace : Str → Str)
  | REPLACE_CONTENTS (replace : Str → Str)
  | RESOLVE_URL (attributeName : Str) (resolveBaseUrl : Str)
  | SURROUND_TAG (replaceWith replaceWithAfter : Str) (openingTag closingTag : Bool)
  | MODIFY_TAG (tagModifier : Tag → Tag)

/-- The member `myRuleSet`: tag name (the empty text for "every tag") to the
rules registered for it. -/
abbrev RuleSet := List (Str × List Rule)

/-- `myRuleSet.contains(key)`. -/
def RuleSet.contains (rs : RuleSet) (key : Str) : Bool :=
  rs.any (fun e => e.1 == key)

/-- `myRuleSet.value(key, QList<Rule>())`. -/
def RuleSet.value : RuleSet → Str → List Rule
  | [], _ => []
  | (k, rules) :: rest, key => if k == key then rules else RuleSet.value rest key

/-- `HtmlSed::addRule`: the rule is appended to the list of its key. -/
def addRule : RuleSet → Str → Rule → RuleSet
  | [], tag, rule => [(tag, [rule])]
  | (k, rules) :: rest, tag, rule =>
    if k == tag then (k, rules ++ [rule]) :: rest
    else (k, rules) :: addRule rest tag rule

/-! ## HtmlSed::toString -/

/-- The variables of `HtmlSed::toString` that the rules of one tag read and
write. -/
structure Scan where
  html : Str
  offset : Nat
  tagPosition : Nat
  contentStack : List (Str × Nat)
  tag : Tag

/-- The body of the REPLACE_CONTENTS branch (lines 364 to 389). -/
def replaceContents (replace : Str → Str) (s : Scan) : Scan :=
  let s1 : Scan :=
    if s.tag.myIsOpening then
      { s with contentStack :=
          s.contentStack ++ [(s.tag.myName, s.offset + s.tagPosition + s.tag.toString.length)] }
    else s
  match s1.contentStack.getLast? with
  | some item =>
    if s1.tag.myIsClosing && item.1 == s1.tag.myName then
      let n : Int := ((s1.offset + s1.tagPosition : Nat) : Int) - (item.2 : Int)
      let contents := replace (mid s1.html item.2 n)
      { s1 with
        contentStack := s1.contentStack.dropLast
        html := replaceAt s1.html item.2 n contents
        offset := item.2 + contents.length
        tagPosition := 0 }
    else s1
  | none => s1

/-- Whether a URL starts with `http://` or `https://` (line 396). -/
def isAbsoluteUrl (url : Str) : Bool :=
  startsWith url "http://".toList || startsWith url "https://".toList

/-- Whether a REPLACE_TAG or SURROUND_TAG rule targets the tag (lines 424 and
432). -/
def targets (openingTag closingTag : Bool) (t : Tag) : Bool :=
  (openingTag && t.myIsOpening) || (closingTag && t.myIsClosing)

/-- The `foreach (const Rule& rule, rules)` of `HtmlSed::toString`, `break`
included.  `resolved base url` stands for
`QUrl(base).resolved(url).toString()`. -/
def applyRules (resolved : Str → Str → Str) : List Rule → Scan → Scan
  | [], s => s
  | Rule.REPLACE_CONTENTS replace :: _, s => replaceContents replace s
  | Rule.RESOLVE_URL attributeName resolveBaseUrl :: rest, s =>
    let url := s.tag.attribute attributeName
    if isAbsoluteUrl url then s
    else
      applyRules resolved rest
        { s with tag := s.tag.setAttribute attributeName (resolved resolveBaseUrl url) }
  | Rule.REPLACE_ATTRIBUTE attributeName replace :: rest, s =>
    if s.tag.hasAttribute attributeName then
      applyRules resolved rest
        { s with tag := s.tag.setAttribute attributeName (replace (s.tag.attribute attributeName)) }
    else applyRules resolved rest s
  | Rule.REPLACE_TAG replaceWith openingTag closingTag :: rest, s =>
    if targets openingTag closingTag s.tag then
      applyRules resolved rest { s with tag := s.tag.replaceWith replaceWith }
    else applyRules resolved rest s
  | Rule.SURROUND_TAG replaceWith replaceWithAfter openingTag closingTag :: rest, s =>
    if targets openingTag closingTag s.tag then
      applyRules resolved rest
        { s with tag := s.tag.setSurroundings replaceWith replaceWithAfter }
    else applyRules resolved rest s
  | Rule.MODIFY_TAG tagModifier :: rest, s =>
    applyRules resolved rest { s with tag := tagModifier s.tag }

/-- The candidate rules of a tag name (lines 352 to 357): the rules of the
name, then the rules of the empty key. -/
def candidateRules (rs : RuleSet) (name : Str) : List Rule :=
  if rs.contains name || rs.contains [] then rs.value name ++ rs.value []
  else []

/-- The local variables of `HtmlSed::toString` that live across iterations of
its `while (true)`. -/
structure LoopState where
  html : Str
  offset : Nat
  tagPosition : Nat
  contentStack : List (Str × Nat)
  previousTag : Tag

/-- The false-tag test of lines 342 to 344. -/
def isFalseTag (previousTag tag : Tag) : Bool :=
  previousTag.myName == "SCRIPT".toList && !previousTag.myIsClosing &&
    (tag.myName != "SCRIPT".toList || !tag.myIsClosing)

/-- One iteration of the `while (true)` of `HtmlSed::toString`: `Sum.inr` is
the `break` with the text that is returned, `Sum.inl` the state at the next
iteration. -/
def step (resolved : Str → Str → Str) (rs : RuleSet) (st : LoopState) : LoopState ⊕ Str :=
  let found := findTag (midFrom st.html st.offset) st.tagPosition
  let tagData := found.1
  let tagPosition := found.2
  if tagData.isEmpty then Sum.inr st.html
  else if startsWith tagData "<!--".toList then
    Sum.inl { st with offset := st.offset + tagData.length, tagPosition := tagPosition }
  else
    let tag := Tag.parse tagData
    if isFalseTag st.previousTag tag then
      Sum.inl { st with offset := st.offset + tagData.length, tagPosition := tagPosition }
    else
      let s := applyRules resolved (candidateRules rs tag.myName)
        { html := st.html, offset := st.offset, tagPosition := tagPosition,
          contentStack := st.contentStack, tag := tag }
      let newTagData := s.tag.toString
      Sum.inl
        { html := replaceAt s.html (s.offset + s.tagPosition) tagData.length newTagData
          offset := s.offset + s.tagPosition + newTagData.length
          tagPosition := s.tagPosition
          contentStack := s.contentStack
          previousTag := s.tag }

/-- The `while (true)` of `HtmlSed::toString`, run for at most `fuel`
iterations: `none` when the loop has not left by then. -/
def loop (resolved : Str → Str → Str) (rs : RuleSet) : Nat → LoopState → Option Str
  | 0, _ => none
  | fuel + 1, st =>
    match step resolved rs st with
    | Sum.inr out => some out
    | Sum.inl st1 => loop resolved rs fuel st1

/-- The state at the first iteration (lines 311 to 318). -/
def initialState (myHtml : Str) : LoopState :=
  { html := myHtml, offset := 0, tagPosition := 0, contentStack := [],
    previousTag := Tag.parse [] }

/-- `HtmlSed::toString` of an object built from `myHtml` with the rule set
`rs`, its loop run for at most `fuel` iterations. -/
def toString (resolved : Str → Str → Str) (rs : RuleSet) (myHtml : Str) (fuel : Nat) :
    Option Str :=
  loop resolved rs fuel (initialState myHtml)

/-- `HtmlSed::toString` returns `out`: its loop leaves after finitely many
iterations, with `out` as the text. -/
def Returns (resolved : Str → Str → Str) (rs : RuleSet) (myHtml out : Str) : Prop :=
  ∃ fuel, toString resolved rs myHtml fuel = some out


/-! ## Auxiliary definitions used in the statements -/

/-- Every generic tag match of the text (a match of `RE_TAG` starting at any
position) is a fixed point of parsing followed by serialization. -/
def tagsNormalized : Str → Bool
  | [] => true
  | c :: cs =>
    (match RE_TAG (c :: cs) with
     | some l => decide ((Tag.parse ((c :: cs).take l)).toString = (c :: cs).take l)
     | none => true) && tagsNormalized cs

/-- A stand-in for `QUrl(base).resolved(url).toString()` in closed examples
whose rule sets hold no RESOLVE_URL rule: the URL is returned as it is. -/
def resolvedId (_base url : Str) : Str := url

/-- Whether the mode of a rule is REPLACE_CONTENTS. -/
def isReplaceContents : Rule → Bool
  | Rule.REPLACE_CONTENTS _ => true
  | _ => false

/-- The tag that the `foreach` over the rules leaves when it is run on a tag:
the `tag` variable after `applyRules`. -/
def applyTagRules (resolved : Str → Str → Str) (rules : List Rule) (t : Tag) : Tag :=
  (applyRules resolved rules
    { html := [], offset := 0, tagPosition := 0, contentStack := [], tag := t }).tag

/-- The reference of C3, first half: the text is split left to right into
generic tag matches (matches of `RE_TAG`) and the text before each of them;
the second component is the text after the last match.  The first argument
bounds the number of matches looked for; the length of the text is enough
(`splitTags_complete`). -/
def splitTags : Nat → Str → List (Str × Str) × Str
  | 0, s => ([], s)
  | fuel + 1, s =>
    match indexIn RE_TAG s with
    | none => ([], s)
    | some (p, l) =>
      let r := splitTags fuel (s.drop (p + l))
      ((s.take p, (s.drop p).take l) :: r.1, r.2)

/-- The parsed tag of a raw tag text after its candidate rules are applied. -/
def ruledTag (resolved : Str → Str → Str) (rs : RuleSet) (raw : Str) : Tag :=
  applyTagRules resolved (candidateRules rs (Tag.parse raw).myName) (Tag.parse raw)

/-- The reference of C3, second half: every text segment is copied and every
tag match is replaced by the serialization of its tag after the rules. -/
def joinSegments (resolved : Str → Str → Str) (rs : RuleSet) :
    List (Str × Str) → Str → Str
  | [], last => last
  | (text, raw) :: rest, last =>
    text ++ (ruledTag resolved rs raw).toString ++ joinSegments resolved rs rest last

/-- The reference result of C3 for an input. -/
def reference (resolved : Str → Str → Str) (rs : RuleSet) (input : Str) : Str :=
  joinSegments resolved rs (splitTags input.length input).1 (splitTags input.length input).2

/-- A tag named SCRIPT whose closing flag is unset: what makes the tags after
it false tags (first two tests of lines 342 and 343). -/
def isOpenScript (t : Tag) : Bool :=
  t.myName == "SCRIPT".toList && !t.myIsClosing

/-- A modifier for closed examples: it sets the name of the tag to SCRIPT. -/
def renameToScript (t : Tag) : Tag := { t with myName := "SCRIPT".toList }

/-- The text transformation of `contents.replace(QRegExp("A"), "X")`: every
`A` becomes `X`. -/
def replaceAByX (s : Str) : Str := s.map (fun c => if c = 'A' then 'X' else c)

/-! ## The patterns as regular expressions

The three patterns of the source as regular expressions with their standard
meaning, to state that the matchers above compute their matches
(`RE_TAG_iff_matches`, `RE_TAG_NAME_iff_matches`, `RE_TAG_ATTRIBUTE_sound`,
`RE_TAG_ATTRIBUTE_longest`). -/

/-- The syntax of the regular expressions used in the source: character
classes, concatenation, alternation and repetition. -/
inductive RegExp where
  | cls (p : Char → Bool)
  | seq (a b : RegExp)
  | alt (a b : RegExp)
  | star (a : RegExp)

/-- The texts a regular expression matches. -/
inductive Matches : RegExp → Str → Prop
  | cls (p : Char → Bool) (c : Char) : p c = true → Matches (RegExp.cls p) [c]
  | seq (a b : RegExp) (u v : Str) :
      Matches a u → Matches b v → Matches (RegExp.seq a b) (u ++ v)
  | altLeft (a b : RegExp) (u : Str) : Matches a u → Matches (RegExp.alt a b) u
  | altRight (a b : RegExp) (u : Str) : Matches b u → Matches (RegExp.alt a b) u
  | starNil (a : RegExp) : Matches (RegExp.star a) []
  | starCons (a : RegExp) (u v : Str) :
      Matches a u → Matches (RegExp.star a) v → Matches (RegExp.star a) (u ++ v)

/-- One given character. -/
def RegExp.chr (c : Char) : RegExp := RegExp.cls (fun x => x == c)

/-- The repetition `a+`. -/
def RegExp.plus (a : RegExp) : RegExp := RegExp.seq a (RegExp.star a)

/-- The pattern of `RE_TAG`, `<[^!>][^>]*>`. -/
def reTag : RegExp :=
  RegExp.seq (RegExp.chr '<')
    (RegExp.seq (RegExp.cls (fun c => c != '!' && c != '>'))
      (RegExp.seq (RegExp.star (RegExp.cls (fun c => c != '>'))) (RegExp.chr '>')))

/-- The pattern of `RE_TAG_NAME`, `[a-zA-Z0-9]+[\s/>]`. -/
def reTagName : RegExp :=
  RegExp.seq (RegExp.plus (RegExp.cls isAlnum)) (RegExp.cls isNameEnd)

/-- A quoted value, `q[^q]*q`. -/
def reQuoted (q : Char) : RegExp :=
  RegExp.seq (RegExp.chr q)
    (RegExp.seq (RegExp.star (RegExp.cls (fun c => c != q))) (RegExp.chr q))

/-- The value alternation of `RE_TAG_ATTRIBUTE`. -/
def reValue : RegExp :=
  RegExp.alt (reQuoted '"')
    (RegExp.alt (reQuoted (Char.ofNat 39)) (RegExp.star (RegExp.cls isUnquoted)))

/-- The pattern of `RE_TAG_ATTRIBUTE`,
`[a-zA-Z0-9]+\s*=\s*("[^"]*"|'[^']*'|[^\s"']*)`. -/
def reTagAttribute : RegExp :=
  RegExp.seq (RegExp.plus (RegExp.cls isAlnum))
    (RegExp.seq (RegExp.star (RegExp.cls isSpace))
      (RegExp.seq (RegExp.chr '=')
        (RegExp.seq (RegExp.star (RegExp.cls isSpace)) reValue)))

/-! ## Registrations and the iterations over the rules -/

/-- The rule set an object holds after the registrations `regs` (tag key and
rule of each call of `addRule`, in the order of the calls). -/
def register (regs : List (Str × Rule)) : RuleSet :=
  regs.foldl (fun rs e => addRule rs e.1 e.2) []

/-- The rules among the registrations that were registered under a key, in
registration order. -/
def registeredFor (regs : List (Str × Rule)) (key : Str) : List Rule :=
  (regs.filter (fun e => e.1 == key)).map Prod.snd

/-- The iterations of the `foreach` over the rules that are run for a tag: each
rule whose branch is run, in order, with the tag it finds.  The list ends with
the rule that leaves the loop by `break`, if there is one. -/
def evaluated (resolved : Str → Str → Str) : List Rule → Tag → List (Rule × Tag)
  | [], _ => []
  | Rule.REPLACE_CONTENTS replace :: _, t => [(Rule.REPLACE_CONTENTS replace, t)]
  | Rule.RESOLVE_URL attributeName resolveBaseUrl :: rest, t =>
    (Rule.RESOLVE_URL attributeName resolveBaseUrl, t) ::
      (if isAbsoluteUrl (t.attribute attributeName) then []
       else evaluated resolved rest
        (t.setAttribute attributeName (resolved resolveBaseUrl (t.attribute attributeName))))
  | Rule.REPLACE_ATTRIBUTE attributeName replace :: rest, t =>
    (Rule.REPLACE_ATTRIBUTE attributeName replace, t) ::
      evaluated resolved rest
        (if t.hasAttribute attributeName then
          t.setAttribute attributeName (replace (t.attribute attributeName))
         else t)
  | Rule.REPLACE_TAG replaceWith openingTag closingTag :: rest, t =>
    (Rule.REPLACE_TAG replaceWith openingTag closingTag, t) ::
      evaluated resolved rest
        (if targets openingTag closingTag t then t.replaceWith replaceWith else t)
  | Rule.SURROUND_TAG replaceWith replaceWithAfter openingTag closingTag :: rest, t =>
    (Rule.SURROUND_TAG replaceWith replaceWithAfter openingTag closingTag, t) ::
      evaluated resolved rest
        (if targets openingTag closingTag t then t.setSurroundings replaceWith replaceWithAfter
         else t)
  | Rule.MODIFY_TAG tagModifier :: rest, t =>
    (Rule.MODIFY_TAG tagModifier, t) :: evaluated resolved rest (tagModifier t)

/-- Whether the branch of a rule, run on a tag, ends with `break`: always for
REPLACE_CONTENTS, for RESOLVE_URL when the URL is absolute. -/
def stops (e : Rule × Tag) : Bool :=
  match e.1 with
  | Rule.REPLACE_CONTENTS _ => true
  | Rule.RESOLVE_URL attributeName _ => isAbsoluteUrl (e.2.attribute attributeName)
  | _ => false

/-- A modifier for closed examples: it appends `!` to the text emitted before
the tag, so that the output shows how often it was invoked. -/
def markBefore (t : Tag) : Tag := { t with myBeforeText := t.myBeforeText ++ "!".toList }

/-! ## The iterations of the loop and their invariants -/

/-- The state at the iteration number `k` of the `while (true)` started in
`st` (the state of the last iteration, when the loop has left before). -/
def stateAfter (resolved : Str → Str → Str) (rs : RuleSet) : Nat → LoopState → LoopState
  | 0, st => st
  | k + 1, st =>
    match step resolved rs st with
    | Sum.inl st1 => stateAfter resolved rs k st1
    | Sum.inr _ => st

/-- Whether the iteration at `st` runs the branch of a ReplaceContents rule on
a tag that is both opening and closing. -/
def contentsOnBoth (resolved : Str → Str → Str) (rs : RuleSet) (st : LoopState) : Bool :=
  let tagData := (findTag (midFrom st.html st.offset) st.tagPosition).1
  if tagData.isEmpty then false
  else if startsWith tagData "<!--".toList then false
  else
    let tag := Tag.parse tagData
    if isFalseTag st.previousTag tag then false
    else
      (evaluated resolved (candidateRules rs tag.myName) tag).any
        (fun e => isReplaceContents e.1 && e.2.myIsOpening && e.2.myIsClosing)

/-- The invariant of the loop on the offsets: the scan offset is inside the
buffer, every stored offset is at most the scan offset, and the stored offsets
do not decrease from the bottom of the stack to its top. -/
def OffsetsOrdered (st : LoopState) : Prop :=
  st.offset ≤ st.html.length ∧
  (∀ e ∈ st.contentStack, e.2 ≤ st.offset) ∧
  List.Pairwise (fun a b : Str × Nat => a.2 ≤ b.2) st.contentStack

/-- Every stored offset is the end of the text emitted for an opening tag of
the stored name. -/
def Anchored (st : LoopState) : Prop :=
  ∀ e ∈ st.contentStack, ∃ t : Tag, t.myName = e.1 ∧ t.myIsOpening = true ∧
    t.toString <:+ st.html.take e.2

/-- Whether the mode of a rule is MODIFY_TAG. -/
def isModifyTag : Rule → Bool
  | Rule.MODIFY_TAG _ => true
  | _ => false

/-- The state of the scan after the opening tag of a script was emitted as
`pre`: the buffer still starts with `pre` and the script body, the scan offset
is past `pre`, and while the scan offset is inside the body the buffer is as
it was and the previous tag is still the opening tag of the script. -/
def ScriptKept (pre body rest : Str) (opening : Tag) (st : LoopState) : Prop :=
  (pre ++ body) <+: st.html ∧ pre.length ≤ st.offset ∧
  (st.offset < (pre ++ body).length →
    st.html = pre ++ (body ++ ("</script>".toList ++ rest)) ∧ st.previousTag = opening)

/-- The upper-case ASCII letters and the digits. -/
def isUpperOrDigit (c : Char) : Bool :=
  let n := c.toNat
  (65 ≤ n && n ≤ 90) || (48 ≤ n && n ≤ 57)

/-! ## Basic facts -/

theorem loop_mono (resolved : Str → Str → Str) (rs : RuleSet) :
    ∀ (n : Nat) (st : LoopState) (out : Str), loop resolved rs n st = some out →
      ∀ m, n ≤ m → loop resolved rs m st = some out := by
  intro n
  induction n with
  | zero => intro st out h; simp [loop] at h
  | succ n ih =>
    intro st out h m hm
    obtain ⟨k, rfl⟩ : ∃ k, m = k + 1 := ⟨m - 1, by omega⟩
    simp only [loop] at h ⊢
    cases hs : step resolved rs st with
    | inr o => simpa [hs] using h
    | inl st1 =>
      simp only [hs] at h ⊢
      exact ih st1 out h k (by omega)

theorem Returns_unique (resolved : Str → Str → Str) (rs : RuleSet) (myHtml a b : Str)
    (ha : Returns resolved rs myHtml a) (hb : Returns resolved rs myHtml b) : a = b := by
  obtain ⟨n, hn⟩ := ha
  obtain ⟨m, hm⟩ := hb
  have h1 := loop_mono resolved rs n _ a hn (max n m) (le_max_left _ _)
  have h2 := loop_mono resolved rs m _ b hm (max n m) (le_max_right _ _)
  rw [h1] at h2
  exact Option.some.inj h2

@[simp] theorem startsWith_nil (s : Str) : startsWith s [] = true := by
  cases s <;> rfl

@[simp] theorem startsWith_nil_cons (p : Char) (ps : Str) : startsWith [] (p :: ps) = false := rfl

@[simp] theorem startsWith_cons_cons (c p : Char) (cs ps : Str) :
    startsWith (c :: cs) (p :: ps) = (c == p && startsWith cs ps) := rfl

theorem startsWith_iff (p : Str) : ∀ s : Str, startsWith s p = true ↔ ∃ t, s = p ++ t := by
  induction p with
  | nil => intro s; simp
  | cons a p ih =>
    intro s
    cases s with
    | nil => simp
    | cons c cs =>
      simp only [startsWith_cons_cons, Bool.and_eq_true, beq_iff_eq, ih, List.cons_append,
        List.cons.injEq]
      constructor
      · rintro ⟨rfl, t, rfl⟩; exact ⟨t, rfl, rfl⟩
      · rintro ⟨t, rfl, rfl⟩; exact ⟨rfl, t, rfl⟩

theorem startsWith_append (p t : Str) : startsWith (p ++ t) p = true :=
  (startsWith_iff p _).2 ⟨t, rfl⟩

theorem mid_natCast (s : Str) (p l : Nat) : mid s p (l : Int) = (s.drop p).take l := by
  simp [mid]

@[simp] theorem toIndex_some (k : Nat) : toIndex (some k) = (k : Int) := rfl
@[simp] theorem toIndex_none : toIndex none = -1 := rfl

theorem toIndex_ne_neg_one (o : Option Nat) : toIndex o ≠ -1 ↔ o.isSome = true := by
  cases o with
  | none => simp
  | some k => simp [toIndex]

/-- Characterisation of a successful `findSub`. -/
theorem findSub_some (pat : Str) : ∀ (s : Str) (k : Nat), findSub pat s = some k →
    startsWith (s.drop k) pat = true ∧ k ≤ s.length ∧
      ∀ j, j < k → startsWith (s.drop j) pat = false := by
  intro s
  induction s with
  | nil =>
    intro k h
    simp only [findSub] at h
    split at h
    · cases h
      rename_i hp
      have : pat = [] := by simpa using hp
      subst this
      simp
    · cases h
  | cons c cs ih =>
    intro k h
    simp only [findSub] at h
    split at h
    · cases h
      rename_i hp
      exact ⟨by simpa using hp, by simp, by intro j hj; omega⟩
    · rename_i hp
      cases hf : findSub pat cs with
      | none => simp [hf] at h
      | some k1 =>
        simp [hf] at h
        subst h
        obtain ⟨h1, h2, h3⟩ := ih k1 hf
        refine ⟨by simpa using h1, by simpa using h2, ?_⟩
        intro j hj
        cases j with
        | zero => simpa using hp
        | succ j => simpa using h3 j (by omega)

theorem findSub_none (pat : Str) : ∀ (s : Str), findSub pat s = none →
    ∀ j, j ≤ s.length → startsWith (s.drop j) pat = false := by
  intro s
  induction s with
  | nil =>
    intro h j hj
    simp only [findSub] at h
    split at h
    · cases h
    · rename_i hp
      have : j = 0 := by simpa using hj
      subst this
      cases pat with
      | nil => simp at hp
      | cons a p => rfl
  | cons c cs ih =>
    intro h j hj
    simp only [findSub] at h
    split at h
    · cases h
    · rename_i hp
      cases hf : findSub pat cs with
      | some k1 => simp [hf] at h
      | none =>
        cases j with
        | zero => simpa using hp
        | succ j => simpa using ih hf j (by simpa using hj)

theorem findSub_eq_some_of (pat : Str) : ∀ (s : Str) (k : Nat),
    startsWith (s.drop k) pat = true → k ≤ s.length →
    (∀ j, j < k → startsWith (s.drop j) pat = false) → findSub pat s = some k := by
  intro s k h1 h2 h3
  cases hf : findSub pat s with
  | none => 
    have := findSub_none pat s hf k h2
    rw [h1] at this; cases this
  | some k1 =>
    obtain ⟨g1, g2, g3⟩ := findSub_some pat s k1 hf
    rcases Nat.lt_trichotomy k k1 with hlt | heq | hgt
    · have := g3 k hlt; rw [h1] at this; cases this
    · rw [heq]
    · have := h3 k1 hgt; rw [g1] at this; cases this

theorem findSub_eq_none_of (pat : Str) (s : Str)
    (h : ∀ j, j ≤ s.length → startsWith (s.drop j) pat = false) : findSub pat s = none := by
  cases hf : findSub pat s with
  | none => rfl
  | some k1 =>
    obtain ⟨g1, g2, g3⟩ := findSub_some pat s k1 hf
    have := h k1 g2; rw [g1] at this; cases this

/-- Characterisation of a successful `indexIn`. -/
theorem indexIn_some (m : Str → Option Nat) : ∀ (s : Str) (k l : Nat),
    indexIn m s = some (k, l) →
    m (s.drop k) = some l ∧ k ≤ s.length ∧ ∀ j, j < k → m (s.drop j) = none := by
  intro s
  induction s with
  | nil =>
    intro k l h
    simp only [indexIn] at h
    cases hm : m [] with
    | none => simp [hm] at h
    | some l1 =>
      simp [hm] at h
      obtain ⟨rfl, rfl⟩ := h
      exact ⟨by simpa using hm, by simp, by intro j hj; omega⟩
  | cons c cs ih =>
    intro k l h
    simp only [indexIn] at h
    cases hm : m (c :: cs) with
    | some l1 =>
      simp [hm] at h
      obtain ⟨rfl, rfl⟩ := h
      exact ⟨by simpa using hm, by simp, by intro j hj; omega⟩
    | none =>
      simp only [hm] at h
      cases hf : indexIn m cs with
      | none => simp [hf] at h
      | some q =>
        obtain ⟨k1, l1⟩ := q
        simp [hf] at h
        obtain ⟨rfl, rfl⟩ := h
        obtain ⟨h1, h2, h3⟩ := ih k1 l1 hf
        refine ⟨by simpa using h1, by simpa using h2, ?_⟩
        intro j hj
        cases j with
        | zero => simpa using hm
        | succ j => simpa using h3 j (by omega)

theorem indexIn_none (m : Str → Option Nat) : ∀ (s : Str), indexIn m s = none →
    ∀ j, j ≤ s.length → m (s.drop j) = none := by
  intro s
  induction s with
  | nil =>
    intro h j hj
    simp only [indexIn] at h
    have : j = 0 := by simpa using hj
    subst this
    cases hm : m [] with
    | none => simpa using hm
    | some l1 => simp [hm] at h
  | cons c cs ih =>
    intro h j hj
    simp only [indexIn] at h
    cases hm : m (c :: cs) with
    | some l1 => simp [hm] at h
    | none =>
      simp only [hm] at h
      cases hf : indexIn m cs with
      | some q => simp [hf] at h
      | none =>
        cases j with
        | zero => simpa using hm
        | succ j => simpa using ih hf j (by simpa using hj)

theorem indexIn_eq_some_of (m : Str → Option Nat) (s : Str) (k l : Nat)
    (h1 : m (s.drop k) = some l) (h2 : k ≤ s.length)
    (h3 : ∀ j, j < k → m (s.drop j) = none) : indexIn m s = some (k, l) := by
  cases hf : indexIn m s with
  | none =>
    have := indexIn_none m s hf k h2
    rw [h1] at this; cases this
  | some q =>
    obtain ⟨k1, l1⟩ := q
    obtain ⟨g1, g2, g3⟩ := indexIn_some m s k1 l1 hf
    rcases Nat.lt_trichotomy k k1 with hlt | heq | hgt
    · have := g3 k hlt; rw [h1] at this; cases this
    · subst heq; rw [h1] at g1; cases g1; rfl
    · have := h3 k1 hgt; rw [g1] at this; cases this

theorem indexIn_eq_none_of (m : Str → Option Nat) (s : Str)
    (h : ∀ j, j ≤ s.length → m (s.drop j) = none) : indexIn m s = none := by
  cases hf : indexIn m s with
  | none => rfl
  | some q =>
    obtain ⟨k1, l1⟩ := q
    obtain ⟨g1, g2, g3⟩ := indexIn_some m s k1 l1 hf
    have := h k1 g2; rw [g1] at this; cases this

theorem RE_TAG_some (s : Str) (l : Nat) (h : RE_TAG s = some l) :
    ∃ b rest k, s = '<' :: b :: rest ∧ b ≠ '!' ∧ b ≠ '>' ∧
      findSub ['>'] rest = some k ∧ l = k + 3 := by
  match s, h with
  | [], h => simp [RE_TAG] at h
  | [_], h => simp [RE_TAG] at h
  | a :: b :: rest, h =>
    simp only [RE_TAG] at h
    split at h
    · rename_i hc
      simp only [Bool.and_eq_true, beq_iff_eq, bne_iff_ne, ne_eq] at hc
      obtain ⟨⟨rfl, hb1⟩, hb2⟩ := hc
      cases hf : findSub ['>'] rest with
      | none => simp [hf] at h
      | some k =>
        simp [hf] at h
        exact ⟨b, rest, k, rfl, hb1, hb2, hf, h.symm⟩
    · cases h

theorem RE_TAG_cons_ne (c : Char) (t : Str) (h : c ≠ '<') : RE_TAG (c :: t) = none := by
  cases t with
  | nil => rfl
  | cons b rest =>
    simp only [RE_TAG]
    have : (c == '<') = false := by simpa using h
    simp [this]

/-- What `findTag` can return. -/
theorem findTag_cases (html : Str) (pos : Nat) :
    findTag html pos = ([], pos) ∨
    (∃ cb l, findSub "<!--".toList html = some cb ∧
      findTag html pos = ((html.drop cb).take l, cb) ∧
      startsWith ((html.drop cb).take l) "<!--".toList = true) ∨
    (∃ p l, indexIn RE_TAG html = some (p, l) ∧
      findTag html pos = ((html.drop p).take l, p)) := by
  unfold findTag
  simp only [indexOf, List.drop_zero]
  cases hc : findSub "<!--".toList html with
  | none =>
    cases ht : indexIn RE_TAG html with
    | none => left; simp
    | some q =>
      obtain ⟨p, l⟩ := q
      right; right
      refine ⟨p, l, rfl, ?_⟩
      simp [mid_natCast]
  | some cb =>
    cases ht : indexIn RE_TAG html with
    | none =>
      left
      have hcond : ¬ (toIndex (Option.map (fun x => x + 0) (some cb)) ≠ -1 ∧
          toIndex (Option.map (fun x => x + 0) (some cb)) <
            toIndex (Option.map Prod.fst (none : Option (Nat × Nat)))) := by
        simp; omega
      rw [if_neg hcond]
    | some q =>
      obtain ⟨p, l⟩ := q
      by_cases hlt : cb < p
      · have hcond : (toIndex (Option.map (fun x => x + 0) (some cb)) ≠ -1 ∧
            toIndex (Option.map (fun x => x + 0) (some cb)) <
              toIndex (Option.map Prod.fst (some (p, l)))) := by
          simp; omega
        rw [if_pos hcond]
        simp only [Option.map_some', Nat.add_zero, toIndex_some, Int.toNat_ofNat]
        cases he : findSub "-->".toList (html.drop cb) with
        | none => left; simp
        | some k =>
          right; left
          obtain ⟨c1, c2, c3⟩ := findSub_some _ _ _ hc
          obtain ⟨e1, e2, e3⟩ := findSub_some _ _ _ he
          obtain ⟨t, ht1⟩ := (startsWith_iff _ _).1 c1
          have hk : 1 ≤ k := by
            rcases Nat.eq_zero_or_pos k with h0 | h0
            · subst h0
              rw [ht1] at e1
              simp [startsWith] at e1
            · exact h0
          have hne : toIndex (Option.map (fun x => x + cb) (some k)) ≠ -1 := by
            simp; omega
          rw [if_pos hne]
          refine ⟨cb, k + 3, rfl, ?_, ?_⟩
          · simp only [Option.map_some', toIndex_some]
            have : ((k + cb : Nat) : Int) + 3 - (cb : Int) = ((k + 3 : Nat) : Int) := by
              push_cast; omega
            rw [this, mid_natCast]
          · rw [ht1]
            obtain ⟨k1, rfl⟩ : ∃ k1, k = k1 + 1 := ⟨k - 1, by omega⟩
            simp [startsWith]
      · have hcond : ¬ (toIndex (Option.map (fun x => x + 0) (some cb)) ≠ -1 ∧
            toIndex (Option.map (fun x => x + 0) (some cb)) <
              toIndex (Option.map Prod.fst (some (p, l)))) := by
          simp; omega
        rw [if_neg hcond]
        right; right
        exact ⟨p, l, rfl, by simp [mid_natCast]⟩

theorem step_done (resolved : Str → Str → Str) (rs : RuleSet) (st : LoopState) (p : Nat)
    (h : findTag (st.html.drop st.offset) st.tagPosition = ([], p)) :
    step resolved rs st = Sum.inr st.html := by
  simp [step, midFrom, h]

theorem step_comment (resolved : Str → Str → Str) (rs : RuleSet) (st : LoopState)
    (t : Str) (p : Nat)
    (h : findTag (st.html.drop st.offset) st.tagPosition = (t, p))
    (hc : startsWith t "<!--".toList = true) :
    step resolved rs st =
      Sum.inl { st with offset := st.offset + t.length, tagPosition := p } := by
  have hne : t.isEmpty = false := by
    cases t with
    | nil => simp [startsWith] at hc
    | cons a b => rfl
  simp only [step, midFrom, h, hne, hc]
  simp

theorem step_false (resolved : Str → Str → Str) (rs : RuleSet) (st : LoopState)
    (t : Str) (p : Nat)
    (h : findTag (st.html.drop st.offset) st.tagPosition = (t, p))
    (hne : t ≠ [])
    (hc : startsWith t "<!--".toList = false)
    (hf : isFalseTag st.previousTag (Tag.parse t) = true) :
    step resolved rs st =
      Sum.inl { st with offset := st.offset + t.length, tagPosition := p } := by
  have hne : t.isEmpty = false := by
    cases t with
    | nil => exact absurd rfl hne
    | cons a b => rfl
  simp only [step, midFrom, h, hne, hc, hf]
  simp

theorem step_tag (resolved : Str → Str → Str) (rs : RuleSet) (st : LoopState)
    (t : Str) (p : Nat)
    (h : findTag (st.html.drop st.offset) st.tagPosition = (t, p))
    (hne : t ≠ [])
    (hc : startsWith t "<!--".toList = false)
    (hf : isFalseTag st.previousTag (Tag.parse t) = false) :
    step resolved rs st =
      let s := applyRules resolved (candidateRules rs (Tag.parse t).myName)
        { html := st.html, offset := st.offset, tagPosition := p,
          contentStack := st.contentStack, tag := Tag.parse t }
      Sum.inl
        { html := replaceAt s.html (s.offset + s.tagPosition) t.length s.tag.toString
          offset := s.offset + s.tagPosition + s.tag.toString.length
          tagPosition := s.tagPosition
          contentStack := s.contentStack
          previousTag := s.tag } := by
  have hne : t.isEmpty = false := by
    cases t with
    | nil => exact absurd rfl hne
    | cons a b => rfl
  simp only [step, midFrom, h, hne, hc, hf]
  simp

theorem RE_TAG_take (s : Str) (l : Nat) (h : RE_TAG s = some l) :
    (s.take l).length = l ∧ 3 ≤ l ∧ s.take l ≠ [] ∧
      startsWith (s.take l) "<!--".toList = false := by
  obtain ⟨b, rest, k, rfl, hb1, hb2, hf, rfl⟩ := RE_TAG_some s l h
  obtain ⟨f1, f2, f3⟩ := findSub_some _ _ _ hf
  obtain ⟨t, ht⟩ := (startsWith_iff _ _).1 f1
  have hlen : k + 1 ≤ rest.length := by
    have := congrArg List.length ht
    simp at this
    omega
  refine ⟨by simp; omega, by omega, by simp, ?_⟩
  simp [startsWith, hb1]

theorem replaceAt_take_drop (s : Str) (pos l : Nat) :
    replaceAt s pos (((s.drop pos).take l).length : Nat) ((s.drop pos).take l) = s := by
  unfold replaceAt
  split
  · rfl
  · rename_i h
    have hle : pos ≤ s.length := by omega
    have h1 : ¬ ((((s.drop pos).take l).length : Nat) : Int) > (s.length : Int) - (pos : Int) := by
      simp only [List.length_take, List.length_drop]
      omega
    simp only [h1, if_false]
    have h2 : ((pos : Int) + (((s.drop pos).take l).length : Nat)).toNat
        = pos + ((s.drop pos).take l).length := by
      omega
    rw [h2]
    have h3 : (s.drop pos).take l = (s.drop pos).take ((s.drop pos).take l).length := by
      simp only [List.length_take, List.length_drop]
      rw [List.take_eq_take]
      simp
    have h4 : s.drop (pos + ((s.drop pos).take l).length)
        = (s.drop pos).drop ((s.drop pos).take l).length := by
      rw [List.drop_drop]
    have key : ∀ (t : Str) (n : Nat), t = (s.drop pos).take n →
        s.take pos ++ (t ++ (s.drop pos).drop n) = s := by
      intro t n ht
      subst ht
      rw [List.take_append_drop, List.take_append_drop]
    rw [h4, List.append_assoc]
    exact key _ _ h3

theorem tagsNormalized_drop : ∀ (s : Str), tagsNormalized s = true → ∀ (p l : Nat),
    RE_TAG (s.drop p) = some l →
    (Tag.parse ((s.drop p).take l)).toString = (s.drop p).take l := by
  intro s
  induction s with
  | nil => intro _ p l h; simp [RE_TAG] at h
  | cons c cs ih =>
    intro hn p l h
    simp only [tagsNormalized, Bool.and_eq_true] at hn
    cases p with
    | zero =>
      simp only [List.drop_zero] at h ⊢
      have h1 := hn.1
      rw [h] at h1
      simpa using h1
    | succ p =>
      simp only [List.drop_succ_cons] at h ⊢
      exact ih hn.2 p l h

theorem loop_normalized (resolved : Str → Str → Str) (input : Str)
    (hn : tagsNormalized input = true) :
    ∀ (k : Nat) (st : LoopState), st.html = input → input.length - st.offset ≤ k →
      loop resolved [] (k + 1) st = some input := by
  intro k
  induction k with
  | zero =>
    intro st hst hk
    have hrem : st.html.drop st.offset = [] := by
      apply List.drop_eq_nil_of_le; rw [hst]; omega
    have : findTag (st.html.drop st.offset) st.tagPosition = ([], st.tagPosition) := by
      rw [hrem]; rfl
    simp [loop, step_done resolved [] st _ this, hst]
  | succ k ih =>
    intro st hst hk
    rcases findTag_cases (st.html.drop st.offset) st.tagPosition with h | h | h
    · simp [loop, step_done resolved [] st _ h, hst]
    · obtain ⟨cb, l, _, h2, h3⟩ := h
      have hlen : 4 ≤ ((st.html.drop st.offset).drop cb |>.take l).length := by
        obtain ⟨t, ht⟩ := (startsWith_iff _ _).1 h3
        rw [ht]; simp
      rw [loop, step_comment resolved [] st _ _ h2 h3]
      exact ih _ hst (by simp only; omega)
    · obtain ⟨p, l, h1, h2⟩ := h
      obtain ⟨g1, g2, g3⟩ := indexIn_some _ _ _ _ h1
      obtain ⟨t1, t2, t3, t4⟩ := RE_TAG_take _ _ g1
      cases hf : isFalseTag st.previousTag (Tag.parse (((st.html.drop st.offset).drop p).take l))
      · rw [loop, step_tag resolved [] st _ _ h2 t3 t4 hf]
        have hc : candidateRules []
            (Tag.parse (((st.html.drop st.offset).drop p).take l)).myName = [] := by
          simp [candidateRules, RuleSet.contains]
        simp only [hc, applyRules]
        have hfix := tagsNormalized_drop input hn (st.offset + p) l
          (by rw [← hst, ← List.drop_drop]; exact g1)
        rw [← hst, ← List.drop_drop] at hfix
        rw [hfix]
        apply ih
        · simp only
          rw [List.drop_drop]
          rw [replaceAt_take_drop]
          exact hst
        · simp only; omega
      · rw [loop, step_false resolved [] st _ _ h2 t3 t4 hf]
        exact ih _ hst (by simp only; omega)

theorem upperChar_ne_slash (c : Char) (h : isAlnum c = true) : upperChar c ≠ '/' := by
  unfold upperChar
  split
  · rename_i hl
    simp only [Bool.and_eq_true, decide_eq_true_eq] at hl
    obtain ⟨h1, h2⟩ := hl
    generalize c.toNat = n at h1 h2
    interval_cases n <;> decide
  · rename_i hl
    intro hc
    subst hc
    revert h
    decide

theorem isAlnum_not_space (c : Char) (h : isAlnum c = true) : isSpace c = false := by
  unfold isAlnum at h
  unfold isSpace
  simp only [Bool.or_eq_true, Bool.and_eq_true, decide_eq_true_eq] at h
  simp only [Bool.or_eq_false_iff, Bool.and_eq_false_iff, decide_eq_false_iff_not, beq_eq_false_iff_ne]
  generalize c.toNat = n at h
  omega

theorem trimmed_eq_self (a : Char) (m : Str) (z : Char) (ha : isSpace a = false)
    (hz : isSpace z = false) : trimmed (a :: (m ++ [z])) = a :: (m ++ [z]) := by
  simp [trimmed, List.dropWhile, ha, hz]

theorem trimmed_singleton (a : Char) (ha : isSpace a = false) : trimmed [a] = [a] := by
  simp [trimmed, List.dropWhile, ha]

theorem parse_flags (data : Str) :
    (Tag.parse data).myIsOpening = !startsWith (trimmed data) "</".toList ∧
    (Tag.parse data).myIsClosing =
      (startsWith (trimmed data) "</".toList || endsWith (trimmed data) "/>".toList) ∧
    (Tag.parse data).myIsReplaced = false ∧
    (Tag.parse data).myBeforeText = [] ∧ (Tag.parse data).myAfterText = [] ∧
    (Tag.parse data).myReplaceWith = [] := by
  unfold Tag.parse
  cases indexIn RE_TAG_NAME data with
  | none => simp
  | some q => simp

theorem takeWhile_length_take (p : Char → Bool) : ∀ s : Str,
    s.take (s.takeWhile p).length = s.takeWhile p := by
  intro s
  induction s with
  | nil => rfl
  | cons a t ih =>
    by_cases h : p a = true
    · simp [List.takeWhile, h, ih]
    · simp [List.takeWhile, h]

theorem trimmed_of_no_space (w : Str) (h : ∀ c ∈ w, isSpace c = false) : trimmed w = w := by
  rcases List.eq_nil_or_concat w with rfl | ⟨m, z, hw⟩
  · rfl
  · rw [List.concat_eq_append] at hw
    subst hw
    cases m with
    | nil =>
      simpa using trimmed_singleton z (h z (by simp))
    | cons a m =>
      exact trimmed_eq_self a m z (h a (by simp)) (h z (by simp))

theorem RE_TAG_NAME_some (s : Str) (l : Nat) (h : RE_TAG_NAME s = some l) :
    (s.takeWhile isAlnum).length ≠ 0 ∧ l = (s.takeWhile isAlnum).length + 1 := by
  unfold RE_TAG_NAME at h
  simp only [beq_iff_eq] at h
  split at h
  · cases h
  · rename_i hr
    split at h
    · split at h
      · exact ⟨hr, by cases h; rfl⟩
      · cases h
    · cases h

/-- The name of a parsed tag: upper-cased alphanumerics. -/
theorem parse_name_chars (data : Str) :
    ∀ c ∈ (Tag.parse data).myName, ∃ c0, isAlnum c0 = true ∧ c = upperChar c0 := by
  unfold Tag.parse
  cases hi : indexIn RE_TAG_NAME data with
  | none => simp
  | some q =>
    obtain ⟨pos, l⟩ := q
    obtain ⟨h1, _, _⟩ := indexIn_some _ _ _ _ hi
    obtain ⟨hr, hl⟩ := RE_TAG_NAME_some _ _ h1
    have hmid : mid data pos ((l : Int) - 1) = (data.drop pos).takeWhile isAlnum := by
      have : ((l : Int) - 1) = (((data.drop pos).takeWhile isAlnum).length : Nat) := by
        rw [hl]; push_cast; omega
      rw [this, mid_natCast, takeWhile_length_take]
    have hal : ∀ c ∈ (data.drop pos).takeWhile isAlnum, isAlnum c = true := by
      intro c hc
      exact List.mem_takeWhile_imp hc
    have htr : trimmed ((data.drop pos).takeWhile isAlnum) = (data.drop pos).takeWhile isAlnum :=
      trimmed_of_no_space _ (fun c hc => isAlnum_not_space c (hal c hc))
    simp only [hmid, htr, toUpper]
    intro c hc
    obtain ⟨c0, hc0, rfl⟩ := List.mem_map.1 hc
    exact ⟨c0, hal c0 hc0, rfl⟩

theorem parse_name_no_slash (data : Str) : ∀ c ∈ (Tag.parse data).myName, c ≠ '/' := by
  intro c hc
  obtain ⟨c0, h0, rfl⟩ := parse_name_chars data c hc
  exact upperChar_ne_slash c0 h0

theorem attributesText_shape (attrs : List (Str × Str)) :
    attrs = [] ∨ ∃ m, attributesText attrs = ' ' :: (m ++ ['"']) := by
  induction attrs with
  | nil => left; rfl
  | cons a rest ih =>
    right
    obtain ⟨k, v⟩ := a
    rcases ih with h | ⟨m, hm⟩
    · subst h
      refine ⟨k ++ "=\"".toList ++ v, ?_⟩
      simp [attributesText]
    · refine ⟨k ++ "=\"".toList ++ v ++ "\"".toList ++ ' ' :: m, ?_⟩
      simp [attributesText, hm]

theorem endsWith_append_two (s : Str) (a b c d : Char) :
    endsWith (s ++ [a, b]) [c, d] = (a == c && b == d) := by
  simp [endsWith, startsWith, Bool.and_comm]

theorem toString_unreplaced (t : Tag) (h : t.myIsReplaced = false) :
    t.toString = t.myBeforeText ++ ('<' ::
      ((if t.myIsOpening = false ∧ t.myIsClosing = true then ['/'] else []) ++ t.myName ++
        attributesText t.myAttributes ++
        (if t.myIsOpening = true ∧ t.myIsClosing = true then ['/'] else []) ++ ['>'])) ++
      t.myAfterText := by
  simp [Tag.toString, h]

theorem endsWith_slash (pre : Str) (x : Str) :
    endsWith ('<' :: (pre ++ x ++ ['/'] ++ ['>'])) "/>".toList = true := by
  simp [endsWith, startsWith]

theorem endsWith_other (pre : Str) (z : Char) (hz : z ≠ '/') :
    endsWith ('<' :: (pre ++ [z] ++ ['>'])) "/>".toList = false := by
  simp [endsWith, startsWith, hz]

/-- The generic tag wins when no comment opener lies before it. -/
theorem findTag_tag (html : Str) (pos p l : Nat)
    (ht : indexIn RE_TAG html = some (p, l))
    (hc : ∀ cb, findSub "<!--".toList html = some cb → p ≤ cb) :
    findTag html pos = ((html.drop p).take l, p) := by
  unfold findTag
  simp only [indexOf, List.drop_zero, ht]
  cases hf : findSub "<!--".toList html with
  | none => simp [mid_natCast]
  | some cb =>
    have := hc cb hf
    have hcond : ¬ (toIndex (Option.map (fun x => x + 0) (some cb)) ≠ -1 ∧
        toIndex (Option.map (fun x => x + 0) (some cb)) <
          toIndex (Option.map Prod.fst (some (p, l)))) := by
      simp; omega
    rw [if_neg hcond]
    simp [mid_natCast]

/-- Without a generic tag nothing is found, whether or not there is a
comment. -/
theorem findTag_none (html : Str) (pos : Nat) (ht : indexIn RE_TAG html = none) :
    findTag html pos = ([], pos) := by
  unfold findTag
  simp only [indexOf, List.drop_zero, ht]
  cases hx : findSub "<!--".toList html with
  | none => simp
  | some cb =>
    have hcond : ¬ (toIndex (Option.map (fun x => x + 0) (some cb)) ≠ -1 ∧
        toIndex (Option.map (fun x => x + 0) (some cb)) <
          toIndex (Option.map Prod.fst (none : Option (Nat × Nat)))) := by
      simp; omega
    rw [if_neg hcond]

theorem findSub_char (c : Char) (body rest : Str) (h : ∀ x ∈ body, x ≠ c) :
    findSub [c] (body ++ c :: rest) = some body.length := by
  induction body with
  | nil => simp [findSub]
  | cons a body ih =>
    have ha : a ≠ c := h a (by simp)
    have := ih (fun x hx => h x (by simp [hx]))
    simp [findSub, ha, this]

theorem RE_TAG_of_shape (b : Char) (body rest : Str) (hb1 : b ≠ '!') (hb2 : b ≠ '>')
    (hbody : ∀ x ∈ body, x ≠ '>') :
    RE_TAG ('<' :: b :: (body ++ '>' :: rest)) = some (body.length + 3) := by
  simp [RE_TAG, hb1, hb2, findSub_char '>' body rest hbody]

theorem startsWith_drop_lt (pre rem pat : Str) (a : Char) (j : Nat) (hj : j < pre.length)
    (hpre : ∀ c ∈ pre, c ≠ a) :
    startsWith ((pre ++ rem).drop j) (a :: pat) = false := by
  have h1 : (pre ++ rem).drop j = pre.drop j ++ rem := by
    rw [List.drop_append_of_le_length (by omega)]
  rw [h1]
  cases hd : pre.drop j with
  | nil =>
    have := congrArg List.length hd
    simp at this
    omega
  | cons x xs =>
    have hx : x ∈ pre := List.mem_of_mem_drop (by rw [hd]; simp)
    have := hpre x hx
    simp [this]

theorem RE_TAG_drop_lt (pre rem : Str) (j : Nat) (hj : j < pre.length)
    (hpre : ∀ c ∈ pre, c ≠ '<') :
    RE_TAG ((pre ++ rem).drop j) = none := by
  have h1 : (pre ++ rem).drop j = pre.drop j ++ rem := by
    rw [List.drop_append_of_le_length (by omega)]
  rw [h1]
  cases hd : pre.drop j with
  | nil =>
    have := congrArg List.length hd
    simp at this
    omega
  | cons x xs =>
    have hx : x ∈ pre := List.mem_of_mem_drop (by rw [hd]; simp)
    exact RE_TAG_cons_ne x _ (hpre x hx)

/-- After text without `<`, a generic tag match is what `findTag` returns. -/
theorem findTag_plain (pre t rest : Str) (pos : Nat) (hpre : ∀ c ∈ pre, c ≠ '<')
    (ht : RE_TAG (t ++ rest) = some t.length) :
    findTag (pre ++ (t ++ rest)) pos = (t, pre.length) := by
  have hi : indexIn RE_TAG (pre ++ (t ++ rest)) = some (pre.length, t.length) := by
    apply indexIn_eq_some_of
    · simpa using ht
    · simp
    · intro j hj
      exact RE_TAG_drop_lt pre _ j hj hpre
  have := findTag_tag (pre ++ (t ++ rest)) pos pre.length t.length hi (by
    intro cb hcb
    obtain ⟨c1, _, _⟩ := findSub_some _ _ _ hcb
    by_contra hlt
    have := startsWith_drop_lt pre (t ++ rest) "!--".toList '<' cb (by omega) hpre
    have c2 : startsWith (List.drop cb (pre ++ (t ++ rest))) ('<' :: "!--".toList) = true := c1
    rw [this] at c2
    cases c2)
  simpa using this

theorem applyRules_no_contents (resolved : Str → Str → Str) :
    ∀ (rules : List Rule) (s : Scan), (∀ r ∈ rules, isReplaceContents r = false) →
      applyRules resolved rules s = { s with tag := applyTagRules resolved rules s.tag } := by
  intro rules
  induction rules with
  | nil => intro s _; rfl
  | cons r rest ih =>
    intro s h
    have hrest : ∀ r ∈ rest, isReplaceContents r = false := fun r hr => h r (by simp [hr])
    have hr := h r (by simp)
    cases r with
    | REPLACE_CONTENTS f => simp [isReplaceContents] at hr
    | REPLACE_TAG w o c =>
      simp only [applyRules, applyTagRules]
      split
      · rw [ih _ hrest, ih _ hrest]
      · rw [ih _ hrest, ih _ hrest]
    | REPLACE_ATTRIBUTE a f =>
      simp only [applyRules, applyTagRules]
      split
      · rw [ih _ hrest, ih _ hrest]
      · rw [ih _ hrest, ih _ hrest]
    | RESOLVE_URL a b =>
      simp only [applyRules, applyTagRules]
      split
      · rfl
      · rw [ih _ hrest, ih _ hrest]
    | SURROUND_TAG b a o c =>
      simp only [applyRules, applyTagRules]
      split
      · rw [ih _ hrest, ih _ hrest]
      · rw [ih _ hrest, ih _ hrest]
    | MODIFY_TAG f =>
      simp only [applyRules, applyTagRules]
      rw [ih _ hrest, ih _ hrest]

theorem replaceAt_append (a t r new : Str) :
    replaceAt (a ++ (t ++ r)) a.length (t.length : Nat) new = a ++ (new ++ r) := by
  unfold replaceAt
  have h0 : ¬ (a ++ (t ++ r)).length < a.length := by simp
  rw [if_neg h0]
  have h1 : ¬ ((t.length : Nat) : Int) > ((a ++ (t ++ r)).length : Int) - (a.length : Int) := by
    simp only [List.length_append]; push_cast; omega
  simp only [h1, if_false]
  have h2 : ((a.length : Int) + (t.length : Nat)).toNat = a.length + t.length := by omega
  rw [h2]
  simp [List.drop_append]

/-- One iteration at a generic tag that follows text without `<`, when no
candidate rule is a ReplaceContents rule. -/
theorem step_plain (resolved : Str → Str → Str) (rs : RuleSet)
    (done pre t rest : Str) (tp : Nat) (cs : List (Str × Nat)) (prev : Tag)
    (hpre : ∀ c ∈ pre, c ≠ '<')
    (ht : RE_TAG (t ++ rest) = some t.length)
    (hfalse : isFalseTag prev (Tag.parse t) = false)
    (hrules : ∀ r ∈ candidateRules rs (Tag.parse t).myName, isReplaceContents r = false) :
    step resolved rs
      { html := done ++ (pre ++ (t ++ rest)), offset := done.length, tagPosition := tp,
        contentStack := cs, previousTag := prev } =
    Sum.inl
      { html := (done ++ pre ++
            (applyTagRules resolved (candidateRules rs (Tag.parse t).myName)
              (Tag.parse t)).toString) ++ rest
        offset := (done ++ pre ++
            (applyTagRules resolved (candidateRules rs (Tag.parse t).myName)
              (Tag.parse t)).toString).length
        tagPosition := pre.length
        contentStack := cs
        previousTag :=
          applyTagRules resolved (candidateRules rs (Tag.parse t).myName) (Tag.parse t) } := by
  have hfind : findTag (List.drop done.length (done ++ (pre ++ (t ++ rest)))) tp
      = (t, pre.length) := by
    rw [List.drop_left]; exact findTag_plain pre t rest tp hpre ht
  obtain ⟨t1, t2, t3, t4⟩ := RE_TAG_take _ _ ht
  have htake : (t ++ rest).take t.length = t := by simp
  rw [htake] at t3 t4
  rw [step_tag resolved rs _ t pre.length hfind t3 t4 hfalse]
  simp only [applyRules_no_contents resolved _ _ hrules]
  have e : done ++ (pre ++ (t ++ rest)) = (done ++ pre) ++ (t ++ rest) := by simp
  have e2 : done.length + pre.length = (done ++ pre).length := by simp
  rw [e, e2, replaceAt_append]
  simp [Nat.add_assoc]

theorem loop_inl (resolved : Str → Str → Str) (rs : RuleSet) (n : Nat) (st st1 : LoopState)
    (h : step resolved rs st = Sum.inl st1) :
    loop resolved rs (n + 1) st = loop resolved rs n st1 := by
  simp [loop, h]

theorem loop_end (resolved : Str → Str → Str) (rs : RuleSet) (n : Nat) (html : Str)
    (tp : Nat) (cs : List (Str × Nat)) (prev : Tag) :
    loop resolved rs (n + 1)
      { html := html, offset := html.length, tagPosition := tp, contentStack := cs,
        previousTag := prev } = some html := by
  have : step resolved rs
      { html := html, offset := html.length, tagPosition := tp, contentStack := cs,
        previousTag := prev } = Sum.inr html := by
    apply step_done (p := tp)
    simp [findTag_none]
    rfl
  simp [loop, this]

@[simp] theorem parse_myBeforeText (data : Str) : (Tag.parse data).myBeforeText = [] :=
  (parse_flags data).2.2.2.1

@[simp] theorem parse_myAfterText (data : Str) : (Tag.parse data).myAfterText = [] :=
  (parse_flags data).2.2.2.2.1

@[simp] theorem parse_myIsReplaced (data : Str) : (Tag.parse data).myIsReplaced = false :=
  (parse_flags data).2.2.1

theorem loop_plain (resolved : Str → Str → Str) (rs : RuleSet) (n : Nat) (st : LoopState)
    (done pre t rest : Str)
    (hhtml : st.html = done ++ (pre ++ (t ++ rest))) (hoff : st.offset = done.length)
    (hpre : ∀ c ∈ pre, c ≠ '<')
    (ht : RE_TAG (t ++ rest) = some t.length)
    (hfalse : isFalseTag st.previousTag (Tag.parse t) = false)
    (hrules : ∀ r ∈ candidateRules rs (Tag.parse t).myName, isReplaceContents r = false)
    (tag1 : Tag)
    (htag : applyTagRules resolved (candidateRules rs (Tag.parse t).myName) (Tag.parse t) = tag1)
    (new : Str) (hnew : tag1.toString = new) :
    loop resolved rs (n + 1) st =
      loop resolved rs n
        { html := done ++ pre ++ new ++ rest, offset := (done ++ pre ++ new).length,
          tagPosition := pre.length, contentStack := st.contentStack, previousTag := tag1 } := by
  have hs := step_plain resolved rs done pre t rest st.tagPosition st.contentStack
    st.previousTag hpre ht hfalse hrules
  rw [htag, hnew, ← hhtml, ← hoff] at hs
  exact loop_inl resolved rs n st _ hs

theorem loop_at (resolved : Str → Str → Str) (rs : RuleSet) (n : Nat) (st : LoopState)
    (done pre t rest : Str)
    (hhtml : st.html = done ++ (pre ++ (t ++ rest))) (hoff : st.offset = done.length)
    (hpre : ∀ c ∈ pre, c ≠ '<')
    (ht : RE_TAG (t ++ rest) = some t.length)
    (hfalse : isFalseTag st.previousTag (Tag.parse t) = false)
    (s : Scan)
    (hs : applyRules resolved (candidateRules rs (Tag.parse t).myName)
        { html := st.html, offset := st.offset, tagPosition := pre.length,
          contentStack := st.contentStack, tag := Tag.parse t } = s)
    (html1 : Str)
    (hhtml1 : replaceAt s.html (s.offset + s.tagPosition) t.length s.tag.toString = html1)
    (off1 : Nat) (hoff1 : s.offset + s.tagPosition + s.tag.toString.length = off1) :
    loop resolved rs (n + 1) st =
      loop resolved rs n
        { html := html1, offset := off1, tagPosition := s.tagPosition,
          contentStack := s.contentStack, previousTag := s.tag } := by
  have hfind : findTag (List.drop st.offset st.html) st.tagPosition = (t, pre.length) := by
    rw [hhtml, hoff, List.drop_left]; exact findTag_plain pre t rest _ hpre ht
  obtain ⟨t1, t2, t3, t4⟩ := RE_TAG_take _ _ ht
  have htake : (t ++ rest).take t.length = t := by simp
  rw [htake] at t3 t4
  have := step_tag resolved rs st t pre.length hfind t3 t4 hfalse
  rw [hs] at this
  simp only [hhtml1, hoff1] at this
  exact loop_inl resolved rs n st _ this

theorem no_contents_of_nil (rules : List Rule) (h : rules = []) :
    ∀ r ∈ rules, isReplaceContents r = false := by
  subst h; simp

theorem mid_append (a m r : Str) : mid (a ++ (m ++ r)) a.length (m.length : Nat) = m := by
  rw [mid_natCast]; simp

theorem splitTags_complete : ∀ (n : Nat) (s : Str), s.length ≤ n →
    indexIn RE_TAG (splitTags n s).2 = none := by
  intro n
  induction n with
  | zero =>
    intro s hs
    have : s = [] := by simpa using hs
    subst this
    rfl
  | succ n ih =>
    intro s hs
    simp only [splitTags]
    cases hi : indexIn RE_TAG s with
    | none => simpa using hi
    | some q =>
      obtain ⟨p, l⟩ := q
      obtain ⟨g1, g2, _⟩ := indexIn_some _ _ _ _ hi
      obtain ⟨t1, t2, _, _⟩ := RE_TAG_take _ _ g1
      simp only
      apply ih
      simp only [List.length_drop]
      omega

theorem candidateRules_no_contents (rs : RuleSet)
    (h : ∀ e ∈ rs, ∀ r ∈ e.2, isReplaceContents r = false) (name : Str) :
    ∀ r ∈ candidateRules rs name, isReplaceContents r = false := by
  have hv : ∀ key, ∀ r ∈ rs.value key, isReplaceContents r = false := by
    intro key
    induction rs with
    | nil => intro r hr; simp [RuleSet.value] at hr
    | cons e rest ih =>
      obtain ⟨k, rules⟩ := e
      intro r hr
      simp only [RuleSet.value] at hr
      split at hr
      · exact h (k, rules) (by simp) r hr
      · exact ih (fun e he => h e (by simp [he])) r hr
  intro r hr
  unfold candidateRules at hr
  split at hr
  · rcases List.mem_append.1 hr with h1 | h1
    · exact hv _ r h1
    · exact hv _ r h1
  · cases hr

theorem isFalseTag_of_not_open (prev tag : Tag) (h : isOpenScript prev = false) :
    isFalseTag prev tag = false := by
  unfold isFalseTag
  unfold isOpenScript at h
  rw [h]
  rfl

theorem findSub_none_drop (pat s : Str) (k : Nat) (hp : pat ≠ [])
    (h : findSub pat s = none) : findSub pat (s.drop k) = none := by
  apply findSub_eq_none_of
  intro j hj
  rw [List.drop_drop]
  by_cases hle : k + j ≤ s.length
  · exact findSub_none pat s h (k + j) hle
  · have : s.drop (k + j) = [] := List.drop_eq_nil_of_le (by omega)
    rw [this]
    cases pat with
    | nil => exact absurd rfl hp
    | cons a p => rfl

theorem loop_reference (resolved : Str → Str → Str) (rs : RuleSet)
    (hrc : ∀ e ∈ rs, ∀ r ∈ e.2, isReplaceContents r = false) :
    ∀ (n : Nat) (rem done : Str) (tp : Nat) (cs : List (Str × Nat)) (prev : Tag),
      rem.length ≤ n → findSub "<!--".toList rem = none →
      (∀ seg ∈ (splitTags n rem).1, isOpenScript (ruledTag resolved rs seg.2) = false) →
      isOpenScript prev = false →
      loop resolved rs (n + 1)
        { html := done ++ rem, offset := done.length, tagPosition := tp, contentStack := cs,
          previousTag := prev } =
        some (done ++ joinSegments resolved rs (splitTags n rem).1 (splitTags n rem).2) := by
  intro n
  induction n with
  | zero =>
    intro rem done tp cs prev hlen _ _ _
    have : rem = [] := by simpa using hlen
    subst this
    have := loop_end resolved rs 0 (done ++ []) tp cs prev
    simpa [splitTags, joinSegments] using this
  | succ n ih =>
    intro rem done tp cs prev hlen hcom hseg hprev
    cases hi : indexIn RE_TAG rem with
    | none =>
      have hf : findTag (List.drop done.length (done ++ rem)) tp = ([], tp) := by
        rw [List.drop_left]; exact findTag_none rem tp hi
      have hs := step_done resolved rs
        { html := done ++ rem, offset := done.length, tagPosition := tp, contentStack := cs,
          previousTag := prev } tp hf
      simp [loop, hs, splitTags, hi, joinSegments]
    | some q =>
      obtain ⟨p, l⟩ := q
      obtain ⟨g1, g2, g3⟩ := indexIn_some _ _ _ _ hi
      obtain ⟨t1, t2, t3, t4⟩ := RE_TAG_take _ _ g1
      have hf : findTag (List.drop done.length (done ++ rem)) tp
          = ((rem.drop p).take l, p) := by
        rw [List.drop_left]
        exact findTag_tag rem tp p l hi (by intro cb hcb; rw [hcom] at hcb; cases hcb)
      have hsplit : splitTags (n + 1) rem
          = ((rem.take p, (rem.drop p).take l) :: (splitTags n (rem.drop (p + l))).1,
              (splitTags n (rem.drop (p + l))).2) := by
        simp [splitTags, hi]
      rw [hsplit] at hseg ⊢
      have hhead := hseg (rem.take p, (rem.drop p).take l) (by simp)
      have hst := step_tag resolved rs
        { html := done ++ rem, offset := done.length, tagPosition := tp, contentStack := cs,
          previousTag := prev } _ p hf t3 t4 (isFalseTag_of_not_open _ _ hprev)
      simp only [applyRules_no_contents resolved _ _
        (candidateRules_no_contents rs hrc _)] at hst
      have hrem : done ++ rem
          = (done ++ rem.take p) ++ ((rem.drop p).take l ++ rem.drop (p + l)) := by
        rw [List.append_assoc, ← List.drop_drop, List.take_append_drop, List.take_append_drop]
      have hlen2 : done.length + p = (done ++ rem.take p).length := by
        simp; omega
      have hrep : replaceAt (done ++ rem) (done.length + p) ((rem.drop p).take l).length
          (ruledTag resolved rs ((rem.drop p).take l)).toString
          = (done ++ rem.take p ++ (ruledTag resolved rs ((rem.drop p).take l)).toString)
            ++ rem.drop (p + l) := by
        rw [hrem, hlen2, replaceAt_append]
        simp
      rw [loop_inl resolved rs (n + 1) _ _ hst]
      simp only [joinSegments]
      have hih := ih (rem.drop (p + l))
        (done ++ rem.take p ++ (ruledTag resolved rs ((rem.drop p).take l)).toString)
        p cs (ruledTag resolved rs ((rem.drop p).take l))
        (by simp only [List.length_drop]; omega)
        (findSub_none_drop _ _ _ (by decide) hcom)
        (fun seg hs => hseg seg (by simp [hs]))
        hhead
      have e1 : ({ html := replaceAt (done ++ rem) (done.length + p)
                    ((rem.drop p).take l).length
                    (applyTagRules resolved
                      (candidateRules rs (Tag.parse ((rem.drop p).take l)).myName)
                      (Tag.parse ((rem.drop p).take l))).toString,
                   offset := done.length + p +
                    (applyTagRules resolved
                      (candidateRules rs (Tag.parse ((rem.drop p).take l)).myName)
                      (Tag.parse ((rem.drop p).take l))).toString.length,
                   tagPosition := p, contentStack := cs,
                   previousTag := applyTagRules resolved
                      (candidateRules rs (Tag.parse ((rem.drop p).take l)).myName)
                      (Tag.parse ((rem.drop p).take l)) } : LoopState)
          = { html := (done ++ rem.take p ++
                  (ruledTag resolved rs ((rem.drop p).take l)).toString) ++ rem.drop (p + l),
              offset := (done ++ rem.take p ++
                  (ruledTag resolved rs ((rem.drop p).take l)).toString).length,
              tagPosition := p, contentStack := cs,
              previousTag := ruledTag resolved rs ((rem.drop p).take l) } := by
        have hr2 := hrep
        unfold ruledTag at hr2 ⊢
        rw [hr2]
        simp only [List.length_append, List.length_take]
        congr 1
        omega
      rw [e1, hih]
      simp [List.append_assoc]

theorem endsWith_take_eq (s : Str) (k : Nat) (x y : Char) (h : k + 3 ≤ s.length) :
    endsWith (s.take (k + 3)) [x, y] = startsWith (s.drop (k + 1)) [x, y] := by
  have h1 : s.take (k + 3) = s.take (k + 1) ++ (s.drop (k + 1)).take 2 := by
    have : k + 3 = (k + 1) + 2 := by omega
    rw [this, List.take_add]
  rw [h1]
  match hd : s.drop (k + 1) with
  | [] =>
    have := congrArg List.length hd
    simp at this; omega
  | [a] =>
    have := congrArg List.length hd
    simp at this; omega
  | a :: b :: r =>
    have : List.take 2 (a :: b :: r) = [a, b] := rfl
    rw [this, endsWith_append_two]
    simp [startsWith]

theorem startsWith_append_of_length (u v pat : Str) (h : pat.length ≤ u.length) :
    startsWith (u ++ v) pat = startsWith u pat := by
  induction pat generalizing u with
  | nil => simp
  | cons a p ih =>
    cases u with
    | nil => simp at h
    | cons c cs =>
      simp only [List.cons_append, startsWith_cons_cons]
      rw [ih cs (by simpa using h)]

theorem closingScript_drop (i : Nat) (hi : 1 ≤ i) :
    RE_TAG ("</script>".toList.drop i) = none := by
  by_cases h : i ≤ 9
  · interval_cases i <;> rfl
  · have : "</script>".toList.drop i = [] := List.drop_eq_nil_of_le (by simp; omega)
    rw [this]; rfl

theorem closingScript_no_slash_gt (i : Nat) :
    startsWith ("</script>".toList.drop i) "/>".toList = false := by
  by_cases h : i ≤ 9
  · interval_cases i <;> rfl
  · have : "</script>".toList.drop i = [] := List.drop_eq_nil_of_le (by simp; omega)
    rw [this]; rfl

/-- A generic tag match that starts inside a script body free of `</` and `/>`
and is followed by `</script>` is not parsed as closing. -/
theorem script_body_not_closing (body : Str)
    (h1 : findSub "</".toList body = none) (h2 : findSub "/>".toList body = none)
    (j l : Nat) (hj : j < body.length)
    (hm : RE_TAG ((body ++ "</script>".toList).drop j) = some l) :
    (Tag.parse (((body ++ "</script>".toList).drop j).take l)).myIsClosing = false := by
  have hdrop : (body ++ "</script>".toList).drop j = body.drop j ++ "</script>".toList := by
    rw [List.drop_append_of_le_length (by omega)]
  obtain ⟨b, rest, k, hs, hb1, hb2, hf, rfl⟩ := RE_TAG_some _ _ hm
  obtain ⟨f1, f2, f3⟩ := findSub_some _ _ _ hf
  obtain ⟨tl, htl⟩ := (startsWith_iff _ _).1 f1
  have hrest : rest = rest.take k ++ '>' :: tl := by
    conv_lhs => rw [← List.take_append_drop k rest, htl]
    rfl
  have hklen : k + 1 ≤ rest.length := by
    have := congrArg List.length htl
    simp at this; omega
  have htext : ((body ++ "</script>".toList).drop j).take (k + 3)
      = '<' :: (b :: rest.take k ++ ['>']) := by
    rw [hs]
    conv_lhs => rw [hrest]
    simp [List.take_append_eq_append_take, List.length_take, Nat.min_eq_left (by omega : k ≤ rest.length)]
  have hlen : k + 3 ≤ ((body ++ "</script>".toList).drop j).length := by
    rw [hs]; simp; omega
  have hclose := (parse_flags (((body ++ "</script>".toList).drop j).take (k + 3))).2.1
  have htrim : trimmed (((body ++ "</script>".toList).drop j).take (k + 3))
      = ((body ++ "</script>".toList).drop j).take (k + 3) := by
    rw [htext]
    exact trimmed_eq_self _ _ _ (by decide) (by decide)
  rw [hclose, htrim]
  -- the two tests of the constructor
  have hsw : startsWith (((body ++ "</script>".toList).drop j).take (k + 3)) "</".toList = false := by
    rw [htext]
    simp only [String.toList, startsWith_cons_cons, List.cons_append]
    by_contra hne
    have hb : b = '/' := by simpa [startsWith] using hne
    subst hb
    -- `</` would start at position `j` of the body
    cases hu : body.drop j with
    | nil =>
      have := congrArg List.length hu
      simp at this; omega
    | cons u0 u1 =>
      rw [hdrop, hu] at hs
      cases u1 with
      | nil =>
        simp at hs
      | cons u2 u3 =>
        simp at hs
        have := findSub_none _ _ h1 j (by omega)
        rw [hu, hs.1, hs.2.1] at this
        simp [startsWith] at this
  have hew : endsWith (((body ++ "</script>".toList).drop j).take (k + 3)) "/>".toList = false := by
    have e := endsWith_take_eq ((body ++ "</script>".toList).drop j) k '/' '>' hlen
    have e' : endsWith (((body ++ "</script>".toList).drop j).take (k + 3)) "/>".toList
        = startsWith (((body ++ "</script>".toList).drop j).drop (k + 1)) "/>".toList := e
    rw [e', List.drop_drop]
    by_cases hin : j + (k + 1) + 2 ≤ body.length
    · rw [List.drop_append_of_le_length (by omega)]
      rw [startsWith_append_of_length _ _ _ (by simp; omega)]
      exact findSub_none _ _ h2 _ (by omega)
    · by_cases hin2 : j + (k + 1) + 1 = body.length
      · rw [List.drop_append_of_le_length (by omega)]
        cases hu : body.drop (j + (k + 1)) with
        | nil =>
          have := congrArg List.length hu
          simp at this; omega
        | cons z zs =>
          have hz : zs = [] := by
            have := congrArg List.length hu
            simp at this
            apply List.eq_nil_of_length_eq_zero
            omega
          subst hz
          simp [startsWith]
      · have hge : body.length ≤ j + (k + 1) := by omega
        rw [List.drop_append_eq_append_drop, List.drop_eq_nil_of_le hge, List.nil_append]
        exact closingScript_no_slash_gt _
  rw [hsw, hew]
  rfl

theorem isFalseTag_of_open (prev tag : Tag) (hn : prev.myName = "SCRIPT".toList)
    (hc : prev.myIsClosing = false) (ht : tag.myIsClosing = false) :
    isFalseTag prev tag = true := by
  simp [isFalseTag, hn, hc, ht]

theorem loop_script (resolved : Str → Str → Str) (rs : RuleSet) (body : Str)
    (hrs : candidateRules rs "SCRIPT".toList = [])
    (h1 : findSub "</".toList body = none) (h2 : findSub "/>".toList body = none) :
    ∀ (k : Nat) (st : LoopState),
      st.html = "<SCRIPT>".toList ++ (body ++ "</script>".toList) →
      8 ≤ st.offset → st.previousTag.myName = "SCRIPT".toList →
      st.previousTag.myIsClosing = false →
      ("<SCRIPT>".toList ++ (body ++ "</script>".toList)).length - st.offset ≤ k →
      loop resolved rs (k + 2) st = some ("<SCRIPT>".toList ++ (body ++ "</script>".toList)) ∨
      loop resolved rs (k + 2) st = some ("<SCRIPT>".toList ++ (body ++ "</SCRIPT>".toList)) := by
  intro k
  induction k with
  | zero =>
    intro st hst _ _ _ hk
    left
    have hrem : st.html.drop st.offset = [] := by
      apply List.drop_eq_nil_of_le; rw [hst]; omega
    have : findTag (st.html.drop st.offset) st.tagPosition = ([], st.tagPosition) := by
      rw [hrem]; rfl
    simp [loop, step_done resolved rs st _ this, hst]
  | succ k ih =>
    intro st hst hoff hpn hpc hk
    rcases findTag_cases (st.html.drop st.offset) st.tagPosition with h | h | h
    · left
      simp [loop, step_done resolved rs st _ h, hst]
    · obtain ⟨cb, l, _, hf, hsw⟩ := h
      have hlen : 4 ≤ ((st.html.drop st.offset).drop cb |>.take l).length := by
        obtain ⟨t, ht⟩ := (startsWith_iff _ _).1 hsw
        rw [ht]; simp
      rw [loop_inl resolved rs (k + 2) _ _ (step_comment resolved rs st _ _ hf hsw)]
      exact ih _ hst (by simp only; omega) hpn hpc (by simp only; omega)
    · obtain ⟨p, l, hi, hf⟩ := h
      obtain ⟨g1, g2, g3⟩ := indexIn_some _ _ _ _ hi
      obtain ⟨t1, t2, t3, t4⟩ := RE_TAG_take _ _ g1
      -- the match in terms of the body and the closing tag
      have hpos : (st.html.drop st.offset).drop p
          = (body ++ "</script>".toList).drop (st.offset + p - 8) := by
        rw [List.drop_drop, hst, List.drop_append_eq_append_drop,
          List.drop_eq_nil_of_le (by simp; omega), List.nil_append]
        rfl
      rw [hpos] at g1 t1 t3 t4 hf
      rcases Nat.lt_trichotomy (st.offset + p - 8) body.length with hj | hj | hj
      · -- inside the body: a false tag
        have hnc := script_body_not_closing body h1 h2 _ l hj g1
        rw [loop_inl resolved rs (k + 2) _ _
          (step_false resolved rs st _ _ hf t3 t4 (isFalseTag_of_open _ _ hpn hpc hnc))]
        exact ih _ hst (by simp only; omega) hpn hpc (by simp only; omega)
      · -- the closing tag itself
        right
        have hcl : (body ++ "</script>".toList).drop (st.offset + p - 8) = "</script>".toList := by
          rw [hj, List.drop_left]
        rw [hcl] at g1 t1 t3 t4 hf
        have hl : l = 9 := by
          have : RE_TAG "</script>".toList = some 9 := rfl
          rw [this] at g1
          exact (Option.some.inj g1).symm
        subst hl
        have htk : "</script>".toList.take 9 = "</script>".toList := rfl
        rw [htk] at t1 t3 t4 hf
        have hft : isFalseTag st.previousTag (Tag.parse "</script>".toList) = false := by
          have e1 : (Tag.parse "</script>".toList).myName = "SCRIPT".toList := rfl
          have e2 : (Tag.parse "</script>".toList).myIsClosing = true := rfl
          unfold isFalseTag
          rw [e1, e2]
          simp
        have hst2 := step_tag resolved rs st _ p hf t3 t4 hft
        have e1 : (Tag.parse "</script>".toList).myName = "SCRIPT".toList := rfl
        rw [e1, hrs] at hst2
        simp only [applyRules] at hst2
        have hts : (Tag.parse "</script>".toList).toString = "</SCRIPT>".toList := rfl
        rw [hts] at hst2
        have hq : st.offset + p = ("<SCRIPT>".toList ++ body).length := by
          simp; omega
        have hrep : replaceAt st.html (st.offset + p) ("</script>".toList.length : Nat)
            "</SCRIPT>".toList = "<SCRIPT>".toList ++ (body ++ "</SCRIPT>".toList) := by
          rw [hst, hq]
          have := replaceAt_append ("<SCRIPT>".toList ++ body) "</script>".toList []
            "</SCRIPT>".toList
          simpa using this
        rw [hrep] at hst2
        rw [loop_inl resolved rs (k + 2) _ _ hst2]
        have hoff2 : st.offset + p + "</SCRIPT>".toList.length
            = ("<SCRIPT>".toList ++ (body ++ "</SCRIPT>".toList)).length := by
          simp; omega
        rw [hoff2]
        exact loop_end resolved rs (k + 1) _ _ _ _
      · -- past the start of the closing tag: no match can start there
        exfalso
        rw [List.drop_append_eq_append_drop, List.drop_eq_nil_of_le (by omega),
          List.nil_append, closingScript_drop _ (by omega)] at g1
        cases g1

theorem RE_TAG_ATTRIBUTE_pos (s : Str) (l : Nat) (h : RE_TAG_ATTRIBUTE s = some l) :
    1 ≤ l ∧ s ≠ [] := by
  unfold RE_TAG_ATTRIBUTE at h
  simp only [beq_iff_eq] at h
  split at h
  · cases h
  · rename_i hr
    constructor
    · split at h
      · split at h
        · cases h; omega
        · cases h
      · cases h
    · intro hs
      subst hs
      simp at hr

/-- The bound `data.size()` on the iterations of the attribute loop is never
reached with a match pending: more iterations give the same attributes. -/
theorem parseAttributes_fuel (data : Str) : ∀ (fuel offset : Nat) (attrs : List (Str × Str)),
    data.length - offset < fuel →
    parseAttributes data (fuel + 1) offset attrs = parseAttributes data fuel offset attrs := by
  intro fuel
  induction fuel with
  | zero => intro offset attrs h; omega
  | succ n ih =>
    intro offset attrs h
    rw [parseAttributes, parseAttributes]
    cases hi : indexIn RE_TAG_ATTRIBUTE (midFrom data offset) with
    | none => rfl
    | some q =>
      obtain ⟨attrPos, ml⟩ := q
      obtain ⟨g1, g2, _⟩ := indexIn_some _ _ _ _ hi
      obtain ⟨hl, hne⟩ := RE_TAG_ATTRIBUTE_pos _ _ g1
      have hoff : offset < data.length := by
        by_contra hge
        have : midFrom data offset = [] := List.drop_eq_nil_of_le (by omega)
        rw [this] at hne
        simp at hne
      have hrec : ∀ a, parseAttributes data (n + 1) (offset + attrPos + ml) a
          = parseAttributes data n (offset + attrPos + ml) a :=
        fun a => ih _ a (by omega)
      simp only [hrec]

theorem parseAttributes_fuel_add (data : Str) (fuel offset : Nat) (attrs : List (Str × Str))
    (h : data.length - offset < fuel) (k : Nat) :
    parseAttributes data (fuel + k) offset attrs = parseAttributes data fuel offset attrs := by
  induction k with
  | zero => rfl
  | succ k ih =>
    rw [← Nat.add_assoc, parseAttributes_fuel data (fuel + k) offset attrs (by omega), ih]

/-- In `Tag.parse` the attribute loop runs to its `break`: any larger bound
gives the same attributes. -/
theorem parse_attributes_complete (data : Str) (pos length k : Nat)
    (h : indexIn RE_TAG_NAME data = some (pos, length)) :
    parseAttributes data (data.length + k) (pos + length) []
      = parseAttributes data data.length (pos + length) [] := by
  obtain ⟨g1, g2, _⟩ := indexIn_some _ _ _ _ h
  obtain ⟨hr, hl⟩ := RE_TAG_NAME_some _ _ g1
  have hle : ((data.drop pos).takeWhile isAlnum).length ≤ data.length - pos := by
    have := (List.takeWhile_sublist isAlnum (l := data.drop pos)).length_le
    simpa using this
  exact parseAttributes_fuel_add data data.length (pos + length) [] (by omega) k

theorem matches_cls (p : Char → Bool) (w : Str) :
    Matches (RegExp.cls p) w ↔ ∃ c, w = [c] ∧ p c = true := by
  constructor
  · intro h
    cases h with
    | cls _ c hc => exact ⟨c, rfl, hc⟩
  · rintro ⟨c, rfl, hc⟩
    exact Matches.cls p c hc

theorem matches_chr (c : Char) (w : Str) : Matches (RegExp.chr c) w ↔ w = [c] := by
  unfold RegExp.chr
  rw [matches_cls]
  constructor
  · rintro ⟨x, rfl, hx⟩
    simp at hx
    rw [hx]
  · rintro rfl
    exact ⟨c, rfl, by simp⟩

theorem matches_seq (a b : RegExp) (w : Str) :
    Matches (RegExp.seq a b) w ↔ ∃ u v, w = u ++ v ∧ Matches a u ∧ Matches b v := by
  constructor
  · intro h
    cases h with
    | seq _ _ u v hu hv => exact ⟨u, v, rfl, hu, hv⟩
  · rintro ⟨u, v, rfl, hu, hv⟩
    exact Matches.seq a b u v hu hv

theorem matches_alt (a b : RegExp) (w : Str) :
    Matches (RegExp.alt a b) w ↔ Matches a w ∨ Matches b w := by
  constructor
  · intro h
    cases h with
    | altLeft _ _ _ h => exact Or.inl h
    | altRight _ _ _ h => exact Or.inr h
  · rintro (h | h)
    · exact Matches.altLeft a b w h
    · exact Matches.altRight a b w h

theorem matches_star_cls_aux (r : RegExp) (w : Str) (h : Matches r w) :
    ∀ p, r = RegExp.star (RegExp.cls p) → ∀ c ∈ w, p c = true := by
  induction h with
  | cls p c hc => intro q hq; cases hq
  | seq a b u v _ _ _ _ => intro q hq; cases hq
  | altLeft a b u _ _ => intro q hq; cases hq
  | altRight a b u _ _ => intro q hq; cases hq
  | starNil a => intro q _ c hc; cases hc
  | starCons a u v hu _ _ ih2 =>
    intro q hq c hc
    cases hq
    rcases List.mem_append.1 hc with h1 | h1
    · obtain ⟨x, rfl, hx⟩ := (matches_cls q u).1 hu
      simp at h1
      rw [h1]; exact hx
    · exact ih2 q rfl c h1

theorem matches_star_cls (p : Char → Bool) (w : Str) :
    Matches (RegExp.star (RegExp.cls p)) w ↔ ∀ c ∈ w, p c = true := by
  constructor
  · intro h
    exact matches_star_cls_aux _ w h p rfl
  · intro h
    induction w with
    | nil => exact Matches.starNil _
    | cons c cs ih =>
      have := Matches.starCons (RegExp.cls p) [c] cs (Matches.cls p c (h c (by simp)))
        (ih (fun x hx => h x (by simp [hx])))
      simpa using this

theorem matches_plus_cls (p : Char → Bool) (w : Str) :
    Matches (RegExp.plus (RegExp.cls p)) w ↔ w ≠ [] ∧ ∀ c ∈ w, p c = true := by
  unfold RegExp.plus
  rw [matches_seq]
  constructor
  · rintro ⟨u, v, rfl, hu, hv⟩
    obtain ⟨c, rfl, hc⟩ := (matches_cls p u).1 hu
    refine ⟨by simp, ?_⟩
    intro x hx
    simp at hx
    rcases hx with rfl | hx
    · exact hc
    · exact (matches_star_cls p v).1 hv x hx
  · rintro ⟨hne, h⟩
    cases w with
    | nil => exact absurd rfl hne
    | cons c cs =>
      exact ⟨[c], cs, rfl, Matches.cls p c (h c (by simp)),
        (matches_star_cls p cs).2 (fun x hx => h x (by simp [hx]))⟩

/-- The texts `RE_TAG` matches. -/
theorem matches_reTag (w : Str) :
    Matches reTag w ↔ ∃ b m, w = '<' :: b :: (m ++ ['>']) ∧ b ≠ '!' ∧ b ≠ '>' ∧
      ∀ c ∈ m, c ≠ '>' := by
  unfold reTag
  simp only [matches_seq, matches_chr, matches_cls, matches_star_cls]
  constructor
  · rintro ⟨u, v, rfl, rfl, u2, v2, rfl, ⟨b, rfl, hb⟩, u3, v3, rfl, hm, rfl⟩
    refine ⟨b, u3, by simp, ?_, ?_, ?_⟩
    · intro h; subst h; simp at hb
    · intro h; subst h; simp at hb
    · intro c hc; simpa using hm c hc
  · rintro ⟨b, m, rfl, hb1, hb2, hm⟩
    exact ⟨['<'], b :: (m ++ ['>']), rfl, rfl, [b], m ++ ['>'], rfl,
      ⟨b, rfl, by simp [hb1, hb2]⟩, m, ['>'], rfl, fun c hc => by simpa using hm c hc, rfl⟩

theorem findSub_char_split (c : Char) : ∀ (rest : Str) (k : Nat), findSub [c] rest = some k →
    ∃ tl, rest = rest.take k ++ c :: tl ∧ (rest.take k).length = k ∧
      ∀ x ∈ rest.take k, x ≠ c := by
  intro rest
  induction rest with
  | nil => intro k h; simp [findSub] at h
  | cons a rest ih =>
    intro k h
    simp only [findSub, startsWith_cons_cons, startsWith_nil, Bool.and_true] at h
    split at h
    · rename_i hac
      cases h
      have : a = c := by simpa using hac
      subst this
      exact ⟨rest, by simp, by simp, by simp⟩
    · rename_i hac
      cases hf : findSub [c] rest with
      | none => simp [hf] at h
      | some k1 =>
        simp [hf] at h
        subst h
        obtain ⟨tl, h1, h2, h3⟩ := ih k1 hf
        refine ⟨tl, ?_, by simp [h2], ?_⟩
        · simp only [List.take_succ_cons, List.cons_append]
          rw [← h1]
        · intro x hx
          simp only [List.take_succ_cons, List.mem_cons] at hx
          rcases hx with rfl | hx
          · intro hxc; subst hxc; simp at hac
          · exact h3 x hx

/-- `RE_TAG` reports a length exactly when the text of that length at the head
matches the pattern `<[^!>][^>]*>`: the length of a match is unique. -/
theorem RE_TAG_iff_matches (s : Str) (l : Nat) :
    RE_TAG s = some l ↔ l ≤ s.length ∧ Matches reTag (s.take l) := by
  constructor
  · intro h
    obtain ⟨b, rest, k, rfl, hb1, hb2, hf, rfl⟩ := RE_TAG_some s l h
    obtain ⟨tl, h1, h2, h3⟩ := findSub_char_split '>' rest k hf
    have hlen : k + 1 ≤ rest.length := by
      have := congrArg List.length h1
      simp at this; omega
    refine ⟨by simp; omega, (matches_reTag _).2 ⟨b, rest.take k, ?_, hb1, hb2, h3⟩⟩
    conv_lhs => rw [h1]
    simp [List.take_append_eq_append_take, h2]
  · rintro ⟨hl, hm⟩
    obtain ⟨b, m, hw, hb1, hb2, hmm⟩ := (matches_reTag _).1 hm
    have hs : s = '<' :: b :: (m ++ '>' :: s.drop l) := by
      conv_lhs => rw [← List.take_append_drop l s, hw]
      simp
    have hlen : l = m.length + 3 := by
      have := congrArg List.length hw
      simp [Nat.min_eq_left hl] at this
      omega
    rw [hs, hlen]
    exact RE_TAG_of_shape b m _ hb1 hb2 hmm

theorem isNameEnd_not_alnum (d : Char) (h : isNameEnd d = true) : isAlnum d = false := by
  unfold isNameEnd at h
  simp only [Bool.or_eq_true, beq_iff_eq] at h
  rcases h with (h | h) | h
  · cases ha : isAlnum d
    · rfl
    · have := isAlnum_not_space d ha
      rw [h] at this; cases this
  · subst h; decide
  · subst h; decide

theorem takeWhile_append_stop (p : Char → Bool) (n : Str) (d : Char) (rest : Str)
    (hn : ∀ c ∈ n, p c = true) (hd : p d = false) :
    (n ++ d :: rest).takeWhile p = n := by
  induction n with
  | nil => simp [List.takeWhile, hd]
  | cons a n ih =>
    simp [List.takeWhile, hn a (by simp), ih (fun c hc => hn c (by simp [hc]))]

/-- The texts `RE_TAG_NAME` matches. -/
theorem matches_reTagName (w : Str) :
    Matches reTagName w ↔ ∃ n d, w = n ++ [d] ∧ n ≠ [] ∧ (∀ c ∈ n, isAlnum c = true) ∧
      isNameEnd d = true := by
  unfold reTagName
  simp only [matches_seq, matches_plus_cls, matches_cls]
  constructor
  · rintro ⟨u, v, rfl, ⟨hne, hal⟩, d, rfl, hd⟩
    exact ⟨u, d, rfl, hne, hal, hd⟩
  · rintro ⟨n, d, rfl, hne, hal, hd⟩
    exact ⟨n, [d], rfl, ⟨hne, hal⟩, d, rfl, hd⟩

/-- `RE_TAG_NAME` reports a length exactly when the text of that length at the
head matches the pattern `[a-zA-Z0-9]+[\s/>]`: the length of a match is
unique. -/
theorem RE_TAG_NAME_iff_matches (s : Str) (l : Nat) :
    RE_TAG_NAME s = some l ↔ l ≤ s.length ∧ Matches reTagName (s.take l) := by
  constructor
  · intro h
    obtain ⟨hr, hl⟩ := RE_TAG_NAME_some s l h
    unfold RE_TAG_NAME at h
    simp only [beq_iff_eq, hr, if_false] at h
    split at h
    · rename_i d tl hd
      split at h
      · rename_i hde
        have hs : s = s.takeWhile isAlnum ++ d :: tl := by
          conv_lhs => rw [← List.take_append_drop (s.takeWhile isAlnum).length s]
          rw [hd, takeWhile_length_take]
        have hlen : l ≤ s.length := by
          have := congrArg List.length hs
          simp at this; omega
        refine ⟨hlen, (matches_reTagName _).2 ⟨s.takeWhile isAlnum, d, ?_, ?_, ?_, hde⟩⟩
        · conv_lhs => rw [hs, hl]
          simp [List.take_append_eq_append_take]
        · intro h0; rw [h0] at hr; simp at hr
        · intro c hc; exact List.mem_takeWhile_imp hc
      · cases h
    · cases h
  · rintro ⟨hl, hm⟩
    obtain ⟨n, d, hw, hne, hal, hd⟩ := (matches_reTagName _).1 hm
    have hs : s = n ++ d :: s.drop l := by
      conv_lhs => rw [← List.take_append_drop l s, hw]
      simp
    have hlen : l = n.length + 1 := by
      have := congrArg List.length hw
      simp [Nat.min_eq_left hl] at this
      omega
    have htw : s.takeWhile isAlnum = n := by
      rw [hs]; exact takeWhile_append_stop isAlnum n d _ hal (isNameEnd_not_alnum d hd)
    have hn0 : n.length ≠ 0 := by
      intro h0; exact hne (List.eq_nil_of_length_eq_zero h0)
    unfold RE_TAG_NAME
    simp only [htw, beq_iff_eq, hn0, if_false]
    have hdrop : s.drop n.length = d :: s.drop l := by
      conv_lhs => rw [hs]
      simp
    rw [hdrop]
    simp [hd, hlen]

theorem matches_reQuoted (q : Char) (w : Str) :
    Matches (reQuoted q) w ↔ ∃ m, w = q :: (m ++ [q]) ∧ ∀ c ∈ m, c ≠ q := by
  unfold reQuoted
  simp only [matches_seq, matches_chr, matches_star_cls]
  constructor
  · rintro ⟨u, v, rfl, rfl, u2, v2, rfl, hm, rfl⟩
    exact ⟨u2, by simp, fun c hc => by simpa using hm c hc⟩
  · rintro ⟨m, rfl, hm⟩
    exact ⟨[q], m ++ [q], rfl, rfl, m, [q], rfl, fun c hc => by simpa using hm c hc, rfl⟩

theorem matches_reValue (w : Str) :
    Matches reValue w ↔
      (∃ m, w = '"' :: (m ++ ['"']) ∧ ∀ c ∈ m, c ≠ '"') ∨
      (∃ m, w = Char.ofNat 39 :: (m ++ [Char.ofNat 39]) ∧ ∀ c ∈ m, c ≠ Char.ofNat 39) ∨
      (∀ c ∈ w, isUnquoted c = true) := by
  unfold reValue
  simp only [matches_alt, matches_reQuoted, matches_star_cls]

theorem isUnquoted_spec (c : Char) (h : isUnquoted c = true) :
    isSpace c = false ∧ c ≠ '"' ∧ c ≠ Char.ofNat 39 := by
  unfold isUnquoted at h
  simp only [Bool.and_eq_true, Bool.not_eq_true', bne_iff_ne, ne_eq] at h
  exact ⟨h.1.1, h.1.2, h.2⟩

theorem le_takeWhile_length (p : Char → Bool) : ∀ (t : Str) (n : Nat), n ≤ t.length →
    (∀ c ∈ t.take n, p c = true) → n ≤ (t.takeWhile p).length := by
  intro t
  induction t with
  | nil => intro n hn _; simpa using hn
  | cons a t ih =>
    intro n hn h
    cases n with
    | zero => omega
    | succ n =>
      have ha : p a = true := h a (by simp)
      have := ih n (by simpa using hn) (fun c hc => h c (by simp [hc]))
      simp [List.takeWhile, ha]
      exact this

theorem attributeValueLength_cons (q : Char) (rest : Str) :
    attributeValueLength (q :: rest) =
      if (q == '"' || q == Char.ofNat 39) = true then
        (match findSub [q] rest with
          | some k => k + 2
          | none => 0)
      else ((q :: rest).takeWhile isUnquoted).length := rfl

/-- The value matcher returns the length of a text at the head that matches
the alternation. -/
theorem attributeValueLength_sound (t : Str) :
    attributeValueLength t ≤ t.length ∧
      Matches reValue (t.take (attributeValueLength t)) := by
  cases t with
  | nil =>
    refine ⟨by simp [attributeValueLength], ?_⟩
    exact (matches_reValue _).2 (Or.inr (Or.inr (by simp [attributeValueLength])))
  | cons q rest =>
    rw [attributeValueLength_cons]
    split
    · rename_i hq
      cases hf : findSub [q] rest with
      | none =>
        refine ⟨by simp, ?_⟩
        exact (matches_reValue _).2 (Or.inr (Or.inr (by simp)))
      | some k =>
        obtain ⟨tl, h1, h2, h3⟩ := findSub_char_split q rest k hf
        have hlen : k + 1 ≤ rest.length := by
          have := congrArg List.length h1
          simp at this; omega
        have htake : (q :: rest).take (k + 2) = q :: (rest.take k ++ [q]) := by
          simp only [List.take_succ_cons]
          conv_lhs => rw [h1]
          simp [List.take_append_eq_append_take, h2]
        refine ⟨by simp; omega, ?_⟩
        simp only [htake]
        simp only [Bool.or_eq_true, beq_iff_eq] at hq
        rcases hq with rfl | rfl
        · exact (matches_reValue _).2 (Or.inl ⟨rest.take k, rfl, h3⟩)
        · exact (matches_reValue _).2 (Or.inr (Or.inl ⟨rest.take k, rfl, h3⟩))
    · refine ⟨(List.takeWhile_sublist isUnquoted).length_le, ?_⟩
      rw [takeWhile_length_take]
      exact (matches_reValue _).2 (Or.inr (Or.inr (fun c hc => List.mem_takeWhile_imp hc)))

/-- No text at the head that matches the alternation is longer than what the
value matcher returns. -/
theorem attributeValueLength_longest (t : Str) (n : Nat) (hn : n ≤ t.length)
    (hm : Matches reValue (t.take n)) : n ≤ attributeValueLength t := by
  have hquoted : ∀ q : Char, (q == '"' || q == Char.ofNat 39) = true →
      ∀ m : Str, t.take n = q :: (m ++ [q]) → (∀ c ∈ m, c ≠ q) →
      n ≤ attributeValueLength t := by
    intro q hq m hw hmm
    have ht : t = q :: (m ++ q :: t.drop n) := by
      conv_lhs => rw [← List.take_append_drop n t, hw]
      simp
    have hlen : n = m.length + 2 := by
      have := congrArg List.length hw
      simp [Nat.min_eq_left hn] at this
      omega
    obtain ⟨tl, htl⟩ : ∃ tl, t = q :: (m ++ q :: tl) := ⟨t.drop n, ht⟩
    have e : attributeValueLength t = m.length + 2 := by
      rw [htl, attributeValueLength_cons, if_pos hq, findSub_char q m _ hmm]
    omega
  rcases (matches_reValue _).1 hm with ⟨m, hw, hmm⟩ | ⟨m, hw, hmm⟩ | hu
  · exact hquoted '"' (by decide) m hw hmm
  · exact hquoted (Char.ofNat 39) (by decide) m hw hmm
  · cases t with
    | nil =>
      have : n = 0 := by simpa using hn
      omega
    | cons q rest =>
      cases n with
      | zero => omega
      | succ n =>
        have hq := isUnquoted_spec q (hu q (by simp))
        have : ¬ ((q == '"' || q == Char.ofNat 39) = true) := by
          simp [hq.2.1, hq.2.2]
        rw [attributeValueLength_cons, if_neg this]
        exact le_takeWhile_length isUnquoted (q :: rest) (n + 1) hn hu

/-- The texts `RE_TAG_ATTRIBUTE` matches. -/
theorem matches_reTagAttribute (w : Str) :
    Matches reTagAttribute w ↔ ∃ n sp1 sp2 v, w = n ++ (sp1 ++ ('=' :: (sp2 ++ v))) ∧
      n ≠ [] ∧ (∀ c ∈ n, isAlnum c = true) ∧ (∀ c ∈ sp1, isSpace c = true) ∧
      (∀ c ∈ sp2, isSpace c = true) ∧ Matches reValue v := by
  unfold reTagAttribute
  simp only [matches_seq, matches_plus_cls, matches_star_cls, matches_chr]
  constructor
  · rintro ⟨n, r1, rfl, ⟨hne, hal⟩, sp1, r2, rfl, hs1, e, r3, rfl, rfl, sp2, v, rfl, hs2, hv⟩
    exact ⟨n, sp1, sp2, v, by simp, hne, hal, hs1, hs2, hv⟩
  · rintro ⟨n, sp1, sp2, v, rfl, hne, hal, hs1, hs2, hv⟩
    exact ⟨n, sp1 ++ ('=' :: (sp2 ++ v)), rfl, ⟨hne, hal⟩, sp1, '=' :: (sp2 ++ v), rfl, hs1,
      ['='], sp2 ++ v, rfl, rfl, sp2, v, rfl, hs2, hv⟩

theorem takeWhile_split (p : Char → Bool) (s : Str) :
    s = s.takeWhile p ++ s.drop (s.takeWhile p).length := by
  conv_lhs => rw [← List.take_append_drop (s.takeWhile p).length s]
  rw [takeWhile_length_take]

/-- What `RE_TAG_ATTRIBUTE` reports is the length of a text at the head that
matches the pattern. -/
theorem RE_TAG_ATTRIBUTE_sound (s : Str) (l : Nat) (h : RE_TAG_ATTRIBUTE s = some l) :
    l ≤ s.length ∧ Matches reTagAttribute (s.take l) := by
  unfold RE_TAG_ATTRIBUTE at h
  simp only [beq_iff_eq] at h
  split at h
  · cases h
  · rename_i hr
    split at h
    · rename_i e s2 hd
      split at h
      · rename_i he
        subst he
        cases h
        obtain ⟨hv1, hv2⟩ := attributeValueLength_sound
          (s2.drop (s2.takeWhile isSpace).length)
        have e1 := takeWhile_split isAlnum s
        have e2 := takeWhile_split isSpace (s.drop (s.takeWhile isAlnum).length)
        have e3 := takeWhile_split isSpace s2
        rw [hd] at e2
        have e4 := (List.take_append_drop
          (attributeValueLength (s2.drop (s2.takeWhile isSpace).length))
          (s2.drop (s2.takeWhile isSpace).length)).symm
        generalize hn : s.takeWhile isAlnum = n at *
        generalize hsp1 : (s.drop n.length).takeWhile isSpace = sp1 at *
        generalize hsp2 : s2.takeWhile isSpace = sp2 at *
        generalize hrs : s2.drop sp2.length = s3 at *
        generalize hvl : attributeValueLength s3 = vl at *
        have hs : s = n ++ (sp1 ++ ('=' :: (sp2 ++ (s3.take vl ++ s3.drop vl)))) := by
          rw [← e4, ← e3, ← e2]; exact e1
        have hlen : (s3.take vl).length = vl := by simp; omega
        have htake : s.take (n.length + sp1.length + 1 + sp2.length + vl)
            = n ++ (sp1 ++ ('=' :: (sp2 ++ s3.take vl))) := by
          have : n.length + sp1.length + 1 + sp2.length + vl
              = (n ++ (sp1 ++ ('=' :: (sp2 ++ s3.take vl)))).length := by
            simp [hlen]; omega
          rw [this]
          conv_lhs => rw [hs]
          have e5 : n ++ (sp1 ++ ('=' :: (sp2 ++ (s3.take vl ++ s3.drop vl))))
              = (n ++ (sp1 ++ ('=' :: (sp2 ++ s3.take vl)))) ++ s3.drop vl := by simp
          rw [e5, List.take_left]
        constructor
        · have := congrArg List.length hs
          simp [hlen] at this
          omega
        · rw [htake]
          refine (matches_reTagAttribute _).2 ⟨n, sp1, sp2, s3.take vl, rfl, ?_, ?_, ?_, ?_, hv2⟩
          · intro h0; rw [h0] at hr; simp at hr
          · intro c hc; rw [← hn] at hc; exact List.mem_takeWhile_imp hc
          · intro c hc; rw [← hsp1] at hc; exact List.mem_takeWhile_imp hc
          · intro c hc; rw [← hsp2] at hc; exact List.mem_takeWhile_imp hc
      · cases h
    · cases h

theorem takeWhile_append_all (p : Char → Bool) (n t : Str) (hn : ∀ c ∈ n, p c = true) :
    (n ++ t).takeWhile p = n ++ t.takeWhile p := by
  induction n with
  | nil => rfl
  | cons a n ih =>
    simp [List.takeWhile, hn a (by simp), ih (fun c hc => hn c (by simp [hc]))]

theorem RE_TAG_ATTRIBUTE_eq (n sp1 s2 : Str) (hne : n ≠ [])
    (hal : ∀ c ∈ n, isAlnum c = true) (hs1 : ∀ c ∈ sp1, isSpace c = true) :
    RE_TAG_ATTRIBUTE (n ++ (sp1 ++ '=' :: s2)) =
      some (n.length + sp1.length + 1 + (s2.takeWhile isSpace).length +
        attributeValueLength (s2.drop (s2.takeWhile isSpace).length)) := by
  have h1 : (n ++ (sp1 ++ '=' :: s2)).takeWhile isAlnum = n := by
    rw [takeWhile_append_all isAlnum n _ hal]
    cases sp1 with
    | nil => simp [List.takeWhile, show isAlnum '=' = false from by decide]
    | cons c cs =>
      have hc : isAlnum c = false := by
        cases ha : isAlnum c
        · rfl
        · have := isAlnum_not_space c ha
          rw [hs1 c (by simp)] at this; cases this
      simp [List.takeWhile, hc]
  have h2 : (sp1 ++ '=' :: s2).takeWhile isSpace = sp1 :=
    takeWhile_append_stop isSpace sp1 '=' s2 hs1 (by decide)
  have hn0 : n.length ≠ 0 := fun h0 => hne (List.eq_nil_of_length_eq_zero h0)
  unfold RE_TAG_ATTRIBUTE
  simp only [h1, beq_iff_eq, hn0, if_false, List.drop_left, h2]
  simp

/-- No text at the head that matches the pattern of `RE_TAG_ATTRIBUTE` is
longer than what the matcher reports: it reports the longest match. -/
theorem RE_TAG_ATTRIBUTE_longest (s : Str) (l1 : Nat) (hl : l1 ≤ s.length)
    (hm : Matches reTagAttribute (s.take l1)) :
    ∃ l, RE_TAG_ATTRIBUTE s = some l ∧ l1 ≤ l := by
  obtain ⟨n, sp1, sp2, v, hw, hne, hal, hs1, hs2, hv⟩ := (matches_reTagAttribute _).1 hm
  have hs : s = n ++ (sp1 ++ '=' :: (sp2 ++ (v ++ s.drop l1))) := by
    conv_lhs => rw [← List.take_append_drop l1 s, hw]
    simp
  have hlen : l1 = n.length + sp1.length + 1 + sp2.length + v.length := by
    have := congrArg List.length hw
    simp [Nat.min_eq_left hl] at this
    omega
  generalize s.drop l1 = rest at hs
  refine ⟨_, by rw [hs]; exact RE_TAG_ATTRIBUTE_eq n sp1 _ hne hal hs1, ?_⟩
  rw [takeWhile_append_all isSpace sp2 _ hs2]
  have hdrop : (sp2 ++ (v ++ rest)).drop (sp2 ++ (v ++ rest).takeWhile isSpace).length
      = (v ++ rest).drop ((v ++ rest).takeWhile isSpace).length := by
    simp [List.drop_append]
  rw [hdrop]
  have key : v.length ≤ ((v ++ rest).takeWhile isSpace).length +
      attributeValueLength ((v ++ rest).drop ((v ++ rest).takeWhile isSpace).length) := by
    cases v with
    | nil => simp
    | cons v0 v1 =>
      have hv0 : isSpace v0 = false := by
        rcases (matches_reValue _).1 hv with ⟨m, hq, _⟩ | ⟨m, hq, _⟩ | hu
        · simp at hq; rw [hq.1]; decide
        · simp at hq; rw [hq.1]; decide
        · exact (isUnquoted_spec v0 (hu v0 (by simp))).1
      have he : ((v0 :: v1) ++ rest).takeWhile isSpace = [] := by
        simp [List.takeWhile, hv0]
      rw [he]
      simp only [List.length_nil, List.drop_zero, Nat.zero_add]
      apply attributeValueLength_longest
      · simp
      · have : ((v0 :: v1) ++ rest).take (v0 :: v1).length = v0 :: v1 := List.take_left _ _
        rw [this]; exact hv
  simp only [List.length_append]
  omega

/-- A comment is what `findTag` returns when its opener lies before the first
generic tag and it has a closing marker. -/
theorem findTag_comment (html : Str) (pos p l cb k : Nat)
    (ht : indexIn RE_TAG html = some (p, l))
    (hc : findSub "<!--".toList html = some cb) (hlt : cb < p)
    (he : findSub "-->".toList (html.drop cb) = some k) :
    findTag html pos = ((html.drop cb).take (k + 3), cb) := by
  unfold findTag
  simp only [indexOf, List.drop_zero, ht, hc]
  have hcond : (toIndex (Option.map (fun x => x + 0) (some cb)) ≠ -1 ∧
      toIndex (Option.map (fun x => x + 0) (some cb)) <
        toIndex (Option.map Prod.fst (some (p, l)))) := by
    simp; omega
  rw [if_pos hcond]
  simp only [Option.map_some', Nat.add_zero, toIndex_some, Int.toNat_ofNat, he]
  have hne : ((k + cb : Nat) : Int) ≠ -1 := by omega
  rw [if_pos hne]
  have : ((k + cb : Nat) : Int) + 3 - (cb : Int) = ((k + 3 : Nat) : Int) := by
    push_cast; omega
  rw [this, mid_natCast]

/-- The example of the spec for comments, in general: a text that is one
complete comment (`<!--`, a body, `-->`, with no `-->` ending earlier) is
returned unchanged under every rule set. -/
theorem comment_alone_kept (resolved : Str → Str → Str) (rs : RuleSet) (body : Str)
    (hfirst : findSub "-->".toList ("<!--".toList ++ body ++ "-->".toList)
      = some (body.length + 4)) :
    Returns resolved rs ("<!--".toList ++ body ++ "-->".toList)
      ("<!--".toList ++ body ++ "-->".toList) := by
  refine ⟨2, ?_⟩
  unfold toString initialState
  generalize hc : "<!--".toList ++ body ++ "-->".toList = c at hfirst
  have hlen : c.length = body.length + 7 := by
    rw [← hc]; simp
  have hstart : findSub "<!--".toList c = some 0 := by
    rw [← hc]; simp [findSub]
  cases hi : indexIn RE_TAG c with
  | none =>
    have hs := step_done resolved rs
      { html := c, offset := 0, tagPosition := 0, contentStack := [],
        previousTag := Tag.parse [] } 0 (by simpa using findTag_none c 0 hi)
    simp [loop, hs]
  | some q =>
    obtain ⟨p, l⟩ := q
    obtain ⟨g1, _, _⟩ := indexIn_some _ _ _ _ hi
    have hp : 0 < p := by
      rcases Nat.eq_zero_or_pos p with h0 | h0
      · subst h0
        rw [← hc] at g1
        simp [RE_TAG] at g1
      · exact h0
    have hf := findTag_comment c 0 p l 0 (body.length + 4) hi hstart hp (by simpa using hfirst)
    have htake : (c.drop 0).take (body.length + 4 + 3) = c := by
      simp only [List.drop_zero]
      apply List.take_of_length_le
      omega
    rw [htake] at hf
    have hsw : startsWith c "<!--".toList = true := by
      rw [← hc]; simp
    have hs := step_comment resolved rs
      { html := c, offset := 0, tagPosition := 0, contentStack := [],
        previousTag := Tag.parse [] } c 0 (by simpa using hf) hsw
    rw [loop_inl resolved rs 1 _ _ hs]
    simp only [Nat.zero_add]
    exact loop_end resolved rs 0 c 0 [] (Tag.parse [])

theorem value_addRule (rs : RuleSet) (tag : Str) (rule : Rule) (key : Str) :
    RuleSet.value (addRule rs tag rule) key =
      if tag == key then RuleSet.value rs key ++ [rule] else RuleSet.value rs key := by
  induction rs with
  | nil =>
    simp only [addRule, RuleSet.value]
    split <;> simp
  | cons e rest ih =>
    obtain ⟨k, rules⟩ := e
    simp only [addRule]
    by_cases hk : (k == tag) = true
    · rw [if_pos hk]
      have hkt : k = tag := by simpa using hk
      subst hkt
      simp only [RuleSet.value]
      split <;> rfl
    · rw [if_neg hk]
      simp only [RuleSet.value]
      by_cases hkk : (k == key) = true
      · rw [if_pos hkk, if_pos hkk]
        have : ¬ ((tag == key) = true) := by
          intro h
          have h1 : tag = key := by simpa using h
          have h2 : k = key := by simpa using hkk
          apply hk
          simp [h1, h2]
        rw [if_neg this]
      · rw [if_neg hkk, if_neg hkk, ih]

theorem contains_addRule (rs : RuleSet) (tag : Str) (rule : Rule) (key : Str) :
    RuleSet.contains (addRule rs tag rule) key = (tag == key || RuleSet.contains rs key) := by
  induction rs with
  | nil => simp [addRule, RuleSet.contains]
  | cons e rest ih =>
    obtain ⟨k, rules⟩ := e
    simp only [addRule]
    by_cases hk : (k == tag) = true
    · rw [if_pos hk]
      have hkt : k = tag := by simpa using hk
      subst hkt
      simp [RuleSet.contains]
    · rw [if_neg hk]
      unfold RuleSet.contains at ih ⊢
      simp only [List.any_cons, ih]
      cases (k == key) <;> cases (tag == key) <;> simp

theorem value_register (regs : List (Str × Rule)) (key : Str) :
    RuleSet.value (register regs) key = registeredFor regs key := by
  unfold register registeredFor
  induction regs using List.reverseRecOn with
  | nil => rfl
  | append_singleton regs e ih =>
    rw [List.foldl_append]
    simp only [List.foldl_cons, List.foldl_nil, value_addRule, ih, List.filter_append,
      List.map_append]
    by_cases h : (e.1 == key) = true
    · simp [h]
    · simp [h]

theorem contains_register (regs : List (Str × Rule)) (key : Str) :
    RuleSet.contains (register regs) key = true ↔ registeredFor regs key ≠ [] := by
  unfold register registeredFor
  induction regs using List.reverseRecOn with
  | nil => simp [RuleSet.contains]
  | append_singleton regs e ih =>
    rw [List.foldl_append]
    simp only [List.foldl_cons, List.foldl_nil, contains_addRule, List.filter_append,
      List.map_append, Bool.or_eq_true, ih]
    by_cases h : (e.1 == key) = true
    · simp only [h, true_or, List.filter_cons, List.filter_nil, if_true, List.map_cons,
        List.map_nil, ne_eq, List.append_eq_nil, List.cons_ne_nil, and_false, not_false_eq_true]
    · simp only [h, List.filter_cons, List.filter_nil, Bool.false_eq_true, false_or, if_false,
        List.map_nil, List.append_nil]

/-- The candidate rules of a name under the registered rule set: the rules
registered for the name, then the rules registered for the empty key, each in
registration order. -/
theorem candidateRules_register (regs : List (Str × Rule)) (name : Str) :
    candidateRules (register regs) name = registeredFor regs name ++ registeredFor regs [] := by
  unfold candidateRules
  split
  · rw [value_register, value_register]
  · rename_i h
    simp only [Bool.or_eq_true, not_or] at h
    have h1 : registeredFor regs name = [] := by
      by_contra hne
      exact h.1 ((contains_register regs name).2 hne)
    have h2 : registeredFor regs [] = [] := by
      by_contra hne
      exact h.2 ((contains_register regs []).2 hne)
    rw [h1, h2]; rfl

theorem applyTagRules_nil (resolved : Str → Str → Str) (t : Tag) :
    applyTagRules resolved [] t = t := rfl

theorem applyTagRules_cons (resolved : Str → Str → Str) (r : Rule) (rest : List Rule) (t : Tag)
    (h : stops (r, t) = false) :
    applyTagRules resolved (r :: rest) t =
      applyTagRules resolved rest (applyTagRules resolved [r] t) := by
  cases r with
  | REPLACE_CONTENTS f => simp [stops] at h
  | RESOLVE_URL a b =>
    have h1 : isAbsoluteUrl (t.attribute a) = false := by simpa [stops] using h
    simp [applyTagRules, applyRules, h1]
  | REPLACE_ATTRIBUTE a f =>
    simp only [applyTagRules, applyRules]
    split <;> rfl
  | REPLACE_TAG w o c =>
    simp only [applyTagRules, applyRules]
    split <;> rfl
  | SURROUND_TAG b a o c =>
    simp only [applyTagRules, applyRules]
    split <;> rfl
  | MODIFY_TAG f => rfl

/-- The iterations that are run form an initial part of the rule list. -/
theorem evaluated_initial (resolved : Str → Str → Str) :
    ∀ (rules : List Rule) (t : Tag),
      ∃ rest, rules = (evaluated resolved rules t).map Prod.fst ++ rest := by
  intro rules
  induction rules with
  | nil => intro t; exact ⟨[], rfl⟩
  | cons r rules ih =>
    intro t
    cases r with
    | REPLACE_CONTENTS f => exact ⟨rules, rfl⟩
    | RESOLVE_URL a b =>
      simp only [evaluated]
      split
      · exact ⟨rules, rfl⟩
      · obtain ⟨rest, h⟩ := ih (t.setAttribute a (resolved b (t.attribute a)))
        exact ⟨rest, by simp only [List.map_cons, List.cons_append]; rw [← h]⟩
    | REPLACE_ATTRIBUTE a f =>
      simp only [evaluated]
      obtain ⟨rest, h⟩ := ih (if t.hasAttribute a then t.setAttribute a (f (t.attribute a)) else t)
      exact ⟨rest, by simp only [List.map_cons, List.cons_append]; rw [← h]⟩
    | REPLACE_TAG w o c =>
      simp only [evaluated]
      obtain ⟨rest, h⟩ := ih (if targets o c t then t.replaceWith w else t)
      exact ⟨rest, by simp only [List.map_cons, List.cons_append]; rw [← h]⟩
    | SURROUND_TAG b a o c =>
      simp only [evaluated]
      obtain ⟨rest, h⟩ := ih (if targets o c t then t.setSurroundings b a else t)
      exact ⟨rest, by simp only [List.map_cons, List.cons_append]; rw [← h]⟩
    | MODIFY_TAG f =>
      simp only [evaluated]
      obtain ⟨rest, h⟩ := ih (f t)
      exact ⟨rest, by simp only [List.map_cons, List.cons_append]; rw [← h]⟩

/-- The rules that are not run have no influence on the result. -/
theorem applyRules_evaluated (resolved : Str → Str → Str) :
    ∀ (rules : List Rule) (s : Scan),
      applyRules resolved rules s =
        applyRules resolved ((evaluated resolved rules s.tag).map Prod.fst) s := by
  intro rules
  induction rules with
  | nil => intro s; rfl
  | cons r rules ih =>
    intro s
    cases r with
    | REPLACE_CONTENTS f => rfl
    | RESOLVE_URL a b =>
      simp only [evaluated, applyRules]
      by_cases h : isAbsoluteUrl (s.tag.attribute a) = true
      · simp [h, applyRules]
      · simp only [h, if_false, List.map_cons, applyRules, Bool.false_eq_true]
        exact ih _
    | REPLACE_ATTRIBUTE a f =>
      simp only [evaluated, applyRules, List.map_cons]
      by_cases h : s.tag.hasAttribute a = true
      · simp only [h, if_true]; exact ih _
      · simp only [h, if_false, Bool.false_eq_true]; exact ih _
    | REPLACE_TAG w o c =>
      simp only [evaluated, applyRules, List.map_cons]
      by_cases h : targets o c s.tag = true
      · simp only [h, if_true]; exact ih _
      · simp only [h, if_false, Bool.false_eq_true]; exact ih _
    | SURROUND_TAG b a o c =>
      simp only [evaluated, applyRules, List.map_cons]
      by_cases h : targets o c s.tag = true
      · simp only [h, if_true]; exact ih _
      · simp only [h, if_false, Bool.false_eq_true]; exact ih _
    | MODIFY_TAG f =>
      simp only [evaluated, applyRules, List.map_cons]
      exact ih _

theorem evaluated_cons_of_not_stops (resolved : Str → Str → Str) (r : Rule) (rest : List Rule)
    (t : Tag) (h : stops (r, t) = false) :
    evaluated resolved (r :: rest) t =
      (r, t) :: evaluated resolved rest (applyTagRules resolved [r] t) := by
  cases r with
  | REPLACE_CONTENTS f => simp [stops] at h
  | RESOLVE_URL a b =>
    have h1 : isAbsoluteUrl (t.attribute a) = false := by simpa [stops] using h
    simp [evaluated, applyTagRules, applyRules, h1]
  | REPLACE_ATTRIBUTE a f =>
    simp only [evaluated, applyTagRules, applyRules]
    split <;> rfl
  | REPLACE_TAG w o c =>
    simp only [evaluated, applyTagRules, applyRules]
    split <;> rfl
  | SURROUND_TAG b a o c =>
    simp only [evaluated, applyTagRules, applyRules]
    split <;> rfl
  | MODIFY_TAG f => rfl

theorem evaluated_cons_of_stops (resolved : Str → Str → Str) (r : Rule) (rest : List Rule)
    (t : Tag) (h : stops (r, t) = true) :
    evaluated resolved (r :: rest) t = [(r, t)] := by
  cases r with
  | REPLACE_CONTENTS f => rfl
  | RESOLVE_URL a b =>
    have h1 : isAbsoluteUrl (t.attribute a) = true := by simpa [stops] using h
    simp [evaluated, h1]
  | REPLACE_ATTRIBUTE a f => simp [stops] at h
  | REPLACE_TAG w o c => simp [stops] at h
  | SURROUND_TAG b a o c => simp [stops] at h
  | MODIFY_TAG f => simp [stops] at h

theorem evaluated_head (resolved : Str → Str → Str) (r : Rule) (rest : List Rule) (t : Tag) :
    ∃ tl, evaluated resolved (r :: rest) t = (r, t) :: tl := by
  cases hs : stops (r, t)
  · exact ⟨_, evaluated_cons_of_not_stops resolved r rest t hs⟩
  · exact ⟨_, evaluated_cons_of_stops resolved r rest t hs⟩

/-- When no iteration over `pre` ends with `break`, all of `pre` is run and the
loop goes on with the rules after it, on the tag that `pre` leaves. -/
theorem evaluated_append (resolved : Str → Str → Str) :
    ∀ (pre l : List Rule) (t : Tag), (∀ e ∈ evaluated resolved pre t, stops e = false) →
      evaluated resolved (pre ++ l) t =
        evaluated resolved pre t ++ evaluated resolved l (applyTagRules resolved pre t) ∧
      (evaluated resolved pre t).map Prod.fst = pre := by
  intro pre
  induction pre with
  | nil => intro l t _; exact ⟨rfl, rfl⟩
  | cons r pre ih =>
    intro l t h
    obtain ⟨tl, htl⟩ := evaluated_head resolved r pre t
    have hr : stops (r, t) = false := h (r, t) (by rw [htl]; simp)
    have e1 := evaluated_cons_of_not_stops resolved r pre t hr
    have e2 := evaluated_cons_of_not_stops resolved r (pre ++ l) t hr
    have hrec : ∀ e ∈ evaluated resolved pre (applyTagRules resolved [r] t), stops e = false := by
      intro e he
      exact h e (by rw [e1]; simp [he])
    obtain ⟨i1, i2⟩ := ih l (applyTagRules resolved [r] t) hrec
    constructor
    · rw [List.cons_append, e2, e1, i1, applyTagRules_cons resolved r pre t hr]
      rfl
    · rw [e1, List.map_cons, i2]

/-- Nothing after a ReplaceContents rule is run. -/
theorem evaluated_until_contents (resolved : Str → Str → Str) (f : Str → Str) :
    ∀ (pre post : List Rule) (t : Tag),
      ∃ k, (evaluated resolved (pre ++ Rule.REPLACE_CONTENTS f :: post) t).map Prod.fst
        = (pre ++ [Rule.REPLACE_CONTENTS f]).take k := by
  intro pre
  induction pre with
  | nil => intro post t; exact ⟨1, rfl⟩
  | cons r pre ih =>
    intro post t
    cases hs : stops (r, t)
    · rw [List.cons_append,
        evaluated_cons_of_not_stops resolved r (pre ++ Rule.REPLACE_CONTENTS f :: post) t hs]
      obtain ⟨k, hk⟩ := ih post (applyTagRules resolved [r] t)
      exact ⟨k + 1, by simp only [List.map_cons, List.cons_append, List.take_succ_cons]; rw [hk]⟩
    · rw [List.cons_append,
        evaluated_cons_of_stops resolved r (pre ++ Rule.REPLACE_CONTENTS f :: post) t hs]
      exact ⟨1, by simp⟩

/-- The result of the `foreach` when a ReplaceContents rule is run: the body of
its branch, on the tag the rules before it leave. -/
theorem applyRules_contents (resolved : Str → Str → Str) (f : Str → Str) (T : Tag) :
    ∀ (rules : List Rule) (s : Scan),
      (Rule.REPLACE_CONTENTS f, T) ∈ evaluated resolved rules s.tag →
      applyRules resolved rules s = replaceContents f { s with tag := T } := by
  intro rules
  induction rules with
  | nil => intro s h; simp [evaluated] at h
  | cons r rules ih =>
    intro s h
    cases hs : stops (r, s.tag)
    · rw [evaluated_cons_of_not_stops resolved r rules s.tag hs] at h
      have hne : (Rule.REPLACE_CONTENTS f, T) ≠ (r, s.tag) := by
        intro he
        have : r = Rule.REPLACE_CONTENTS f := (congrArg Prod.fst he).symm
        subst this
        simp [stops] at hs
      have hmem : (Rule.REPLACE_CONTENTS f, T) ∈
          evaluated resolved rules (applyTagRules resolved [r] s.tag) := by
        rcases List.mem_cons.1 h with h1 | h1
        · exact absurd h1 hne
        · exact h1
      have hstep : applyRules resolved (r :: rules) s =
          applyRules resolved rules { s with tag := applyTagRules resolved [r] s.tag } := by
        cases r with
        | REPLACE_CONTENTS f => simp [stops] at hs
        | RESOLVE_URL a b =>
          have h1 : isAbsoluteUrl (s.tag.attribute a) = false := by simpa [stops] using hs
          simp [applyTagRules, applyRules, h1]
        | REPLACE_ATTRIBUTE a f =>
          simp only [applyTagRules, applyRules]
          split <;> rfl
        | REPLACE_TAG w o c =>
          simp only [applyTagRules, applyRules]
          split <;> rfl
        | SURROUND_TAG b a o c =>
          simp only [applyTagRules, applyRules]
          split <;> rfl
        | MODIFY_TAG f => rfl
      rw [hstep]
      exact ih { s with tag := applyTagRules resolved [r] s.tag } hmem
    · rw [evaluated_cons_of_stops resolved r rules s.tag hs] at h
      have he : (Rule.REPLACE_CONTENTS f, T) = (r, s.tag) := by simpa using h
      have h1 : r = Rule.REPLACE_CONTENTS f := (congrArg Prod.fst he).symm
      have h2 : T = s.tag := congrArg Prod.snd he
      subst h1 h2
      rfl

/-- The result of the `foreach` when no ReplaceContents rule is run: only the
tag changes. -/
theorem applyRules_tag_only (resolved : Str → Str → Str) :
    ∀ (rules : List Rule) (s : Scan),
      (∀ e ∈ evaluated resolved rules s.tag, isReplaceContents e.1 = false) →
      applyRules resolved rules s = { s with tag := applyTagRules resolved rules s.tag } := by
  intro rules s h
  have h1 := applyRules_evaluated resolved rules s
  have h2 : ∀ r ∈ (evaluated resolved rules s.tag).map Prod.fst, isReplaceContents r = false := by
    intro r hr
    obtain ⟨e, he, rfl⟩ := List.mem_map.1 hr
    exact h e he
  have h3 := applyRules_no_contents resolved _ s h2
  have h4 : applyTagRules resolved rules s.tag
      = applyTagRules resolved ((evaluated resolved rules s.tag).map Prod.fst) s.tag := by
    have := applyRules_evaluated resolved rules
      { html := [], offset := 0, tagPosition := 0, contentStack := [], tag := s.tag }
    exact congrArg Scan.tag this
  rw [h1, h3, h4]

theorem indexIn_RE_TAG_text (rem : Str) (h : ∀ c ∈ rem, c ≠ '<') :
    indexIn RE_TAG rem = none := by
  apply indexIn_eq_none_of
  intro j hj
  cases hd : rem.drop j with
  | nil => rfl
  | cons x xs =>
    have hx : x ∈ rem := List.mem_of_mem_drop (by rw [hd]; simp)
    exact RE_TAG_cons_ne x xs (h x hx)

/-- The loop ends when the text from the scan offset on holds no `<`. -/
theorem loop_text_end (resolved : Str → Str → Str) (rs : RuleSet) (n : Nat) (st : LoopState)
    (done rem : Str) (hhtml : st.html = done ++ rem) (hoff : st.offset = done.length)
    (hrem : ∀ c ∈ rem, c ≠ '<') :
    loop resolved rs (n + 1) st = some st.html := by
  have hf : findTag (st.html.drop st.offset) st.tagPosition = ([], st.tagPosition) := by
    rw [hhtml, hoff, List.drop_left]
    exact findTag_none rem _ (indexIn_RE_TAG_text rem hrem)
  simp [loop, step_done resolved rs st _ hf]

theorem evaluated_post_irrelevant (resolved : Str → Str → Str) (f : Str → Str) :
    ∀ (pre post : List Rule) (t : Tag),
      evaluated resolved (pre ++ Rule.REPLACE_CONTENTS f :: post) t
        = evaluated resolved (pre ++ [Rule.REPLACE_CONTENTS f]) t := by
  intro pre
  induction pre with
  | nil => intro post t; rfl
  | cons r pre ih =>
    intro post t
    cases hs : stops (r, t)
    · rw [List.cons_append, List.cons_append,
        evaluated_cons_of_not_stops resolved r _ t hs,
        evaluated_cons_of_not_stops resolved r _ t hs, ih]
    · rw [List.cons_append, List.cons_append,
        evaluated_cons_of_stops resolved r _ t hs,
        evaluated_cons_of_stops resolved r _ t hs]

theorem replaceContents_no_fire (replace : Str → Str) (s : Scan)
    (ho : s.tag.myIsOpening = false)
    (htop : ∀ item, s.contentStack.getLast? = some item → item.1 ≠ s.tag.myName) :
    replaceContents replace s = s := by
  unfold replaceContents
  simp only [ho, Bool.false_eq_true, if_false]
  cases hl : s.contentStack.getLast? with
  | none => rfl
  | some item =>
    have hne := htop item hl
    have : (item.1 == s.tag.myName) = false := by simpa using hne
    simp [this]

theorem step_end_inv (resolved : Str → Str → Str) (rs : RuleSet) (st : LoopState) (out : Str)
    (h : step resolved rs st = Sum.inr out) :
    (findTag (st.html.drop st.offset) st.tagPosition).1 = [] ∧ out = st.html := by
  unfold step at h
  simp only [midFrom] at h
  split at h
  · rename_i he
    exact ⟨by simpa using he, (Sum.inr.inj h).symm⟩
  · split at h
    · cases h
    · split at h
      · cases h
      · cases h

theorem perm_registered (regs : List (Str × Rule)) (name : Str) (hname : name ≠ []) :
    List.Perm (registeredFor regs name ++ registeredFor regs [])
      ((regs.filter (fun e => e.1 == name || e.1 == [])).map Prod.snd) := by
  unfold registeredFor
  induction regs with
  | nil => exact List.Perm.refl _
  | cons e regs ih =>
    by_cases h1 : (e.1 == name) = true
    · have h2 : (e.1 == ([] : Str)) = false := by
        have : e.1 = name := by simpa using h1
        rw [this]
        simpa using hname
      simp only [List.filter_cons, h1, h2, if_true, Bool.true_or, List.map_cons,
        List.cons_append, Bool.false_eq_true, if_false]
      exact List.Perm.cons _ ih
    · by_cases h2 : (e.1 == ([] : Str)) = true
      · simp only [List.filter_cons, h1, h2, if_true, Bool.or_true, List.map_cons,
          Bool.false_eq_true, if_false]
        exact List.Perm.trans List.perm_middle (List.Perm.cons _ ih)
      · simp only [List.filter_cons, h1, h2, Bool.false_eq_true, if_false, Bool.or_self]
        exact ih

theorem replaceAt_eq (s : Str) (pos l : Nat) (new : Str) (h : pos + l ≤ s.length) :
    replaceAt s pos (l : Nat) new = s.take pos ++ (new ++ s.drop (pos + l)) := by
  unfold replaceAt
  have h0 : ¬ s.length < pos := by omega
  rw [if_neg h0]
  have h1 : ¬ ((l : Nat) : Int) > (s.length : Int) - (pos : Int) := by omega
  simp only [h1, if_false]
  have h2 : ((pos : Int) + (l : Nat)).toNat = pos + l := by omega
  rw [h2, List.append_assoc]

theorem replaceAt_length (s : Str) (pos l : Nat) (new : Str) (h : pos + l ≤ s.length) :
    (replaceAt s pos (l : Nat) new).length + l = s.length + new.length := by
  rw [replaceAt_eq s pos l new h]
  simp only [List.length_append, List.length_take, List.length_drop]
  omega

theorem replaceAt_take (s : Str) (pos l : Nat) (new : Str) (h : pos + l ≤ s.length)
    (k : Nat) (hk : k ≤ pos) :
    (replaceAt s pos (l : Nat) new).take k = s.take k := by
  rw [replaceAt_eq s pos l new h]
  rw [List.take_append_of_le_length (by simp; omega)]
  rw [List.take_take]
  simp [Nat.min_eq_left hk]

theorem replaceAt_take_new (s : Str) (pos l : Nat) (new : Str) (h : pos + l ≤ s.length) :
    (replaceAt s pos (l : Nat) new).take (pos + new.length) = s.take pos ++ new := by
  rw [replaceAt_eq s pos l new h, ← List.append_assoc]
  have : pos + new.length = (s.take pos ++ new).length := by
    simp; omega
  rw [this, List.take_left]

theorem replaceAt_drop_new (s : Str) (pos l : Nat) (new : Str) (h : pos + l ≤ s.length) :
    (replaceAt s pos (l : Nat) new).drop (pos + new.length) = s.drop (pos + l) := by
  rw [replaceAt_eq s pos l new h, ← List.append_assoc]
  have : pos + new.length = (s.take pos ++ new).length := by
    simp; omega
  rw [this, List.drop_left]

/-- What `findTag` returns lies inside the text. -/
theorem findTag_bounds (html : Str) (pos : Nat) (t : Str) (p : Nat)
    (h : findTag html pos = (t, p)) (hne : t ≠ []) :
    p + t.length ≤ html.length ∧ t = (html.drop p).take t.length := by
  have key : ∀ (q l : Nat), t = (html.drop q).take l → p = q →
      p + t.length ≤ html.length ∧ t = (html.drop p).take t.length := by
    intro q l ht hp
    subst hp
    have hl : t.length ≤ html.length - p := by
      rw [ht]; simp only [List.length_take, List.length_drop]; omega
    have hpos : 0 < t.length := List.length_pos.2 hne
    refine ⟨by omega, ?_⟩
    conv_lhs => rw [ht]
    rw [ht, List.length_take, List.take_eq_take]
    simp
  rcases findTag_cases html pos with h1 | h1 | h1
  · rw [h] at h1
    exact absurd (congrArg Prod.fst h1) hne
  · obtain ⟨cb, l, _, hf, _⟩ := h1
    rw [h] at hf
    exact key cb l (congrArg Prod.fst hf) (congrArg Prod.snd hf)
  · obtain ⟨q, l, _, hf⟩ := h1
    rw [h] at hf
    exact key q l (congrArg Prod.fst hf) (congrArg Prod.snd hf)

/-- What one iteration can be: the end of the loop, a skip (comment or false
tag), or a tag handed to the rules. -/
theorem step_cases (resolved : Str → Str → Str) (rs : RuleSet) (st : LoopState) :
    step resolved rs st = Sum.inr st.html ∨
    (∃ t p, t ≠ [] ∧ findTag (st.html.drop st.offset) st.tagPosition = (t, p) ∧
      (startsWith t "<!--".toList = true ∨ isFalseTag st.previousTag (Tag.parse t) = true) ∧
      step resolved rs st
        = Sum.inl { st with offset := st.offset + t.length, tagPosition := p }) ∨
    (∃ t p, t ≠ [] ∧ findTag (st.html.drop st.offset) st.tagPosition = (t, p) ∧
      startsWith t "<!--".toList = false ∧ isFalseTag st.previousTag (Tag.parse t) = false ∧
      step resolved rs st =
        Sum.inl
          { html := replaceAt
              (applyRules resolved (candidateRules rs (Tag.parse t).myName)
                { html := st.html, offset := st.offset, tagPosition := p,
                  contentStack := st.contentStack, tag := Tag.parse t }).html
              ((applyRules resolved (candidateRules rs (Tag.parse t).myName)
                { html := st.html, offset := st.offset, tagPosition := p,
                  contentStack := st.contentStack, tag := Tag.parse t }).offset +
               (applyRules resolved (candidateRules rs (Tag.parse t).myName)
                { html := st.html, offset := st.offset, tagPosition := p,
                  contentStack := st.contentStack, tag := Tag.parse t }).tagPosition)
              t.length
              (applyRules resolved (candidateRules rs (Tag.parse t).myName)
                { html := st.html, offset := st.offset, tagPosition := p,
                  contentStack := st.contentStack, tag := Tag.parse t }).tag.toString
            offset :=
              (applyRules resolved (candidateRules rs (Tag.parse t).myName)
                { html := st.html, offset := st.offset, tagPosition := p,
                  contentStack := st.contentStack, tag := Tag.parse t }).offset +
              (applyRules resolved (candidateRules rs (Tag.parse t).myName)
                { html := st.html, offset := st.offset, tagPosition := p,
                  contentStack := st.contentStack, tag := Tag.parse t }).tagPosition +
              (applyRules resolved (candidateRules rs (Tag.parse t).myName)
                { html := st.html, offset := st.offset, tagPosition := p,
                  contentStack := st.contentStack, tag := Tag.parse t }).tag.toString.length
            tagPosition :=
              (applyRules resolved (candidateRules rs (Tag.parse t).myName)
                { html := st.html, offset := st.offset, tagPosition := p,
                  contentStack := st.contentStack, tag := Tag.parse t }).tagPosition
            contentStack :=
              (applyRules resolved (candidateRules rs (Tag.parse t).myName)
                { html := st.html, offset := st.offset, tagPosition := p,
                  contentStack := st.contentStack, tag := Tag.parse t }).contentStack
            previousTag :=
              (applyRules resolved (candidateRules rs (Tag.parse t).myName)
                { html := st.html, offset := st.offset, tagPosition := p,
                  contentStack := st.contentStack, tag := Tag.parse t }).tag }) := by
  cases hf : findTag (st.html.drop st.offset) st.tagPosition with
  | mk t p =>
    by_cases hne : t = []
    · left
      subst hne
      exact step_done resolved rs st p hf
    · cases hc : startsWith t "<!--".toList
      · cases hft : isFalseTag st.previousTag (Tag.parse t)
        · right; right
          exact ⟨t, p, hne, rfl, hc, hft, step_tag resolved rs st t p hf hne hc hft⟩
        · right; left
          exact ⟨t, p, hne, rfl, Or.inr hft, step_false resolved rs st t p hf hne hc hft⟩
      · right; left
        exact ⟨t, p, hne, rfl, Or.inl hc, step_comment resolved rs st t p hf hc⟩

/-- What the ReplaceContents branch does on a tag that is not both opening and
closing: nothing, a push, or a pop with the splice of the contents. -/
theorem replaceContents_cases (f : Str → Str) (s : Scan)
    (hboth : (s.tag.myIsOpening && s.tag.myIsClosing) = false) :
    replaceContents f s = s ∨
    (s.tag.myIsOpening = true ∧
      replaceContents f s
        = { s with contentStack := s.contentStack ++
              [(s.tag.myName, s.offset + s.tagPosition + s.tag.toString.length)] }) ∨
    (∃ init item, s.contentStack = init ++ [item] ∧ item.1 = s.tag.myName ∧
      s.tag.myIsClosing = true ∧
      replaceContents f s
        = { s with
            contentStack := init
            html := replaceAt s.html item.2
              (((s.offset + s.tagPosition : Nat) : Int) - (item.2 : Int))
              (f (mid s.html item.2 (((s.offset + s.tagPosition : Nat) : Int) - (item.2 : Int))))
            offset := item.2 +
              (f (mid s.html item.2
                (((s.offset + s.tagPosition : Nat) : Int) - (item.2 : Int)))).length
            tagPosition := 0 }) := by
  cases ho : s.tag.myIsOpening
  · -- not opening
    rcases List.eq_nil_or_concat s.contentStack with hnil | ⟨init, item, hcs⟩
    · left
      unfold replaceContents
      simp [ho, hnil]
    · rw [List.concat_eq_append] at hcs
      by_cases hcond : (s.tag.myIsClosing && item.1 == s.tag.myName) = true
      · right; right
        have hc : s.tag.myIsClosing = true := by
          simp only [Bool.and_eq_true] at hcond; exact hcond.1
        have hn : item.1 = s.tag.myName := by
          simp only [Bool.and_eq_true, beq_iff_eq] at hcond; exact hcond.2
        refine ⟨init, item, hcs, hn, hc, ?_⟩
        have hl : (init ++ [item]).getLast? = some item := by simp
        unfold replaceContents
        simp only [ho, Bool.false_eq_true, if_false, hcs, hl, hcond, if_true,
          List.dropLast_concat]
      · left
        have hl : (init ++ [item]).getLast? = some item := by simp
        unfold replaceContents
        simp only [ho, Bool.false_eq_true, if_false, hcs, hl, hcond]
  · -- opening, so not closing
    right; left
    have hc : s.tag.myIsClosing = false := by
      rw [ho] at hboth; simpa using hboth
    refine ⟨rfl, ?_⟩
    have hl : (s.contentStack ++
        [(s.tag.myName, s.offset + s.tagPosition + s.tag.toString.length)]).getLast?
        = some (s.tag.myName, s.offset + s.tagPosition + s.tag.toString.length) := by simp
    unfold replaceContents
    simp only [ho, if_true, hl, hc, Bool.false_and, Bool.false_eq_true, if_false]

theorem evaluated_contents_or_not (resolved : Str → Str → Str) :
    ∀ (rules : List Rule) (t : Tag),
      (∀ e ∈ evaluated resolved rules t, isReplaceContents e.1 = false) ∨
      (∃ f T, (Rule.REPLACE_CONTENTS f, T) ∈ evaluated resolved rules t) := by
  intro rules t
  by_cases h : ∃ e ∈ evaluated resolved rules t, isReplaceContents e.1 = true
  · right
    obtain ⟨⟨r, T⟩, he, hr⟩ := h
    cases r with
    | REPLACE_CONTENTS f => exact ⟨f, T, he⟩
    | REPLACE_TAG w o c => simp [isReplaceContents] at hr
    | REPLACE_ATTRIBUTE a f => simp [isReplaceContents] at hr
    | RESOLVE_URL a b => simp [isReplaceContents] at hr
    | SURROUND_TAG b a o c => simp [isReplaceContents] at hr
    | MODIFY_TAG f => simp [isReplaceContents] at hr
  · left
    intro e he
    cases hr : isReplaceContents e.1
    · rfl
    · exact absurd ⟨e, he, hr⟩ h

/-- What the rules of a tag leave, when no ReplaceContents branch is run on a
tag that is both opening and closing. -/
theorem applyRules_forms (resolved : Str → Str → Str) (rules : List Rule) (s : Scan)
    (hp : (evaluated resolved rules s.tag).any
      (fun e => isReplaceContents e.1 && e.2.myIsOpening && e.2.myIsClosing) = false) :
    ∃ T : Tag,
      applyRules resolved rules s = { s with tag := T } ∨
      (T.myIsOpening = true ∧
        applyRules resolved rules s
          = { s with
              tag := T
              contentStack := s.contentStack ++
                [(T.myName, s.offset + s.tagPosition + T.toString.length)] }) ∨
      (∃ (init : List (Str × Nat)) (item : Str × Nat) (f : Str → Str),
        s.contentStack = init ++ [item] ∧ item.1 = T.myName ∧
        T.myIsClosing = true ∧
        applyRules resolved rules s
          = { html := replaceAt s.html item.2
                (((s.offset + s.tagPosition : Nat) : Int) - (item.2 : Int))
                (f (mid s.html item.2
                  (((s.offset + s.tagPosition : Nat) : Int) - (item.2 : Int))))
              offset := item.2 +
                (f (mid s.html item.2
                  (((s.offset + s.tagPosition : Nat) : Int) - (item.2 : Int)))).length
              tagPosition := 0
              contentStack := init
              tag := T }) := by
  rcases evaluated_contents_or_not resolved rules s.tag with h | ⟨f, T, h⟩
  · exact ⟨_, Or.inl (applyRules_tag_only resolved rules s h)⟩
  · refine ⟨T, ?_⟩
    rw [applyRules_contents resolved f T rules s h]
    have hboth : (T.myIsOpening && T.myIsClosing) = false := by
      have := List.any_eq_false.1 hp _ h
      simpa [isReplaceContents] using this
    rcases replaceContents_cases f { s with tag := T } hboth with h1 | ⟨ho, h1⟩ | ⟨init, item, hcs, hn, hc, h1⟩
    · exact Or.inl h1
    · exact Or.inr (Or.inl ⟨ho, h1⟩)
    · exact Or.inr (Or.inr ⟨init, item, f, hcs, hn, hc, h1⟩)

theorem contentsOnBoth_tag (resolved : Str → Str → Str) (rs : RuleSet) (st : LoopState)
    (t : Str) (p : Nat)
    (hf : findTag (st.html.drop st.offset) st.tagPosition = (t, p)) (hne : t ≠ [])
    (hc : startsWith t "<!--".toList = false)
    (hft : isFalseTag st.previousTag (Tag.parse t) = false) :
    contentsOnBoth resolved rs st
      = (evaluated resolved (candidateRules rs (Tag.parse t).myName) (Tag.parse t)).any
          (fun e => isReplaceContents e.1 && e.2.myIsOpening && e.2.myIsClosing) := by
  have he : t.isEmpty = false := by
    cases t with
    | nil => exact absurd rfl hne
    | cons a b => rfl
  unfold contentsOnBoth
  simp only [midFrom, hf, he, hc, hft, Bool.false_eq_true, if_false]

/-- The splice of the tag text: lengths, offset, and the text before it. -/
theorem splice_facts (html : Str) (q l : Nat) (new : Str) (h : q + l ≤ html.length) :
    q + new.length ≤ (replaceAt html q (l : Nat) new).length ∧
    (replaceAt html q (l : Nat) new).length - (q + new.length) = html.length - (q + l) ∧
    (∀ k, k ≤ q → (replaceAt html q (l : Nat) new).take k = html.take k) ∧
    (replaceAt html q (l : Nat) new).take (q + new.length) = html.take q ++ new := by
  have hl := replaceAt_length html q l new h
  refine ⟨by omega, by omega, fun k hk => replaceAt_take html q l new h k hk,
    replaceAt_take_new html q l new h⟩

/-- One iteration keeps the invariants, shortens the unscanned remainder, and
leaves the text before every stored offset as it is. -/
theorem step_preserves (resolved : Str → Str → Str) (rs : RuleSet) (st st1 : LoopState)
    (hinv : OffsetsOrdered st) (hanc : Anchored st)
    (hp : contentsOnBoth resolved rs st = false)
    (hs : step resolved rs st = Sum.inl st1) :
    OffsetsOrdered st1 ∧ Anchored st1 ∧
    st1.html.length - st1.offset < st.html.length - st.offset ∧
    (∀ e ∈ st.contentStack, st1.html.take e.2 = st.html.take e.2) := by
  obtain ⟨hoff, hle, hpw⟩ := hinv
  rcases step_cases resolved rs st with h | ⟨t, p, hne, hf, _, h⟩ | ⟨t, p, hne, hf, hc, hft, h⟩
  · rw [hs] at h; cases h
  · -- a skip
    rw [hs] at h
    have := Sum.inl.inj h
    subst this
    obtain ⟨hb, _⟩ := findTag_bounds _ _ _ _ hf hne
    have hpos : 0 < t.length := List.length_pos.2 hne
    simp only [List.length_drop] at hb
    refine ⟨⟨?_, ?_, hpw⟩, ?_, ?_, ?_⟩
    · show st.offset + t.length ≤ st.html.length
      omega
    · intro e he
      have := hle e he
      show e.2 ≤ st.offset + t.length
      omega
    · exact hanc
    · show st.html.length - (st.offset + t.length) < st.html.length - st.offset
      omega
    · intro e _; rfl
  · -- a tag handed to the rules
    obtain ⟨hb, _⟩ := findTag_bounds _ _ _ _ hf hne
    have hpos : 0 < t.length := List.length_pos.2 hne
    simp only [List.length_drop] at hb
    have hq : st.offset + p + t.length ≤ st.html.length := by omega
    rw [contentsOnBoth_tag resolved rs st t p hf hne hc hft] at hp
    obtain ⟨T, hforms⟩ := applyRules_forms resolved (candidateRules rs (Tag.parse t).myName)
      { html := st.html, offset := st.offset, tagPosition := p,
        contentStack := st.contentStack, tag := Tag.parse t } hp
    rw [hs] at h
    have hst1 := Sum.inl.inj h
    clear h hs
    rcases hforms with hA | ⟨ho, hB⟩ | ⟨init, item, f, hcs, hn, hcl, hC⟩
    · -- no change of the stack
      rw [hA] at hst1
      subst hst1
      obtain ⟨s1, s2, s3, s4⟩ := splice_facts st.html (st.offset + p) t.length T.toString hq
      refine ⟨⟨s1, ?_, hpw⟩, ?_, ?_, ?_⟩
      · intro e he
        have := hle e he
        show e.2 ≤ st.offset + p + T.toString.length
        omega
      · intro e he
        obtain ⟨u, hu1, hu2, hu3⟩ := hanc e he
        refine ⟨u, hu1, hu2, ?_⟩
        show u.toString <:+ (replaceAt st.html (st.offset + p) t.length T.toString).take e.2
        rw [s3 e.2 (by have := hle e he; omega)]
        exact hu3
      · show (replaceAt st.html (st.offset + p) t.length T.toString).length
            - (st.offset + p + T.toString.length) < st.html.length - st.offset
        omega
      · intro e he
        exact s3 e.2 (by have := hle e he; omega)
    · -- a push
      rw [hB] at hst1
      subst hst1
      obtain ⟨s1, s2, s3, s4⟩ := splice_facts st.html (st.offset + p) t.length T.toString hq
      refine ⟨⟨s1, ?_, ?_⟩, ?_, ?_, ?_⟩
      · intro e he
        show e.2 ≤ st.offset + p + T.toString.length
        have he2 : e ∈ st.contentStack ++ [(T.myName, st.offset + p + T.toString.length)] := he
        rcases List.mem_append.1 he2 with h1 | h1
        · have := hle e h1; omega
        · have : e = (T.myName, st.offset + p + T.toString.length) := by simpa using h1
          rw [this]
      · show List.Pairwise (fun a b : Str × Nat => a.2 ≤ b.2)
          (st.contentStack ++ [(T.myName, st.offset + p + T.toString.length)])
        rw [List.pairwise_append]
        refine ⟨hpw, List.pairwise_singleton _ _, ?_⟩
        intro a ha b hb2
        have : b = (T.myName, st.offset + p + T.toString.length) := by simpa using hb2
        rw [this]
        have := hle a ha
        show a.2 ≤ st.offset + p + T.toString.length
        omega
      · intro e he
        have he2 : e ∈ st.contentStack ++ [(T.myName, st.offset + p + T.toString.length)] := he
        show ∃ u : Tag, u.myName = e.1 ∧ u.myIsOpening = true ∧
          u.toString <:+ (replaceAt st.html (st.offset + p) t.length T.toString).take e.2
        rcases List.mem_append.1 he2 with h1 | h1
        · obtain ⟨u, hu1, hu2, hu3⟩ := hanc e h1
          refine ⟨u, hu1, hu2, ?_⟩
          rw [s3 e.2 (by have := hle e h1; omega)]
          exact hu3
        · have : e = (T.myName, st.offset + p + T.toString.length) := by simpa using h1
          rw [this]
          refine ⟨T, rfl, ho, ?_⟩
          show T.toString <:+ (replaceAt st.html (st.offset + p) t.length T.toString).take
            (st.offset + p + T.toString.length)
          rw [s4]
          exact List.suffix_append _ _
      · show (replaceAt st.html (st.offset + p) t.length T.toString).length
            - (st.offset + p + T.toString.length) < st.html.length - st.offset
        omega
      · intro e he
        exact s3 e.2 (by have := hle e he; omega)
    · -- a pop: the contents are spliced, then the tag
      have hcs2 : st.contentStack = init ++ [item] := hcs
      have hitem : item ∈ st.contentStack := by rw [hcs2]; simp
      have hstart := hle item hitem
      rw [hcs2, List.pairwise_append] at hpw
      obtain ⟨hpwi, _, hlast⟩ := hpw
      have hinit : ∀ a ∈ init, a.2 ≤ item.2 := fun a ha => hlast a ha item (by simp)
      have hn1 : (((st.offset + p : Nat) : Int) - (item.2 : Int))
          = ((st.offset + p - item.2 : Nat) : Int) := by omega
      rw [hC] at hst1
      simp only [hn1] at hst1
      generalize hc0 : f (mid st.html item.2 ((st.offset + p - item.2 : Nat) : Int)) = c at hst1
      subst hst1
      have hm : item.2 + (st.offset + p - item.2) ≤ st.html.length := by omega
      obtain ⟨r1, r2, r3, r4⟩ := splice_facts st.html item.2 (st.offset + p - item.2) c hm
      have hq1 : item.2 + c.length + 0 + t.length
          ≤ (replaceAt st.html item.2 ((st.offset + p - item.2 : Nat) : Int) c).length := by
        omega
      obtain ⟨s1, s2, s3, s4⟩ := splice_facts
        (replaceAt st.html item.2 ((st.offset + p - item.2 : Nat) : Int) c)
        (item.2 + c.length + 0) t.length T.toString hq1
      have hframe : ∀ k, k ≤ item.2 →
          (replaceAt (replaceAt st.html item.2 ((st.offset + p - item.2 : Nat) : Int) c)
            (item.2 + c.length + 0) t.length T.toString).take k = st.html.take k := by
        intro k hk
        rw [s3 k (by omega), r3 k hk]
      refine ⟨⟨s1, ?_, hpwi⟩, ?_, ?_, ?_⟩
      · intro e he
        have := hinit e he
        show e.2 ≤ item.2 + c.length + 0 + T.toString.length
        omega
      · intro e he
        have he2 : e ∈ init := he
        obtain ⟨u, hu1, hu2, hu3⟩ := hanc e (by rw [hcs2]; simp [he2])
        refine ⟨u, hu1, hu2, ?_⟩
        show u.toString <:+ (replaceAt (replaceAt st.html item.2
            ((st.offset + p - item.2 : Nat) : Int) c)
            (item.2 + c.length + 0) t.length T.toString).take e.2
        rw [hframe e.2 (hinit e he2)]
        exact hu3
      · show (replaceAt (replaceAt st.html item.2 ((st.offset + p - item.2 : Nat) : Int) c)
            (item.2 + c.length + 0) t.length T.toString).length
            - (item.2 + c.length + 0 + T.toString.length) < st.html.length - st.offset
        omega
      · intro e he
        rw [hcs2] at he
        apply hframe
        rcases List.mem_append.1 he with h1 | h1
        · exact hinit e h1
        · have : e = item := by simpa using h1
          rw [this]

theorem stateAfter_succ (resolved : Str → Str → Str) (rs : RuleSet) :
    ∀ (k : Nat) (st : LoopState),
      stateAfter resolved rs (k + 1) st =
        match step resolved rs (stateAfter resolved rs k st) with
        | Sum.inl st1 => st1
        | Sum.inr _ => stateAfter resolved rs k st := by
  intro k
  induction k with
  | zero =>
    intro st
    cases hs : step resolved rs st <;> simp [stateAfter, hs]
  | succ k ih =>
    intro st
    cases hs : step resolved rs st with
    | inl st1 =>
      have e1 : ∀ j, stateAfter resolved rs (j + 1) st = stateAfter resolved rs j st1 := by
        intro j; simp only [stateAfter, hs]
      rw [e1 (k + 1), e1 k]
      exact ih st1
    | inr out =>
      have e1 : ∀ j, stateAfter resolved rs (j + 1) st = st := by
        intro j; simp only [stateAfter, hs]
      rw [e1 (k + 1), e1 k, hs]

theorem stateAfter_shift (resolved : Str → Str → Str) (rs : RuleSet) (st st1 : LoopState)
    (hs : step resolved rs st = Sum.inl st1) (k : Nat) :
    stateAfter resolved rs (k + 1) st = stateAfter resolved rs k st1 := by
  simp only [stateAfter, hs]

/-- Once an iteration leaves the loop, the state stays. -/
theorem stateAfter_of_done (resolved : Str → Str → Str) (rs : RuleSet) (st : LoopState)
    (n : Nat) (hdone : (step resolved rs (stateAfter resolved rs n st)).isRight = true) :
    ∀ k, n ≤ k → stateAfter resolved rs k st = stateAfter resolved rs n st := by
  intro k hk
  induction k with
  | zero =>
    have : n = 0 := by omega
    subst this; rfl
  | succ k ih =>
    by_cases hn : n = k + 1
    · subst hn; rfl
    · have h1 := ih (by omega)
      rw [stateAfter_succ, h1]
      cases hs : step resolved rs (stateAfter resolved rs n st) with
      | inl st1 => rw [hs] at hdone; cases hdone
      | inr out => rfl

/-- For a run that has left the loop at iteration `n`, the proviso on the
iterations up to `n` is the proviso on all iterations. -/
theorem contentsOnBoth_of_done (resolved : Str → Str → Str) (rs : RuleSet) (st : LoopState)
    (n : Nat) (hdone : (step resolved rs (stateAfter resolved rs n st)).isRight = true)
    (h : ∀ k, k ≤ n → contentsOnBoth resolved rs (stateAfter resolved rs k st) = false) :
    ∀ k, contentsOnBoth resolved rs (stateAfter resolved rs k st) = false := by
  intro k
  by_cases hk : k ≤ n
  · exact h k hk
  · rw [stateAfter_of_done resolved rs st n hdone k (by omega)]
    exact h n (Nat.le_refl n)

theorem initial_invariants (myHtml : Str) :
    OffsetsOrdered (initialState myHtml) ∧ Anchored (initialState myHtml) := by
  refine ⟨⟨Nat.zero_le _, ?_, List.Pairwise.nil⟩, ?_⟩
  · intro e he; cases he
  · intro e he; cases he

/-- The invariants hold at every iteration. -/
theorem invariants_stateAfter (resolved : Str → Str → Str) (rs : RuleSet) (st : LoopState)
    (hinv : OffsetsOrdered st) (hanc : Anchored st) :
    ∀ (k : Nat),
      (∀ j, j < k → contentsOnBoth resolved rs (stateAfter resolved rs j st) = false) →
      OffsetsOrdered (stateAfter resolved rs k st) ∧ Anchored (stateAfter resolved rs k st) := by
  intro k
  induction k with
  | zero => intro _; exact ⟨hinv, hanc⟩
  | succ k ih =>
    intro hp
    obtain ⟨h1, h2⟩ := ih (fun j hj => hp j (by omega))
    rw [stateAfter_succ]
    cases hs : step resolved rs (stateAfter resolved rs k st) with
    | inl st1 =>
      obtain ⟨g1, g2, _, _⟩ := step_preserves resolved rs _ st1 h1 h2 (hp k (by omega)) hs
      exact ⟨g1, g2⟩
    | inr out => exact ⟨h1, h2⟩

/-- The loop leaves within as many iterations as the unscanned remainder has
characters, plus one. -/
theorem loop_terminates (resolved : Str → Str → Str) (rs : RuleSet) :
    ∀ (n : Nat) (st : LoopState), OffsetsOrdered st → Anchored st →
      (∀ k, contentsOnBoth resolved rs (stateAfter resolved rs k st) = false) →
      st.html.length - st.offset ≤ n →
      ∃ out, loop resolved rs (n + 1) st = some out := by
  intro n
  induction n with
  | zero =>
    intro st hinv hanc hp hn
    cases hs : step resolved rs st with
    | inl st1 =>
      obtain ⟨_, _, g3, _⟩ := step_preserves resolved rs st st1 hinv hanc (hp 0) hs
      omega
    | inr out => exact ⟨out, by simp [loop, hs]⟩
  | succ n ih =>
    intro st hinv hanc hp hn
    cases hs : step resolved rs st with
    | inl st1 =>
      obtain ⟨g1, g2, g3, _⟩ := step_preserves resolved rs st st1 hinv hanc (hp 0) hs
      have hp1 : ∀ k, contentsOnBoth resolved rs (stateAfter resolved rs k st1) = false := by
        intro k
        rw [← stateAfter_shift resolved rs st st1 hs k]
        exact hp (k + 1)
      obtain ⟨out, hout⟩ := ih st1 g1 g2 hp1 (by omega)
      exact ⟨out, by rw [loop_inl resolved rs (n + 1) st st1 hs]; exact hout⟩
    | inr out => exact ⟨out, by simp [loop, hs]⟩

theorem value_mem : ∀ (rs : RuleSet) (key : Str) (r : Rule), r ∈ rs.value key →
    ∃ e ∈ rs, r ∈ e.2 := by
  intro rs
  induction rs with
  | nil => intro key r h; simp [RuleSet.value] at h
  | cons e rs ih =>
    intro key r h
    obtain ⟨k, rules⟩ := e
    simp only [RuleSet.value] at h
    split at h
    · exact ⟨(k, rules), by simp, h⟩
    · obtain ⟨e1, he1, hr⟩ := ih key r h
      exact ⟨e1, by simp [he1], hr⟩

theorem candidateRules_mem (rs : RuleSet) (name : Str) (r : Rule)
    (h : r ∈ candidateRules rs name) : ∃ e ∈ rs, r ∈ e.2 := by
  unfold candidateRules at h
  split at h
  · rcases List.mem_append.1 h with h1 | h1
    · exact value_mem rs name r h1
    · exact value_mem rs [] r h1
  · simp at h

/-- Rules other than ReplaceContents and ModifyTag leave the name and the
flags of the tag as they are. -/
theorem applyRules_keeps (resolved : Str → Str → Str) :
    ∀ (rules : List Rule) (s : Scan),
      (∀ r ∈ rules, isReplaceContents r = false ∧ isModifyTag r = false) →
      (applyRules resolved rules s).tag.myName = s.tag.myName ∧
      (applyRules resolved rules s).tag.myIsClosing = s.tag.myIsClosing ∧
      (applyRules resolved rules s).tag.myIsOpening = s.tag.myIsOpening := by
  intro rules
  induction rules with
  | nil => intro s _; exact ⟨rfl, rfl, rfl⟩
  | cons r rest ih =>
    intro s h
    have hrest : ∀ r ∈ rest, isReplaceContents r = false ∧ isModifyTag r = false :=
      fun r hr => h r (by simp [hr])
    have hr := h r (by simp)
    cases r with
    | REPLACE_CONTENTS f => simp [isReplaceContents] at hr
    | MODIFY_TAG f => simp [isModifyTag] at hr
    | REPLACE_TAG w o c =>
      simp only [applyRules]
      split
      · exact ih _ hrest
      · exact ih _ hrest
    | REPLACE_ATTRIBUTE a f =>
      simp only [applyRules]
      split
      · exact ih _ hrest
      · exact ih _ hrest
    | RESOLVE_URL a b =>
      simp only [applyRules]
      split
      · exact ⟨rfl, rfl, rfl⟩
      · exact ih _ hrest
    | SURROUND_TAG b a o c =>
      simp only [applyRules]
      split
      · exact ih _ hrest
      · exact ih _ hrest

theorem findSub_char_append (c : Char) : ∀ (s r : Str), c ∈ s →
    findSub [c] (s ++ r) = findSub [c] s := by
  intro s
  induction s with
  | nil => intro r h; cases h
  | cons x xs ih =>
    intro r h
    by_cases hx : x = c
    · subst hx
      simp [findSub, startsWith]
    · have hc : c ∈ xs := by
        rcases List.mem_cons.1 h with h1 | h1
        · exact absurd h1.symm hx
        · exact h1
      have h1 : startsWith (x :: (xs ++ r)) [c] = false := by simp [startsWith, hx]
      have h2 : startsWith (x :: xs) [c] = false := by simp [startsWith, hx]
      show findSub [c] (x :: (xs ++ r)) = findSub [c] (x :: xs)
      rw [findSub, findSub, h1, h2]
      simp only [Bool.false_eq_true, if_false]
      rw [ih r hc]

theorem RE_TAG_append (u r : Str) (h : '>' ∈ u.drop 2) : RE_TAG (u ++ r) = RE_TAG u := by
  cases u with
  | nil => simp at h
  | cons a u1 =>
    cases u1 with
    | nil => simp at h
    | cons b u2 =>
      simp only [List.drop_succ_cons, List.drop_zero] at h
      simp only [List.cons_append, RE_TAG]
      rw [findSub_char_append '>' u2 r h]

theorem closingScript_mem (i : Nat) (hi : i ≤ 8) : '>' ∈ "</script>".toList.drop i := by
  interval_cases i <;> decide

/-- A generic tag match that starts inside a script body free of `</` and `/>`
is not parsed as closing, whatever follows the closing tag of the script. -/
theorem script_body_not_closing_rest (body rest : Str)
    (h1 : findSub "</".toList body = none) (h2 : findSub "/>".toList body = none)
    (j l : Nat) (hj : j < body.length)
    (hm : RE_TAG ((body ++ ("</script>".toList ++ rest)).drop j) = some l) :
    (Tag.parse (((body ++ ("</script>".toList ++ rest)).drop j).take l)).myIsClosing
      = false := by
  have hsplit : (body ++ ("</script>".toList ++ rest)).drop j
      = (body ++ "</script>".toList).drop j ++ rest := by
    rw [← List.append_assoc, List.drop_append_of_le_length (by simp; omega)]
  have hmem : '>' ∈ ((body ++ "</script>".toList).drop j).drop 2 := by
    rw [List.drop_drop, List.drop_append_eq_append_drop]
    apply List.mem_append_right
    exact closingScript_mem _ (by omega)
  rw [hsplit] at hm ⊢
  rw [RE_TAG_append _ _ hmem] at hm
  obtain ⟨t1, _, _, _⟩ := RE_TAG_take _ _ hm
  have hl : l ≤ ((body ++ "</script>".toList).drop j).length := by
    rw [← t1]; simp only [List.length_take]; omega
  rw [List.take_append_of_le_length hl]
  exact script_body_not_closing body h1 h2 j l hj hm

theorem contentsOnBoth_of_no_contents (resolved : Str → Str → Str) (rs : RuleSet)
    (hrs : ∀ e ∈ rs, ∀ r ∈ e.2, isReplaceContents r = false) (st : LoopState) :
    contentsOnBoth resolved rs st = false := by
  have key : ∀ (rules : List Rule) (t : Tag), (∀ r ∈ rules, isReplaceContents r = false) →
      (evaluated resolved rules t).any
        (fun e => isReplaceContents e.1 && e.2.myIsOpening && e.2.myIsClosing) = false := by
    intro rules t hr
    rw [List.any_eq_false]
    intro e he
    obtain ⟨rest, hrest⟩ := evaluated_initial resolved rules t
    have hmem : e.1 ∈ rules := by
      rw [hrest]
      exact List.mem_append_left _ (List.mem_map_of_mem Prod.fst he)
    simp [hr e.1 hmem]
  unfold contentsOnBoth
  simp only []
  split
  · rfl
  · split
    · rfl
    · split
      · rfl
      · apply key
        intro r hr
        obtain ⟨e, he, hre⟩ := candidateRules_mem rs _ r hr
        exact hrs e he r hre

theorem prefix_of_take (a s : Str) (h : s.take a.length = a) : a <+: s := by
  rw [← h]; exact List.take_prefix _ _

theorem take_of_prefix (a s : Str) (h : a <+: s) : s.take a.length = a := by
  obtain ⟨t, rfl⟩ := h
  simp

theorem step_scriptKept (resolved : Str → Str → Str) (rs : RuleSet)
    (hrs : ∀ e ∈ rs, ∀ r ∈ e.2, isReplaceContents r = false)
    (pre body rest : Str) (opening : Tag)
    (hn : opening.myName = "SCRIPT".toList) (hcl : opening.myIsClosing = false)
    (h1 : findSub "</".toList body = none) (h2 : findSub "/>".toList body = none)
    (st st1 : LoopState) (hJ : ScriptKept pre body rest opening st)
    (hs : step resolved rs st = Sum.inl st1) :
    ScriptKept pre body rest opening st1 := by
  obtain ⟨j1, j2, j3⟩ := hJ
  rcases step_cases resolved rs st with h | ⟨t, p, hne, hf, _, h⟩ | ⟨t, p, hne, hf, hc, hft, h⟩
  · rw [hs] at h; cases h
  · rw [hs] at h
    have := Sum.inl.inj h
    subst this
    refine ⟨j1, ?_, ?_⟩
    · show pre.length ≤ st.offset + t.length
      omega
    · intro hlt
      have hlt2 : st.offset + t.length < (pre ++ body).length := hlt
      exact j3 (by omega)
  · obtain ⟨hb, _⟩ := findTag_bounds _ _ _ _ hf hne
    have hpos : 0 < t.length := List.length_pos.2 hne
    simp only [List.length_drop] at hb
    have hq : st.offset + p + t.length ≤ st.html.length := by omega
    have hnc : ∀ r ∈ candidateRules rs (Tag.parse t).myName, isReplaceContents r = false := by
      intro r hr
      obtain ⟨e, he, hre⟩ := candidateRules_mem rs _ r hr
      exact hrs e he r hre
    rw [applyRules_no_contents resolved _ _ hnc, hs] at h
    have hst1 := Sum.inl.inj h
    subst hst1
    -- the tag does not start inside the body
    have hge : (pre ++ body).length ≤ st.offset + p := by
      by_contra hlt
      have hlt1 : st.offset < (pre ++ body).length := by omega
      obtain ⟨hhtml, hprev⟩ := j3 hlt1
      rcases findTag_cases (st.html.drop st.offset) st.tagPosition with g | g | g
      · rw [hf] at g
        exact hne (congrArg Prod.fst g)
      · obtain ⟨cb, l, _, g2, g3⟩ := g
        rw [hf] at g2
        have : t = ((st.html.drop st.offset).drop cb).take l := congrArg Prod.fst g2
        rw [← this, hc] at g3
        cases g3
      · obtain ⟨q, l, gi, g2⟩ := g
        rw [hf] at g2
        have ht : t = ((st.html.drop st.offset).drop q).take l := congrArg Prod.fst g2
        have hpq : p = q := congrArg Prod.snd g2
        subst hpq
        obtain ⟨g1, _, _⟩ := indexIn_some _ _ _ _ gi
        have hpos2 : (st.html.drop st.offset).drop p
            = (body ++ ("</script>".toList ++ rest)).drop (st.offset + p - pre.length) := by
          rw [List.drop_drop, hhtml, List.drop_append_eq_append_drop,
            List.drop_eq_nil_of_le (by omega), List.nil_append]
        rw [hpos2] at g1 ht
        have hlen : st.offset + p - pre.length < body.length := by
          simp only [List.length_append] at hlt
          omega
        have hnot := script_body_not_closing_rest body rest h1 h2 _ l hlen g1
        rw [← ht] at hnot
        have := isFalseTag_of_open st.previousTag (Tag.parse t) (by rw [hprev]; exact hn)
          (by rw [hprev]; exact hcl) hnot
        rw [this] at hft
        cases hft
    refine ⟨?_, ?_, ?_⟩
    · apply prefix_of_take
      show (replaceAt st.html (st.offset + p) t.length
        (applyTagRules resolved (candidateRules rs (Tag.parse t).myName)
          (Tag.parse t)).toString).take (pre ++ body).length = pre ++ body
      rw [replaceAt_take st.html (st.offset + p) t.length _ hq _ hge]
      exact take_of_prefix _ _ j1
    · show pre.length ≤ st.offset + p + _
      omega
    · intro hlt
      have hlt2 : st.offset + p + (applyTagRules resolved
          (candidateRules rs (Tag.parse t).myName) (Tag.parse t)).toString.length
          < (pre ++ body).length := hlt
      omega

theorem loop_scriptKept (resolved : Str → Str → Str) (rs : RuleSet)
    (hrs : ∀ e ∈ rs, ∀ r ∈ e.2, isReplaceContents r = false)
    (pre body rest : Str) (opening : Tag)
    (hn : opening.myName = "SCRIPT".toList) (hcl : opening.myIsClosing = false)
    (h1 : findSub "</".toList body = none) (h2 : findSub "/>".toList body = none) :
    ∀ (n : Nat) (st : LoopState) (out : Str), ScriptKept pre body rest opening st →
      loop resolved rs n st = some out → (pre ++ body) <+: out := by
  intro n
  induction n with
  | zero => intro st out _ h; simp [loop] at h
  | succ n ih =>
    intro st out hJ h
    cases hs : step resolved rs st with
    | inl st1 =>
      rw [loop_inl resolved rs n st st1 hs] at h
      exact ih st1 out
        (step_scriptKept resolved rs hrs pre body rest opening hn hcl h1 h2 st st1 hJ hs) h
    | inr o =>
      have ho := (step_end_inv resolved rs st o hs).2
      simp only [loop, hs] at h
      have : o = out := Option.some.inj h
      rw [← this, ho]
      exact hJ.1

theorem stateAfter_scriptKept (resolved : Str → Str → Str) (rs : RuleSet)
    (hrs : ∀ e ∈ rs, ∀ r ∈ e.2, isReplaceContents r = false)
    (pre body rest : Str) (opening : Tag)
    (hn : opening.myName = "SCRIPT".toList) (hcl : opening.myIsClosing = false)
    (h1 : findSub "</".toList body = none) (h2 : findSub "/>".toList body = none)
    (st : LoopState) (hJ : ScriptKept pre body rest opening st) :
    ∀ k, ScriptKept pre body rest opening (stateAfter resolved rs k st) := by
  intro k
  induction k with
  | zero => exact hJ
  | succ k ih =>
    rw [stateAfter_succ]
    cases hs : step resolved rs (stateAfter resolved rs k st) with
    | inl st1 =>
      exact step_scriptKept resolved rs hrs pre body rest opening hn hcl h1 h2 _ st1 ih hs
    | inr o => exact ih

/-- The first iteration on a text that starts with `<script>`, for rules
without ReplaceContents. -/
theorem step_script_open (resolved : Str → Str → Str) (rs : RuleSet)
    (hrs : ∀ e ∈ rs, ∀ r ∈ e.2, isReplaceContents r = false) (tailText : Str) :
    step resolved rs (initialState ("<script>".toList ++ tailText)) =
      Sum.inl
        { html := (ruledTag resolved rs "<script>".toList).toString ++ tailText
          offset := (ruledTag resolved rs "<script>".toList).toString.length
          tagPosition := 0
          contentStack := []
          previousTag := ruledTag resolved rs "<script>".toList } := by
  have hnc : ∀ r ∈ candidateRules rs (Tag.parse "<script>".toList).myName,
      isReplaceContents r = false := by
    intro r hr
    obtain ⟨e, he, hre⟩ := candidateRules_mem rs _ r hr
    exact hrs e he r hre
  have := step_plain resolved rs [] [] "<script>".toList tailText 0 [] (Tag.parse [])
    (by simp) (by simp [RE_TAG, findSub]) (by rfl) hnc
  exact this

theorem isUpperOrDigit_alnum (c : Char) (h : isUpperOrDigit c = true) : isAlnum c = true := by
  unfold isUpperOrDigit at h
  unfold isAlnum
  simp only [Bool.or_eq_true, Bool.and_eq_true, decide_eq_true_eq] at h ⊢
  omega

theorem isUpperOrDigit_upper (c : Char) (h : isUpperOrDigit c = true) : upperChar c = c := by
  unfold isUpperOrDigit at h
  unfold upperChar
  simp only [Bool.or_eq_true, Bool.and_eq_true, decide_eq_true_eq] at h
  have : (decide (97 ≤ c.toNat) && decide (c.toNat ≤ 122)) = false := by
    simp only [Bool.and_eq_false_iff, decide_eq_false_iff_not]
    omega
  rw [this]
  rfl

theorem toUpper_of_upper (s : Str) (h : ∀ c ∈ s, isUpperOrDigit c = true) : toUpper s = s := by
  unfold toUpper
  induction s with
  | nil => rfl
  | cons a s ih =>
    simp only [List.map_cons]
    rw [isUpperOrDigit_upper a (h a (by simp)), ih (fun c hc => h c (by simp [hc]))]

theorem strLt_asymm : ∀ (a b : Str), strLt a b = true → strLt b a = false := by
  intro a
  induction a with
  | nil =>
    intro b h
    cases b with
    | nil => rfl
    | cons y ys => rfl
  | cons x xs ih =>
    intro b h
    cases b with
    | nil => simp [strLt] at h
    | cons y ys =>
      simp only [strLt, Bool.or_eq_true, decide_eq_true_eq, Bool.and_eq_true, beq_iff_eq] at h
      simp only [strLt, Bool.or_eq_false_iff, decide_eq_false_iff_not, Bool.and_eq_false_iff,
        beq_eq_false_iff_ne]
      rcases h with h | ⟨h1, h2⟩
      · refine ⟨by omega, Or.inl ?_⟩
        intro hyx
        rw [hyx] at h
        omega
      · subst h1
        exact ⟨by omega, Or.inr (ih ys h2)⟩

theorem strLt_irrefl (a : Str) : strLt a a = false := by
  cases h : strLt a a
  · rfl
  · have := strLt_asymm a a h
    rw [h] at this
    cases this

/-- Inserting a key above all keys of the table appends it. -/
theorem mapInsert_append (k v : Str) : ∀ (acc : List (Str × Str)),
    (∀ e ∈ acc, strLt e.1 k = true) → mapInsert k v acc = acc ++ [(k, v)] := by
  intro acc
  induction acc with
  | nil => intro _; rfl
  | cons e acc ih =>
    intro h
    obtain ⟨k1, v1⟩ := e
    have h1 : strLt k1 k = true := h (k1, v1) (by simp)
    have hne : (k == k1) = false := by
      cases hk : k == k1
      · rfl
      · have : k = k1 := by simpa using hk
        subst this
        rw [strLt_irrefl] at h1
        cases h1
    have hlt : strLt k k1 = false := strLt_asymm k1 k h1
    simp only [mapInsert, hne, hlt, Bool.false_eq_true, if_false, List.cons_append]
    rw [ih (fun e he => h e (by simp [he]))]

/-- Inserting the entries of a table with ascending keys one after the other
gives the table. -/
theorem foldl_mapInsert_sorted : ∀ (rem acc : List (Str × Str)),
    List.Pairwise (fun a b : Str × Str => strLt a.1 b.1 = true) (acc ++ rem) →
    rem.foldl (fun m e => mapInsert e.1 e.2 m) acc = acc ++ rem := by
  intro rem
  induction rem with
  | nil => intro acc _; simp
  | cons e rem ih =>
    intro acc h
    simp only [List.foldl_cons]
    have hacc : ∀ a ∈ acc, strLt a.1 e.1 = true := by
      intro a ha
      rw [List.pairwise_append] at h
      exact h.2.2 a ha e (by simp)
    rw [mapInsert_append e.1 e.2 acc hacc]
    have h2 : List.Pairwise (fun a b : Str × Str => strLt a.1 b.1 = true)
        ((acc ++ [(e.1, e.2)]) ++ rem) := by
      simpa using h
    rw [ih _ h2]
    simp

theorem RE_TAG_NAME_cons_not_alnum (c : Char) (s : Str) (h : isAlnum c = false) :
    RE_TAG_NAME (c :: s) = none := by
  simp [RE_TAG_NAME, List.takeWhile, h]

theorem RE_TAG_ATTRIBUTE_cons_not_alnum (c : Char) (s : Str) (h : isAlnum c = false) :
    RE_TAG_ATTRIBUTE (c :: s) = none := by
  simp [RE_TAG_ATTRIBUTE, List.takeWhile, h]

theorem RE_TAG_ATTRIBUTE_nil : RE_TAG_ATTRIBUTE [] = none := rfl

theorem attributesText_length : ∀ (attrs : List (Str × Str)),
    attrs.length ≤ (attributesText attrs).length := by
  intro attrs
  induction attrs with
  | nil => simp [attributesText]
  | cons e rest ih =>
    obtain ⟨k, v⟩ := e
    have h1 : " ".toList.length = 1 := rfl
    simp only [attributesText, List.length_append, List.length_cons, h1]
    omega

theorem indexIn_attribute (sp A v rest : Str) (hsp : ∀ c ∈ sp, isAlnum c = false)
    (hA : A ≠ []) (hal : ∀ c ∈ A, isAlnum c = true) (hv : ∀ c ∈ v, c ≠ '"') :
    indexIn RE_TAG_ATTRIBUTE (sp ++ (A ++ ('=' :: '"' :: (v ++ '"' :: rest))))
      = some (sp.length, A.length + 1 + (v.length + 2)) := by
  apply indexIn_eq_some_of
  · rw [List.drop_left]
    have h := RE_TAG_ATTRIBUTE_eq A [] ('"' :: (v ++ '"' :: rest)) hA hal (by simp)
    have h1 : ('"' :: (v ++ '"' :: rest)).takeWhile isSpace = [] := by
      simp [List.takeWhile, show isSpace '"' = false from by decide]
    have h2 : attributeValueLength ('"' :: (v ++ '"' :: rest)) = v.length + 2 := by
      rw [attributeValueLength_cons]
      simp [findSub_char '"' v rest hv]
    rw [h1] at h
    simp only [List.length_nil, List.drop_zero, h2, List.nil_append] at h
    rw [h]
  · simp
  · intro j hj
    rw [List.drop_append_of_le_length (by omega)]
    cases hd : sp.drop j with
    | nil =>
      have := congrArg List.length hd
      simp at this; omega
    | cons c cs =>
      have hc : c ∈ sp := List.mem_of_mem_drop (by rw [hd]; simp)
      exact RE_TAG_ATTRIBUTE_cons_not_alnum c _ (hsp c hc)

theorem alnum_ne_eq (A : Str) (hal : ∀ c ∈ A, isAlnum c = true) : ∀ x ∈ A, x ≠ '=' := by
  intro x hx he
  subst he
  have := hal _ hx
  revert this
  decide

/-- One iteration of the attribute loop at an attribute written as
`NAME="value"`. -/
theorem parseAttributes_step (data : Str) (fuel o : Nat) (acc : List (Str × Str))
    (sp A v rest : Str)
    (hd : data.drop o = sp ++ (A ++ ('=' :: '"' :: (v ++ '"' :: rest))))
    (hsp : ∀ c ∈ sp, isAlnum c = false)
    (hA : A ≠ []) (hup : ∀ c ∈ A, isUpperOrDigit c = true) (hv : ∀ c ∈ v, c ≠ '"') :
    parseAttributes data (fuel + 1) o acc
      = parseAttributes data fuel (o + sp.length + (A.length + 1 + (v.length + 2)))
          (mapInsert A v acc) ∧
    data.drop (o + sp.length + (A.length + 1 + (v.length + 2))) = rest := by
  have hal : ∀ c ∈ A, isAlnum c = true := fun c hc => isUpperOrDigit_alnum c (hup c hc)
  have hidx := indexIn_attribute sp A v rest hsp hA hal hv
  have hdrop : data.drop (o + sp.length) = A ++ ('=' :: '"' :: (v ++ '"' :: rest)) := by
    rw [← List.drop_drop, hd, List.drop_left]
  have hattr : mid data (o + sp.length) ((A.length + 1 + (v.length + 2) : Nat) : Int)
      = A ++ ('=' :: '"' :: (v ++ ['"'])) := by
    rw [mid_natCast, hdrop]
    have e : A ++ ('=' :: '"' :: (v ++ '"' :: rest))
        = (A ++ ('=' :: '"' :: (v ++ ['"']))) ++ rest := by simp
    have l : A.length + 1 + (v.length + 2) = (A ++ ('=' :: '"' :: (v ++ ['"']))).length := by
      simp; omega
    rw [e, l, List.take_left]
  have hrest : data.drop (o + sp.length + (A.length + 1 + (v.length + 2))) = rest := by
    rw [← List.drop_drop, hdrop]
    have e : A ++ ('=' :: '"' :: (v ++ '"' :: rest))
        = (A ++ ('=' :: '"' :: (v ++ ['"']))) ++ rest := by simp
    have l : A.length + 1 + (v.length + 2) = (A ++ ('=' :: '"' :: (v ++ ['"']))).length := by
      simp; omega
    rw [e, l, List.drop_left]
  refine ⟨?_, hrest⟩
  have hempty : (A ++ ('=' :: '"' :: (v ++ ['"']))).isEmpty = false := by
    cases A with
    | nil => rfl
    | cons a as => rfl
  have hsplit : indexOfChar (A ++ ('=' :: '"' :: (v ++ ['"']))) '=' = (A.length : Int) := by
    unfold indexOfChar
    rw [findSub_char '=' A _ (alnum_ne_eq A hal)]
    rfl
  have hne : ((A.length : Nat) : Int) ≠ -1 := by omega
  have hleft : left (A ++ ('=' :: '"' :: (v ++ ['"']))) ((A.length : Nat) : Int).toNat = A := by
    simp [left]
  have htrimA : trimmed A = A :=
    trimmed_of_no_space A (fun c hc => isAlnum_not_space c (hal c hc))
  have hupA : toUpper A = A := toUpper_of_upper A hup
  have hmidv : midFrom (A ++ ('=' :: '"' :: (v ++ ['"']))) (((A.length : Nat) : Int).toNat + 1)
      = '"' :: (v ++ ['"']) := by
    simp [midFrom]
  have htrimv : trimmed ('"' :: (v ++ ['"'])) = '"' :: (v ++ ['"']) :=
    trimmed_eq_self '"' v '"' (by decide) (by decide)
  have hstart : (startsWith ('"' :: (v ++ ['"'])) [Char.ofNat 39]
      || startsWith ('"' :: (v ++ ['"'])) ['"']) = true := by
    simp [startsWith]
  have hval : mid ('"' :: (v ++ ['"'])) 1 ((('"' :: (v ++ ['"'])).length : Int) - 2) = v := by
    have : ((('"' :: (v ++ ['"'])).length : Int) - 2) = ((v.length : Nat) : Int) := by
      simp only [List.length_cons, List.length_append, List.length_nil]
      push_cast
      omega
    rw [this, mid_natCast]
    simp
  rw [parseAttributes]
  simp only [midFrom] at hmidv ⊢
  rw [hd, hidx]
  simp only [hattr, hempty, hsplit, hne, hleft, htrimA, hupA, hmidv, htrimv, hstart, hval,
    Bool.false_eq_true, if_false, if_true, ne_eq, not_false_eq_true]

/-- The attribute loop on the text `Tag::toString` writes for a table. -/
theorem parseAttributes_all (data fin : Str) (hfin : indexIn RE_TAG_ATTRIBUTE fin = none) :
    ∀ (rem : List (Str × Str)) (o : Nat) (acc : List (Str × Str)) (k : Nat),
      data.drop o = attributesText rem ++ fin →
      (∀ e ∈ rem, e.1 ≠ [] ∧ (∀ c ∈ e.1, isUpperOrDigit c = true) ∧ (∀ c ∈ e.2, c ≠ '"')) →
      parseAttributes data (rem.length + 1 + k) o acc
        = rem.foldl (fun m e => mapInsert e.1 e.2 m) acc := by
  intro rem
  induction rem with
  | nil =>
    intro o acc k hd _
    have hf : ([] : List (Str × Str)).length + 1 + k = k + 1 := by simp; omega
    rw [hf, parseAttributes]
    simp only [midFrom]
    rw [hd]
    simp only [attributesText, List.nil_append, hfin, List.foldl_nil]
  | cons e rem ih =>
    intro o acc k hd h
    obtain ⟨A, v⟩ := e
    obtain ⟨hA, hup, hv⟩ := h (A, v) (by simp)
    have hd2 : data.drop o
        = [' '] ++ (A ++ ('=' :: '"' :: (v ++ '"' :: (attributesText rem ++ fin)))) := by
      rw [hd]
      simp [attributesText]
    have hf : ((A, v) :: rem).length + 1 + k = (rem.length + 1 + k) + 1 := by
      simp only [List.length_cons]; omega
    obtain ⟨s1, s2⟩ := parseAttributes_step data (rem.length + 1 + k) o acc [' '] A v
      (attributesText rem ++ fin) hd2 (by intro c hc; simp at hc; subst hc; decide) hA hup hv
    rw [hf, s1, ih _ _ k s2 (fun e he => h e (by simp [he]))]
    rfl

theorem RE_TAG_NAME_run (name rest : Str) (d : Char) (hne : name ≠ [])
    (hal : ∀ c ∈ name, isAlnum c = true) (hd : isNameEnd d = true) :
    RE_TAG_NAME (name ++ d :: rest) = some (name.length + 1) := by
  have h1 : (name ++ d :: rest).takeWhile isAlnum = name :=
    takeWhile_append_stop isAlnum name d rest hal (isNameEnd_not_alnum d hd)
  have hn0 : name.length ≠ 0 := fun h0 => hne (List.eq_nil_of_length_eq_zero h0)
  unfold RE_TAG_NAME
  simp only [h1, List.drop_left, beq_iff_eq, hn0, if_false, hd, if_true]

/-- The text after the name in what `Tag::toString` writes starts with a
character that ends a name. -/
theorem serialized_tail (attrs : List (Str × Str)) (trail : Str)
    (htrail : trail = [] ∨ trail = ['/']) :
    ∃ d rest, attributesText attrs ++ (trail ++ ['>']) = d :: rest ∧ isNameEnd d = true ∧
      ((attrs = [] ∧ indexIn RE_TAG_ATTRIBUTE rest = none) ∨
       (∃ A v more, attrs = (A, v) :: more ∧
          rest = [] ++ (A ++ ('=' :: '"' :: (v ++ '"' :: (attributesText more ++ (trail ++ ['>']))))))) := by
  cases attrs with
  | nil =>
    rcases htrail with h | h
    · subst h
      exact ⟨'>', [], rfl, by decide, Or.inl ⟨rfl, by decide⟩⟩
    · subst h
      exact ⟨'/', ['>'], rfl, by decide, Or.inl ⟨rfl, by decide⟩⟩
  | cons e more =>
    obtain ⟨A, v⟩ := e
    refine ⟨' ', _, ?_, by decide, Or.inr ⟨A, v, more, rfl, rfl⟩⟩
    simp [attributesText]

theorem alnum_ne_slash (c : Char) (h : isAlnum c = true) : c ≠ '/' := by
  intro he
  subst he
  revert h
  decide

/-- The name and the attributes that the constructor reads from the text
`Tag::toString` writes. -/
theorem parse_serialized_name (lead trail name : Str) (attrs : List (Str × Str))
    (hlead : lead = [] ∨ lead = ['/']) (htrail : trail = [] ∨ trail = ['/'])
    (hne : name ≠ []) (hup : ∀ c ∈ name, isUpperOrDigit c = true)
    (hattr : ∀ e ∈ attrs, e.1 ≠ [] ∧ (∀ c ∈ e.1, isUpperOrDigit c = true) ∧
      (∀ c ∈ e.2, c ≠ '"'))
    (hsorted : List.Pairwise (fun a b : Str × Str => strLt a.1 b.1 = true) attrs) :
    (Tag.parse ('<' :: (lead ++ (name ++ (attributesText attrs ++ (trail ++ ['>'])))))).myName
      = name ∧
    (Tag.parse ('<' :: (lead ++ (name ++ (attributesText attrs ++ (trail ++ ['>'])))))).myAttributes
      = attrs := by
  have hal : ∀ c ∈ name, isAlnum c = true := fun c hc => isUpperOrDigit_alnum c (hup c hc)
  obtain ⟨d, rest, hT, hd, hcase⟩ := serialized_tail attrs trail htrail
  have hlen : attrs.length + 2 ≤
      ('<' :: (lead ++ (name ++ (attributesText attrs ++ (trail ++ ['>']))))).length := by
    have := attributesText_length attrs
    simp only [List.length_cons, List.length_append, List.length_nil]
    omega
  rw [hT] at hlen ⊢
  have hdata : '<' :: (lead ++ (name ++ d :: rest)) = ('<' :: lead) ++ (name ++ d :: rest) := rfl
  have hidx : indexIn RE_TAG_NAME ('<' :: (lead ++ (name ++ d :: rest)))
      = some (('<' :: lead).length, name.length + 1) := by
    rw [hdata]
    apply indexIn_eq_some_of
    · rw [List.drop_left]
      exact RE_TAG_NAME_run name rest d hne hal hd
    · simp
    · intro j hj
      rw [List.drop_append_of_le_length (by omega)]
      cases hdj : ('<' :: lead).drop j with
      | nil =>
        have := congrArg List.length hdj
        simp at this; simp at hj; omega
      | cons c cs =>
        have hc : c ∈ '<' :: lead := List.mem_of_mem_drop (by rw [hdj]; simp)
        have hcn : isAlnum c = false := by
          rcases hlead with h | h
          · subst h
            simp at hc; subst hc; decide
          · subst h
            simp at hc
            rcases hc with h1 | h1 <;> (subst h1; decide)
        exact RE_TAG_NAME_cons_not_alnum c _ hcn
  have hmid : mid ('<' :: (lead ++ (name ++ d :: rest))) ('<' :: lead).length
      (((name.length + 1 : Nat) : Int) - 1) = name := by
    have : (((name.length + 1 : Nat) : Int) - 1) = ((name.length : Nat) : Int) := by
      push_cast; omega
    rw [this, mid_natCast, hdata, List.drop_left, List.take_left]
  have hdrop : ('<' :: (lead ++ (name ++ d :: rest))).drop (('<' :: lead).length + (name.length + 1))
      = rest := by
    rw [hdata, ← List.drop_drop, List.drop_left]
    have e : name ++ d :: rest = (name ++ [d]) ++ rest := by simp
    have l : name.length + 1 = (name ++ [d]).length := by simp
    rw [e, l, List.drop_left]
  have hname : toUpper (trimmed name) = name := by
    rw [trimmed_of_no_space name (fun c hc => isAlnum_not_space c (hal c hc)),
      toUpper_of_upper name hup]
  have hattrs : parseAttributes ('<' :: (lead ++ (name ++ d :: rest)))
      ('<' :: (lead ++ (name ++ d :: rest))).length
      (('<' :: lead).length + (name.length + 1)) [] = attrs := by
    rcases hcase with ⟨hnil, hnone⟩ | ⟨A, v, more, hcons, hrest⟩
    · subst hnil
      obtain ⟨f, hf⟩ : ∃ f, ('<' :: (lead ++ (name ++ d :: rest))).length = f + 1 :=
        ⟨_, rfl⟩
      rw [hf, parseAttributes]
      simp only [midFrom]
      rw [hdrop, hnone]
    · subst hcons
      obtain ⟨h1, h2, h3⟩ := hattr (A, v) (by simp)
      have hcl : ((A, v) :: more).length = more.length + 1 := rfl
      rw [hcl] at hlen
      generalize ('<' :: (lead ++ (name ++ d :: rest))).length = L at hlen ⊢
      obtain ⟨k, hk⟩ : ∃ k, L = (more.length + 1 + k) + 1 :=
        ⟨L - (more.length + 2), by omega⟩
      obtain ⟨s1, s2⟩ := parseAttributes_step ('<' :: (lead ++ (name ++ d :: rest)))
        (more.length + 1 + k) (('<' :: lead).length + (name.length + 1)) [] [] A v
        (attributesText more ++ (trail ++ ['>'])) (by rw [hdrop, hrest])
        (by intro c hc; cases hc) h1 h2 h3
      rw [hk, s1]
      rw [parseAttributes_all _ (trail ++ ['>'])
        (by rcases htrail with h | h <;> (subst h; decide)) more _ _ k s2
        (fun e he => hattr e (by simp [he]))]
      have hfold := foldl_mapInsert_sorted more [(A, v)] (by simpa using hsorted)
      have hm : mapInsert A v [] = [(A, v)] := rfl
      rw [hm, hfold]
      rfl
  unfold Tag.parse
  simp only []
  rw [hidx]
  simp only []
  exact ⟨by rw [hmid, hname], hattrs⟩

theorem serialized_body_last (name : Str) (attrs : List (Str × Str)) (hne : name ≠ [])
    (hal : ∀ c ∈ name, isAlnum c = true) :
    ∃ pre z, name ++ attributesText attrs = pre ++ [z] ∧ z ≠ '/' := by
  rcases attributesText_shape attrs with h | ⟨m, hm⟩
  · subst h
    rcases List.eq_nil_or_concat name with h0 | ⟨n1, z, hz⟩
    · exact absurd h0 hne
    · rw [List.concat_eq_append] at hz
      refine ⟨n1, z, by simp [attributesText, hz], ?_⟩
      exact alnum_ne_slash z (hal z (by rw [hz]; simp))
  · exact ⟨name ++ ' ' :: m, '"', by rw [hm]; simp, by decide⟩

/-- The flags that the constructor reads from the text `Tag::toString`
writes. -/
theorem parse_serialized_flags (lead trail name : Str) (attrs : List (Str × Str))
    (hlead : lead = [] ∨ lead = ['/']) (htrail : trail = [] ∨ trail = ['/'])
    (hne : name ≠ []) (hal : ∀ c ∈ name, isAlnum c = true) :
    (Tag.parse ('<' :: (lead ++ (name ++ (attributesText attrs ++ (trail ++ ['>'])))))).myIsOpening
      = decide (lead = []) ∧
    (Tag.parse ('<' :: (lead ++ (name ++ (attributesText attrs ++ (trail ++ ['>'])))))).myIsClosing
      = (decide (lead = ['/']) || decide (trail = ['/'])) := by
  have htrim : trimmed ('<' :: (lead ++ (name ++ (attributesText attrs ++ (trail ++ ['>'])))))
      = '<' :: (lead ++ (name ++ (attributesText attrs ++ (trail ++ ['>'])))) := by
    have e : '<' :: (lead ++ (name ++ (attributesText attrs ++ (trail ++ ['>']))))
        = '<' :: ((lead ++ (name ++ (attributesText attrs ++ trail))) ++ ['>']) := by simp
    rw [e]
    exact trimmed_eq_self _ _ _ (by decide) (by decide)
  obtain ⟨f1, f2, _⟩ := parse_flags
    ('<' :: (lead ++ (name ++ (attributesText attrs ++ (trail ++ ['>'])))))
  rw [f1, f2, htrim]
  obtain ⟨a, n1, hn1⟩ : ∃ a n1, name = a :: n1 := by
    cases name with
    | nil => exact absurd rfl hne
    | cons a n1 => exact ⟨a, n1, rfl⟩
  have ha : a ≠ '/' := alnum_ne_slash a (hal a (by rw [hn1]; simp))
  obtain ⟨pre, z, hpz, hz⟩ := serialized_body_last name attrs hne hal
  rcases hlead with h | h
  · subst h
    have hs : startsWith ('<' :: ([] ++ (name ++ (attributesText attrs ++ (trail ++ ['>'])))))
        "</".toList = false := by
      rw [hn1]
      simp [startsWith, ha]
    rcases htrail with h | h
    · subst h
      have he : endsWith ('<' :: ([] ++ (name ++ (attributesText attrs ++ ([] ++ ['>'])))))
          "/>".toList = false := by
        have e : '<' :: ([] ++ (name ++ (attributesText attrs ++ ([] ++ ['>']))))
            = '<' :: (pre ++ [z] ++ ['>']) := by
          rw [← hpz]; simp
        rw [e]
        exact endsWith_other pre z hz
      rw [hs, he]
      exact ⟨rfl, rfl⟩
    · subst h
      have he : endsWith ('<' :: ([] ++ (name ++ (attributesText attrs ++ (['/'] ++ ['>'])))))
          "/>".toList = true := by
        have e : '<' :: ([] ++ (name ++ (attributesText attrs ++ (['/'] ++ ['>']))))
            = '<' :: (name ++ attributesText attrs ++ ['/'] ++ ['>']) := by simp
        rw [e]
        exact endsWith_slash name (attributesText attrs)
      rw [hs, he]
      exact ⟨rfl, rfl⟩
  · subst h
    have hs : startsWith ('<' :: (['/'] ++ (name ++ (attributesText attrs ++ (trail ++ ['>'])))))
        "</".toList = true := by
      simp [startsWith]
    rw [hs]
    exact ⟨rfl, by simp⟩

/-! ## The claims -/

/-! ### C1 -/

/-- C1, as stated, fails: with an empty rule set the input `<p>` is returned
as `<P>` (the tag is serialized again with its name in upper case), not
unchanged. -/
theorem C1_counterexample :
    toString resolvedId [] "<p>".toList 2 = some "<P>".toList ∧
    ¬ Returns resolvedId [] "<p>".toList "<p>".toList := by
  refine ⟨by decide, fun h => ?_⟩
  have h2 : Returns resolvedId [] "<p>".toList "<P>".toList := ⟨2, by decide⟩
  have := Returns_unique _ _ _ _ _ h h2
  revert this
  decide

/-- C1, amended: for every input in which every generic tag match is already
the serialization of its own parse, `HtmlSed::toString` with an empty rule set
returns the input unchanged. -/
theorem C1_empty_rules_normalized (resolved : Str → Str → Str) (input : Str)
    (h : tagsNormalized input = true) : Returns resolved [] input input :=
  ⟨input.length + 1,
    loop_normalized resolved input h input.length (initialState input) rfl (by simp)⟩

/-- C1, amended, at the input `hello <DIV CLASS="a">x</DIV><BR/>`. -/
theorem C1_empty_rules_normalized_witness :
    tagsNormalized "hello <DIV CLASS=\"a\">x</DIV><BR/>".toList = true ∧
    Returns resolvedId [] "hello <DIV CLASS=\"a\">x</DIV><BR/>".toList
      "hello <DIV CLASS=\"a\">x</DIV><BR/>".toList :=
  ⟨by decide, C1_empty_rules_normalized resolvedId _ (by decide)⟩

/-! ### C2 -/

/-- C2 at a failing input: with fifteen characters of text before the comment
`<!-- <div>fake</div> -->` and a rule replacing DIV tags by `X`, the `</div>`
inside the comment is tokenized as a tag and replaced. -/
theorem C2_comment_altered :
    toString resolvedId (addRule [] "DIV".toList (Rule.REPLACE_TAG "X".toList true true))
      "aaaaaaaaaaaaaaa<!-- <div>fake</div> -->".toList 3
      = some "aaaaaaaaaaaaaaa<!-- <div>fakeX -->".toList := by
  decide

/-! ### C3 -/

/-- C3, as stated, fails: the input `<a><b>` holds no `<!--` and no tag named
SCRIPT, the rule set holds one MODIFY_TAG rule on `A` and no ReplaceContents
rule; the modifier renames the tag to SCRIPT, after which `<b>` is skipped as
script content: the code returns `<SCRIPT><b>`, the reference is
`<SCRIPT><B>`. -/
theorem C3_counterexample :
    findSub "<!--".toList "<a><b>".toList = none ∧
    (∀ seg ∈ (splitTags 6 "<a><b>".toList).1, (Tag.parse seg.2).myName ≠ "SCRIPT".toList) ∧
    (∀ e ∈ addRule [] "A".toList (Rule.MODIFY_TAG renameToScript),
      ∀ r ∈ e.2, isReplaceContents r = false) ∧
    toString resolvedId (addRule [] "A".toList (Rule.MODIFY_TAG renameToScript))
      "<a><b>".toList 3 = some "<SCRIPT><b>".toList ∧
    reference resolvedId (addRule [] "A".toList (Rule.MODIFY_TAG renameToScript))
      "<a><b>".toList = "<SCRIPT><B>".toList ∧
    ¬ Returns resolvedId (addRule [] "A".toList (Rule.MODIFY_TAG renameToScript))
      "<a><b>".toList
      (reference resolvedId (addRule [] "A".toList (Rule.MODIFY_TAG renameToScript))
        "<a><b>".toList) := by
  refine ⟨by decide, by decide, ?_, by decide, by decide, fun h => ?_⟩
  · intro e he r hr
    simp only [addRule, List.mem_singleton] at he
    subst he
    simp only [List.mem_singleton] at hr
    subst hr
    rfl
  · have h2 : Returns resolvedId (addRule [] "A".toList (Rule.MODIFY_TAG renameToScript))
        "<a><b>".toList "<SCRIPT><b>".toList := ⟨3, by decide⟩
    have := Returns_unique _ _ _ _ _ h h2
    revert this
    decide

/-- C3, amended: for every input without `<!--` and every rule set without
ReplaceContents rules such that no generic tag match of the left-to-right
split is, after its candidate rules are applied, a SCRIPT tag with the closing
flag unset, `HtmlSed::toString` returns the reference result: each text
segment copied, each tag match replaced by the serialization of the parsed
tag after its candidate rules. -/
theorem C3_refines_reference (resolved : Str → Str → Str) (rs : RuleSet) (input : Str)
    (hcomment : findSub "<!--".toList input = none)
    (hrc : ∀ e ∈ rs, ∀ r ∈ e.2, isReplaceContents r = false)
    (hscript : ∀ seg ∈ (splitTags input.length input).1,
      isOpenScript (ruledTag resolved rs seg.2) = false) :
    Returns resolved rs input (reference resolved rs input) := by
  refine ⟨input.length + 1, ?_⟩
  have h := loop_reference resolved rs hrc input.length input [] 0 [] (Tag.parse [])
    (Nat.le_refl _) hcomment hscript rfl
  simpa [toString, initialState, reference] using h

/-- C3, amended, at the input `a <div class='x'>b</div> c<br/>` with a rule
replacing opening DIV tags by `<S>`. -/
theorem C3_refines_reference_witness :
    findSub "<!--".toList "a <div class='x'>b</div> c<br/>".toList = none ∧
    (∀ seg ∈ (splitTags 31 "a <div class='x'>b</div> c<br/>".toList).1,
      isOpenScript (ruledTag resolvedId
        (addRule [] "DIV".toList (Rule.REPLACE_TAG "<S>".toList true false)) seg.2) = false) ∧
    Returns resolvedId (addRule [] "DIV".toList (Rule.REPLACE_TAG "<S>".toList true false))
      "a <div class='x'>b</div> c<br/>".toList
      (reference resolvedId (addRule [] "DIV".toList (Rule.REPLACE_TAG "<S>".toList true false))
        "a <div class='x'>b</div> c<br/>".toList) ∧
    reference resolvedId (addRule [] "DIV".toList (Rule.REPLACE_TAG "<S>".toList true false))
        "a <div class='x'>b</div> c<br/>".toList = "a <S>b</DIV> c<BR/>".toList :=
  ⟨by decide, by decide,
    C3_refines_reference resolvedId
      (addRule [] "DIV".toList (Rule.REPLACE_TAG "<S>".toList true false))
      "a <div class='x'>b</div> c<br/>".toList (by decide)
      (by
        intro e he r hr
        simp only [addRule, List.mem_singleton] at he
        subst he
        simp only [List.mem_singleton] at hr
        subst hr
        rfl)
      (by decide),
    by decide⟩

/-! ### C4 -/

/-- C4, as stated, fails: with an empty rule set the input
`<script>if (a<b) {}</script>` is not returned unchanged; the opening tag
is serialized again as `<SCRIPT>`. -/
theorem C4_counterexample :
    toString resolvedId [] "<script>if (a<b) \x7b\x7d</script>".toList 3
      = some "<SCRIPT>if (a<b) \x7b\x7d</script>".toList ∧
    ¬ Returns resolvedId [] "<script>if (a<b) \x7b\x7d</script>".toList
      "<script>if (a<b) \x7b\x7d</script>".toList := by
  refine ⟨by decide, fun h => ?_⟩
  have h2 : Returns resolvedId [] "<script>if (a<b) \x7b\x7d</script>".toList
      "<SCRIPT>if (a<b) \x7b\x7d</script>".toList := ⟨3, by decide⟩
  have := Returns_unique _ _ _ _ _ h h2
  revert this
  decide

/-- C4, amended: for every script body without `</` and `/>` and every rule
set with no rule for SCRIPT and no wildcard rule, `HtmlSed::toString` applied
to `<script>` ++ body ++ `</script>` returns `<SCRIPT>` ++ body followed by
`</script>` or by `</SCRIPT>`: the opening tag is serialized in upper case,
the body is unchanged (no tag-like match inside it is processed as a tag). -/
theorem C4_script_body_kept (resolved : Str → Str → Str) (rs : RuleSet) (body : Str)
    (hs : rs.contains "SCRIPT".toList = false) (hw : rs.contains [] = false)
    (h1 : findSub "</".toList body = none) (h2 : findSub "/>".toList body = none) :
    Returns resolved rs ("<script>".toList ++ body ++ "</script>".toList)
      ("<SCRIPT>".toList ++ body ++ "</script>".toList) ∨
    Returns resolved rs ("<script>".toList ++ body ++ "</script>".toList)
      ("<SCRIPT>".toList ++ body ++ "</SCRIPT>".toList) := by
  have hrs : candidateRules rs "SCRIPT".toList = [] := by
    unfold candidateRules
    rw [hs, hw]
    rfl
  have hstart : ∀ n, toString resolved rs ("<script>".toList ++ body ++ "</script>".toList) (n + 1)
      = loop resolved rs n
        { html := "<SCRIPT>".toList ++ (body ++ "</script>".toList), offset := 8,
          tagPosition := 0, contentStack := [], previousTag := Tag.parse "<script>".toList } := by
    intro n
    unfold toString initialState
    have e1 : (Tag.parse "<script>".toList).myName = "SCRIPT".toList := rfl
    rw [loop_plain resolved rs n _ [] [] "<script>".toList (body ++ "</script>".toList)
      (by simp) rfl (by simp) (by simp [RE_TAG, findSub]) (by rfl)
      (by rw [e1, hrs]; simp)
      (Tag.parse "<script>".toList) (by rw [e1, hrs]; rfl) "<SCRIPT>".toList (by rfl)]
    rfl
  have hl := loop_script resolved rs body hrs h1 h2
    (("<SCRIPT>".toList ++ (body ++ "</script>".toList)).length)
    { html := "<SCRIPT>".toList ++ (body ++ "</script>".toList), offset := 8,
      tagPosition := 0, contentStack := [], previousTag := Tag.parse "<script>".toList }
    rfl (by simp) rfl rfl (by simp)
  rcases hl with h | h
  · left
    refine ⟨("<SCRIPT>".toList ++ (body ++ "</script>".toList)).length + 2 + 1, ?_⟩
    rw [hstart, h, List.append_assoc]
  · right
    refine ⟨("<SCRIPT>".toList ++ (body ++ "</script>".toList)).length + 2 + 1, ?_⟩
    rw [hstart, h, List.append_assoc]

/-- C4, amended, at the input `<script>if (a<b) {}</script>` with an
empty rule set. -/
theorem C4_script_body_kept_witness :
    findSub "</".toList "if (a<b) \x7b\x7d".toList = none ∧
    findSub "/>".toList "if (a<b) \x7b\x7d".toList = none ∧
    (Returns resolvedId [] ("<script>".toList ++ "if (a<b) \x7b\x7d".toList ++ "</script>".toList)
        ("<SCRIPT>".toList ++ "if (a<b) \x7b\x7d".toList ++ "</script>".toList) ∨
      Returns resolvedId [] ("<script>".toList ++ "if (a<b) \x7b\x7d".toList ++ "</script>".toList)
        ("<SCRIPT>".toList ++ "if (a<b) \x7b\x7d".toList ++ "</SCRIPT>".toList)) :=
  ⟨by decide, by decide,
    C4_script_body_kept resolvedId [] "if (a<b) \x7b\x7d".toList rfl rfl (by decide) (by decide)⟩

/-! ### C5 -/

/-- C5, as stated, fails: for `<p>AAA<b>BBB</b>CCC</p>` with a ReplaceContents
rule on P replacing `A` by `X` the code returns `<P>XXX<B>BBB</B>CCC</P>`,
all tags in upper case, not `<p>XXX<b>BBB</b>CCC</p>`. -/
theorem C5_counterexample :
    toString resolvedId (addRule [] "P".toList (Rule.REPLACE_CONTENTS replaceAByX))
      "<p>AAA<b>BBB</b>CCC</p>".toList 5 = some "<P>XXX<B>BBB</B>CCC</P>".toList ∧
    ¬ Returns resolvedId (addRule [] "P".toList (Rule.REPLACE_CONTENTS replaceAByX))
      "<p>AAA<b>BBB</b>CCC</p>".toList "<p>XXX<b>BBB</b>CCC</p>".toList := by
  refine ⟨by decide, fun h => ?_⟩
  have h2 : Returns resolvedId (addRule [] "P".toList (Rule.REPLACE_CONTENTS replaceAByX))
      "<p>AAA<b>BBB</b>CCC</p>".toList "<P>XXX<B>BBB</B>CCC</P>".toList := ⟨5, by decide⟩
  have := Returns_unique _ _ _ _ _ h h2
  revert this
  decide

/-- C5, amended: for all texts `a`, `b`, `c` without `<` and `>` and a rule set
holding only one ReplaceContents rule on P with substitution `s`,
`HtmlSed::toString` applied to `<p>` a `<b>` b `</b>` c `</p>` returns
`<P>` ++ s (a `<B>` b `</B>` c) ++ `</P>`: the substitution scope is the raw
text between the outer P pair, the nested tags (already serialized in upper
case) included. -/
theorem C5_contents_scope (resolved : Str → Str → Str) (a b c : Str) (s : Str → Str)
    (ha : ∀ x ∈ a, x ≠ '<' ∧ x ≠ '>') (hb : ∀ x ∈ b, x ≠ '<' ∧ x ≠ '>')
    (hc : ∀ x ∈ c, x ≠ '<' ∧ x ≠ '>') :
    Returns resolved (addRule [] "P".toList (Rule.REPLACE_CONTENTS s))
      ("<p>".toList ++ a ++ "<b>".toList ++ b ++ "</b>".toList ++ c ++ "</p>".toList)
      ("<P>".toList ++ s (a ++ "<B>".toList ++ b ++ "</B>".toList ++ c) ++ "</P>".toList) := by
  refine ⟨5, ?_⟩
  unfold toString initialState
  simp only [List.append_assoc]
  -- the opening `<p>`: the start of the contents is pushed
  rw [loop_at resolved (addRule [] "P".toList (Rule.REPLACE_CONTENTS s)) 4 _ [] [] "<p>".toList
    (a ++ ("<b>".toList ++ (b ++ ("</b>".toList ++ (c ++ "</p>".toList)))))
    rfl rfl (by simp) (by simp [RE_TAG, findSub]) (by rfl)
    { html := "<p>".toList ++ (a ++ ("<b>".toList ++ (b ++ ("</b>".toList ++ (c ++ "</p>".toList))))),
      offset := 0, tagPosition := 0, contentStack := [("P".toList, 3)],
      tag := Tag.parse "<p>".toList } (by rfl)
    ("<P>".toList ++ (a ++ ("<b>".toList ++ (b ++ ("</b>".toList ++ (c ++ "</p>".toList))))))
    (replaceAt_append [] "<p>".toList _ "<P>".toList)
    3 rfl]
  -- `<b>` and `</b>`: no rule
  rw [loop_plain resolved (addRule [] "P".toList (Rule.REPLACE_CONTENTS s)) 3 _ "<P>".toList a "<b>".toList
    (b ++ ("</b>".toList ++ (c ++ "</p>".toList)))
    rfl rfl (fun x hx => (ha x hx).1) (by simp [RE_TAG, findSub]) (by rfl)
    (no_contents_of_nil _ (by rfl))
    (Tag.parse "<b>".toList) (by rfl) "<B>".toList (by rfl)]
  rw [loop_plain resolved (addRule [] "P".toList (Rule.REPLACE_CONTENTS s)) 2 _ ("<P>".toList ++ a ++ "<B>".toList) b "</b>".toList
    (c ++ "</p>".toList)
    rfl rfl (fun x hx => (hb x hx).1) (by simp [RE_TAG, findSub]) (by rfl)
    (no_contents_of_nil _ (by rfl))
    (Tag.parse "</b>".toList) (by rfl) "</B>".toList (by rfl)]
  -- the closing `</p>`: the contents are replaced, then the tag
  have hH : "<P>".toList ++ a ++ "<B>".toList ++ b ++ "</B>".toList ++ (c ++ "</p>".toList)
      = "<P>".toList ++ ((a ++ ("<B>".toList ++ (b ++ ("</B>".toList ++ c)))) ++ "</p>".toList) := by
    simp
  have hn : (((("<P>".toList ++ a ++ "<B>".toList ++ b ++ "</B>".toList).length + c.length : Nat)
      : Int) - ((3 : Nat) : Int))
      = (((a ++ ("<B>".toList ++ (b ++ ("</B>".toList ++ c)))).length : Nat) : Int) := by
    simp only [List.length_append]
    have : "<P>".toList.length = 3 := rfl
    rw [this]
    push_cast
    omega
  rw [loop_at resolved (addRule [] "P".toList (Rule.REPLACE_CONTENTS s)) 1 _ ("<P>".toList ++ a ++ "<B>".toList ++ b ++ "</B>".toList) c
    "</p>".toList []
    rfl rfl (fun x hx => (hc x hx).1) (by simp [RE_TAG, findSub]) (by rfl)
    { html := "<P>".toList ++ (s (a ++ ("<B>".toList ++ (b ++ ("</B>".toList ++ c)))) ++ "</p>".toList),
      offset := 3 + (s (a ++ ("<B>".toList ++ (b ++ ("</B>".toList ++ c))))).length,
      tagPosition := 0, contentStack := [],
      tag := Tag.parse "</p>".toList }
    (by
      have e1 : applyRules resolved
          (candidateRules (addRule [] "P".toList (Rule.REPLACE_CONTENTS s))
            (Tag.parse "</p>".toList).myName)
          { html := "<P>".toList ++ a ++ "<B>".toList ++ b ++ "</B>".toList ++ (c ++ "</p>".toList),
            offset := ("<P>".toList ++ a ++ "<B>".toList ++ b ++ "</B>".toList).length,
            tagPosition := c.length, contentStack := [("P".toList, 3)],
            tag := Tag.parse "</p>".toList }
          = { html := replaceAt
                ("<P>".toList ++ a ++ "<B>".toList ++ b ++ "</B>".toList ++ (c ++ "</p>".toList)) 3
                (((("<P>".toList ++ a ++ "<B>".toList ++ b ++ "</B>".toList).length + c.length : Nat)
                  : Int) - ((3 : Nat) : Int))
                (s (mid
                  ("<P>".toList ++ a ++ "<B>".toList ++ b ++ "</B>".toList ++ (c ++ "</p>".toList)) 3
                  (((("<P>".toList ++ a ++ "<B>".toList ++ b ++ "</B>".toList).length + c.length : Nat)
                    : Int) - ((3 : Nat) : Int)))),
              offset := 3 + (s (mid
                  ("<P>".toList ++ a ++ "<B>".toList ++ b ++ "</B>".toList ++ (c ++ "</p>".toList)) 3
                  (((("<P>".toList ++ a ++ "<B>".toList ++ b ++ "</B>".toList).length + c.length : Nat)
                    : Int) - ((3 : Nat) : Int)))).length,
              tagPosition := 0, contentStack := [], tag := Tag.parse "</p>".toList } := rfl
      have hm : mid ("<P>".toList ++ ((a ++ ("<B>".toList ++ (b ++ ("</B>".toList ++ c)))) ++ "</p>".toList)) 3 ((a ++ ("<B>".toList ++ (b ++ ("</B>".toList ++ c)))).length : Nat) = (a ++ ("<B>".toList ++ (b ++ ("</B>".toList ++ c)))) :=
        mid_append "<P>".toList (a ++ ("<B>".toList ++ (b ++ ("</B>".toList ++ c)))) "</p>".toList
      have hr : ∀ X : Str, replaceAt ("<P>".toList ++ ((a ++ ("<B>".toList ++ (b ++ ("</B>".toList ++ c)))) ++ "</p>".toList)) 3
          ((a ++ ("<B>".toList ++ (b ++ ("</B>".toList ++ c)))).length : Nat) X = "<P>".toList ++ (X ++ "</p>".toList) :=
        fun X => replaceAt_append "<P>".toList (a ++ ("<B>".toList ++ (b ++ ("</B>".toList ++ c)))) "</p>".toList X
      exact e1.trans (by rw [hn, hH, hm, hr]))
    ("<P>".toList ++ s (a ++ ("<B>".toList ++ (b ++ ("</B>".toList ++ c)))) ++ "</P>".toList)
    (by
      have e := replaceAt_append ("<P>".toList ++ s (a ++ ("<B>".toList ++ (b ++ ("</B>".toList ++ c))))) "</p>".toList [] "</P>".toList
      have hl : 3 + (s (a ++ ("<B>".toList ++ (b ++ ("</B>".toList ++ c))))).length + 0 = ("<P>".toList ++ s (a ++ ("<B>".toList ++ (b ++ ("</B>".toList ++ c))))).length := by
        simp
        omega
      rw [hl]
      exact e)
    ("<P>".toList ++ s (a ++ ("<B>".toList ++ (b ++ ("</B>".toList ++ c)))) ++ "</P>".toList).length
    (by
      have : (Tag.parse "</p>".toList).toString = "</P>".toList := rfl
      rw [this]
      simp
      omega)]
  exact loop_end _ _ 0 _ _ _ _

/-- C5, amended, at `<p>AAA<b>BBB</b>CCC</p>` with `A` replaced by `X`. -/
theorem C5_contents_scope_witness :
    Returns resolvedId (addRule [] "P".toList (Rule.REPLACE_CONTENTS replaceAByX))
      ("<p>".toList ++ "AAA".toList ++ "<b>".toList ++ "BBB".toList ++ "</b>".toList ++
        "CCC".toList ++ "</p>".toList)
      ("<P>".toList ++
        replaceAByX ("AAA".toList ++ "<B>".toList ++ "BBB".toList ++ "</B>".toList ++ "CCC".toList)
        ++ "</P>".toList) ∧
    "<P>".toList ++
        replaceAByX ("AAA".toList ++ "<B>".toList ++ "BBB".toList ++ "</B>".toList ++ "CCC".toList)
        ++ "</P>".toList = "<P>XXX<B>BBB</B>CCC</P>".toList :=
  ⟨C5_contents_scope resolvedId "AAA".toList "BBB".toList "CCC".toList replaceAByX
      (by decide) (by decide) (by decide), by decide⟩

/-! ### C6 -/

/-- C6, as stated, fails: for `<div>x</div>` with the rule
replaceTag(DIV, `<SECTION>`, true, false) the code returns `<SECTION>x</DIV>`:
the closing tag is not replaced, but it is serialized again in upper case. -/
theorem C6_counterexample :
    toString resolvedId (addRule [] "DIV".toList (Rule.REPLACE_TAG "<SECTION>".toList true false))
      "<div>x</div>".toList 3 = some "<SECTION>x</DIV>".toList ∧
    ¬ Returns resolvedId (addRule [] "DIV".toList (Rule.REPLACE_TAG "<SECTION>".toList true false))
      "<div>x</div>".toList "<SECTION>x</div>".toList := by
  refine ⟨by decide, fun h => ?_⟩
  have h2 : Returns resolvedId
      (addRule [] "DIV".toList (Rule.REPLACE_TAG "<SECTION>".toList true false))
      "<div>x</div>".toList "<SECTION>x</DIV>".toList := ⟨3, by decide⟩
  have := Returns_unique _ _ _ _ _ h h2
  revert this
  decide

/-- C6, amended: for every text `x` without `<` and every replacement `R`, with
the single rule replaceTag(DIV, R, true, false), `HtmlSed::toString` applied
to `<div>` ++ x ++ `</div>` returns R ++ x ++ `</DIV>`: the opening tag is
replaced, the closing tag is not replaced and is serialized as `</DIV>`. -/
theorem C6_opening_only_replaced (resolved : Str → Str → Str) (x R : Str) (hx : ∀ c ∈ x, c ≠ '<') :
    Returns resolved (addRule [] "DIV".toList (Rule.REPLACE_TAG R true false))
      ("<div>".toList ++ x ++ "</div>".toList) (R ++ x ++ "</DIV>".toList) := by
  refine ⟨3, ?_⟩
  unfold toString initialState
  rw [loop_plain resolved _ 2 _ [] [] "<div>".toList (x ++ "</div>".toList)
    (by simp) rfl (by simp) (by simp [RE_TAG, findSub]) (by rfl)
    (by simp [candidateRules, addRule, RuleSet.contains, RuleSet.value, isReplaceContents])
    ((Tag.parse "<div>".toList).replaceWith R) (by rfl) R
    (by simp [Tag.toString, Tag.replaceWith])]
  rw [loop_plain resolved _ 1 _ R x "</div>".toList []
    (by simp) (by simp) hx (by simp [RE_TAG, findSub]) (by rfl)
    (by simp [candidateRules, addRule, RuleSet.contains, RuleSet.value, isReplaceContents])
    (Tag.parse "</div>".toList) (by rfl) "</DIV>".toList (by rfl)]
  have := loop_end resolved (addRule [] "DIV".toList (Rule.REPLACE_TAG R true false)) 0
    (R ++ x ++ "</DIV>".toList ++ []) x.length [] (Tag.parse "</div>".toList)
  simpa using this

/-- C6, amended, at `<div>x</div>` with `R = <SECTION>`. -/
theorem C6_opening_only_replaced_witness :
    Returns resolvedId (addRule [] "DIV".toList (Rule.REPLACE_TAG "<SECTION>".toList true false))
      ("<div>".toList ++ "x".toList ++ "</div>".toList)
      ("<SECTION>".toList ++ "x".toList ++ "</DIV>".toList) :=
  C6_opening_only_replaced resolvedId "x".toList "<SECTION>".toList (by decide)

/-! ### C7 -/

/-- C7: when the attribute named by a RESOLVE_URL rule has a value starting
with `http://` or `https://`, applying the candidate rules from that rule on
leaves every variable of the iteration, the tag and so the attribute value
included, as it is, whatever the base URL and whatever rules follow: none of
them is applied. -/
theorem C7_resolveUrl_absolute_stops (resolved : Str → Str → Str)
    (attributeName resolveBaseUrl : Str)
    (rest : List Rule) (s : Scan)
    (h : startsWith (s.tag.attribute attributeName) "http://".toList = true ∨
         startsWith (s.tag.attribute attributeName) "https://".toList = true) :
    applyRules resolved (Rule.RESOLVE_URL attributeName resolveBaseUrl :: rest) s = s := by
  have : isAbsoluteUrl (s.tag.attribute attributeName) = true := by
    simpa [isAbsoluteUrl] using h
  simp [applyRules, this]

/-- C7 at the tag `<a href="https://example.com/a">` with a RESOLVE_URL rule
followed by a REPLACE_TAG rule: the rules leave the tag as it is, and
`HtmlSed::toString` emits it with its attribute unchanged. -/
theorem C7_resolveUrl_absolute_stops_witness :
    (startsWith ((Tag.parse "<a href=\"https://example.com/a\">".toList).attribute "HREF".toList)
        "http://".toList = true ∨
      startsWith ((Tag.parse "<a href=\"https://example.com/a\">".toList).attribute "HREF".toList)
        "https://".toList = true) ∧
    applyRules resolvedId
      [Rule.RESOLVE_URL "HREF".toList "http://base/".toList, Rule.REPLACE_TAG "X".toList true true]
      { html := "<a href=\"https://example.com/a\">".toList, offset := 0, tagPosition := 0,
        contentStack := [], tag := Tag.parse "<a href=\"https://example.com/a\">".toList }
      = { html := "<a href=\"https://example.com/a\">".toList, offset := 0, tagPosition := 0,
          contentStack := [], tag := Tag.parse "<a href=\"https://example.com/a\">".toList } ∧
    toString resolvedId
      (addRule (addRule [] "A".toList (Rule.RESOLVE_URL "HREF".toList "http://base/".toList))
        "A".toList (Rule.REPLACE_TAG "X".toList true true))
      "<a href=\"https://example.com/a\">".toList 2
      = some "<A HREF=\"https://example.com/a\">".toList :=
  ⟨by decide, C7_resolveUrl_absolute_stops resolvedId _ _ _ _ (by decide), by decide⟩

/-! ### C8 -/

/-- C8 at the tag text of the spec: the unquoted value `three`, last in
`<x a="1" b='two' c=three>`, is read together with the closing `>` and
serialized as `C="three>"`. -/
theorem C8_unquoted_value_takes_bracket :
    (Tag.parse "<x a=\"1\" b='two' c=three>".toList).toString
      = "<X A=\"1\" B=\"two\" C=\"three>\">".toList := by
  decide

/-! ### C9 -/

/-- C9, as stated, fails on the emitted text for tags without a name.  The
generic tag matches `<$/>` (opening and closing) and `</$>` (closing only)
have no name and no attributes, and both serialize to `</>`: the text of the
first starts with `</` although the tag is not closing only, and the text of
the second ends with `/>` although the tag is not opening and closing. -/
theorem C9_counterexample :
    RE_TAG "<$/>".toList = some 4 ∧
    (Tag.parse "<$/>".toList).myName = [] ∧
    (Tag.parse "<$/>".toList).myIsOpening = true ∧
    (Tag.parse "<$/>".toList).myIsClosing = true ∧
    (Tag.parse "<$/>".toList).myIsReplaced = false ∧
    (Tag.parse "<$/>".toList).toString = "</>".toList ∧
    startsWith (Tag.parse "<$/>".toList).toString "</".toList = true ∧
    RE_TAG "</$>".toList = some 4 ∧
    (Tag.parse "</$>".toList).myName = [] ∧
    (Tag.parse "</$>".toList).myIsOpening = false ∧
    (Tag.parse "</$>".toList).myIsClosing = true ∧
    (Tag.parse "</$>".toList).myIsReplaced = false ∧
    (Tag.parse "</$>".toList).toString = "</>".toList ∧
    endsWith (Tag.parse "</$>".toList).toString "/>".toList = true := by
  decide

/-- C9, amended: a raw tag text (it starts with `<` and ends with `>`) is
classified as closing only when it starts with `</`, as opening and closing
when it does not and ends with `/>`, as opening only otherwise, so one flag at
least is set; its serialization is `<`, a `/` exactly when the tag is closing
only, the name, the attributes, a `/` exactly when the tag is opening and
closing, and `>`; when the parsed tag has a name, the emitted text ends with
`/>` exactly when the tag is opening and closing and starts with `</` exactly
when it is closing only; and every Tag value without replacement is
serialized in that way, between its surround texts. -/
theorem C9_flags_and_slashes (data m : Str) (hdata : data = '<' :: (m ++ ['>'])) :
    (startsWith data "</".toList = true →
      (Tag.parse data).myIsOpening = false ∧ (Tag.parse data).myIsClosing = true) ∧
    (startsWith data "</".toList = false → endsWith data "/>".toList = true →
      (Tag.parse data).myIsOpening = true ∧ (Tag.parse data).myIsClosing = true) ∧
    (startsWith data "</".toList = false → endsWith data "/>".toList = false →
      (Tag.parse data).myIsOpening = true ∧ (Tag.parse data).myIsClosing = false) ∧
    ((Tag.parse data).myIsOpening = true ∨ (Tag.parse data).myIsClosing = true) ∧
    (Tag.parse data).toString = '<' ::
      ((if (Tag.parse data).myIsOpening = false ∧ (Tag.parse data).myIsClosing = true
          then ['/'] else []) ++
        (Tag.parse data).myName ++ attributesText (Tag.parse data).myAttributes ++
        (if (Tag.parse data).myIsOpening = true ∧ (Tag.parse data).myIsClosing = true
          then ['/'] else []) ++ ['>']) ∧
    ((Tag.parse data).myName ≠ [] →
      (endsWith (Tag.parse data).toString "/>".toList = true ↔
        (Tag.parse data).myIsOpening = true ∧ (Tag.parse data).myIsClosing = true) ∧
      (startsWith (Tag.parse data).toString "</".toList = true ↔
        (Tag.parse data).myIsOpening = false ∧ (Tag.parse data).myIsClosing = true)) ∧
    (∀ u : Tag, u.myIsReplaced = false →
      u.toString = u.myBeforeText ++ ('<' ::
        ((if u.myIsOpening = false ∧ u.myIsClosing = true then ['/'] else []) ++ u.myName ++
          attributesText u.myAttributes ++
          (if u.myIsOpening = true ∧ u.myIsClosing = true then ['/'] else []) ++ ['>'])) ++
        u.myAfterText) := by
  obtain ⟨ho, hc, hr, hb, ha, _⟩ := parse_flags data
  have htrim : trimmed data = data := by
    rw [hdata]; exact trimmed_eq_self _ _ _ (by decide) (by decide)
  rw [htrim] at ho hc
  have hts := toString_unreplaced (Tag.parse data) hr
  rw [hb, ha] at hts
  simp only [List.nil_append, List.append_nil] at hts
  refine ⟨?_, ?_, ?_, ?_, hts, ?_, fun u hu => toString_unreplaced u hu⟩
  · intro h; rw [ho, hc, h]; simp
  · intro h1 h2; rw [ho, hc, h1, h2]; simp
  · intro h1 h2; rw [ho, hc, h1, h2]; simp
  · rw [ho, hc]; cases startsWith data "</".toList <;> simp
  · intro hname
    have hns := parse_name_no_slash data
    generalize (Tag.parse data).myName = name at hts hname hns
    generalize (Tag.parse data).myAttributes = attrs at hts
    generalize (Tag.parse data).myIsOpening = o at hts
    generalize (Tag.parse data).myIsClosing = c at hts
    rw [hts]
    obtain ⟨a, n1, rfl⟩ : ∃ a n1, name = a :: n1 := by
      cases name with
      | nil => exact absurd rfl hname
      | cons a n1 => exact ⟨a, n1, rfl⟩
    have ha : a ≠ '/' := hns a (by simp)
    constructor
    · -- the slash before the final bracket
      obtain ⟨n2, z, hz⟩ : ∃ n2 z, a :: n1 = n2 ++ [z] := by
        rcases List.eq_nil_or_concat (a :: n1) with h | ⟨n2, z, h⟩
        · cases h
        · exact ⟨n2, z, by rw [h, List.concat_eq_append]⟩
      have hzs : z ≠ '/' := hns z (by rw [hz]; simp)
      generalize (if o = false ∧ c = true then ['/'] else []) = lead
      by_cases hoc : o = true ∧ c = true
      · rw [if_pos hoc]
        simp only [hoc, and_self, iff_true]
        exact endsWith_slash (lead ++ a :: n1) _
      · rw [if_neg hoc, List.append_nil]
        simp only [hoc, iff_false]
        rcases attributesText_shape attrs with h | ⟨w, hw⟩
        · subst h
          have e : lead ++ a :: n1 ++ attributesText [] ++ ['>'] = lead ++ n2 ++ [z] ++ ['>'] := by
            rw [hz]; simp [attributesText]
          rw [e, endsWith_other _ z hzs]
          simp
        · have e : lead ++ a :: n1 ++ attributesText attrs ++ ['>']
              = lead ++ a :: n1 ++ ' ' :: w ++ ['"'] ++ ['>'] := by
            rw [hw]; simp
          rw [e, endsWith_other _ '"' (by decide)]
          simp
    · by_cases hoc : o = false ∧ c = true
      · simp [hoc, startsWith]
      · simp only [hoc, if_false, iff_false, List.nil_append]
        simp [startsWith, ha]

/-- C9, amended, at `<img src="x"/>`: the tag has the name IMG, is opening and
closing, and is serialized as `<IMG SRC="x"/>`. -/
theorem C9_flags_and_slashes_witness :
    (Tag.parse "<img src=\"x\"/>".toList).myIsOpening = true ∧
    (Tag.parse "<img src=\"x\"/>".toList).myIsClosing = true ∧
    endsWith (Tag.parse "<img src=\"x\"/>".toList).toString "/>".toList = true ∧
    (Tag.parse "<img src=\"x\"/>".toList).toString = "<IMG SRC=\"x\"/>".toList := by
  have h := C9_flags_and_slashes "<img src=\"x\"/>".toList "img src=\"x\"/".toList rfl
  have hflags := h.2.1 (by decide) (by decide)
  exact ⟨hflags.1, hflags.2, ((h.2.2.2.2.2.1 (by decide)).1).2 hflags, by decide⟩

/-! ### C10 -/

/-- C10: a tag on which a replacement is set serializes to its surround-before
text, the replacement and its surround-after text; a tag targeted by both a
REPLACE_TAG rule (text `R`) and a SURROUND_TAG rule (texts `B`, `A`) is
emitted as `B ++ R ++ A` in either order of the two rules. -/
theorem C10_replace_and_surround_compose (resolved : Str → Str → Str) (t : Tag) (R B A : Str)
    (o c o1 c1 : Bool) (s : Scan) :
    (t.myIsReplaced = true → t.toString = t.myBeforeText ++ t.myReplaceWith ++ t.myAfterText) ∧
    (targets o c s.tag = true → targets o1 c1 s.tag = true →
      (applyRules resolved [Rule.REPLACE_TAG R o c, Rule.SURROUND_TAG B A o1 c1] s).tag.toString
        = B ++ R ++ A ∧
      (applyRules resolved [Rule.SURROUND_TAG B A o1 c1, Rule.REPLACE_TAG R o c] s).tag.toString
        = B ++ R ++ A) := by
  refine ⟨fun h => by simp [Tag.toString, h], fun h1 h2 => ?_⟩
  have h3 : targets o1 c1 (s.tag.replaceWith R) = true := by
    simpa [targets, Tag.replaceWith] using h2
  have h4 : targets o c (s.tag.setSurroundings B A) = true := by
    simpa [targets, Tag.setSurroundings] using h1
  constructor
  · rw [applyRules, if_pos h1, applyRules, if_pos h3, applyRules]
    simp [Tag.toString, Tag.replaceWith, Tag.setSurroundings]
  · rw [applyRules, if_pos h2, applyRules, if_pos h4, applyRules]
    simp [Tag.toString, Tag.replaceWith, Tag.setSurroundings]

/-- C10 at the tag `<div>` with `R = "r"`, `B = "("`, `A = ")"`. -/
theorem C10_replace_and_surround_compose_witness :
    ((Tag.parse "<div>".toList).replaceWith "r".toList).toString = "r".toList ∧
    (applyRules resolvedId
        [Rule.REPLACE_TAG "r".toList true false, Rule.SURROUND_TAG "(".toList ")".toList true true]
        { html := "<div>".toList, offset := 0, tagPosition := 0, contentStack := [],
          tag := Tag.parse "<div>".toList }).tag.toString = "(r)".toList ∧
    (applyRules resolvedId
        [Rule.SURROUND_TAG "(".toList ")".toList true true, Rule.REPLACE_TAG "r".toList true false]
        { html := "<div>".toList, offset := 0, tagPosition := 0, contentStack := [],
          tag := Tag.parse "<div>".toList }).tag.toString = "(r)".toList := by
  have h := C10_replace_and_surround_compose resolvedId
    ((Tag.parse "<div>".toList).replaceWith "r".toList) "r".toList "(".toList ")".toList
    true false true true
    { html := "<div>".toList, offset := 0, tagPosition := 0, contentStack := [],
      tag := Tag.parse "<div>".toList }
  exact ⟨h.1 rfl, h.2 (by decide) (by decide)⟩

/-! ### C11 -/

/-- C11: for a tag with a non-empty name the candidate rules are the rules
registered under its name, in registration order, then the rules registered
under the empty key, in registration order; the iterations that are run go
through this list from its start; and when a ReplaceTag rule registered under
the name and a ReplaceTag rule registered under the empty key both target the
tag, the emitted text is the replacement of the second, in either order of
registration. -/
theorem C11_name_rules_then_wildcard (resolved : Str → Str → Str) (regs : List (Str × Rule))
    (data : Str) (hname : (Tag.parse data).myName ≠ []) :
    candidateRules (register regs) (Tag.parse data).myName
      = registeredFor regs (Tag.parse data).myName ++ registeredFor regs [] ∧
    (∃ rest, candidateRules (register regs) (Tag.parse data).myName
      = (evaluated resolved (candidateRules (register regs) (Tag.parse data).myName)
          (Tag.parse data)).map Prod.fst ++ rest) ∧
    (∀ (R1 R2 : Str) (o1 c1 o2 c2 : Bool),
      targets o1 c1 (Tag.parse data) = true → targets o2 c2 (Tag.parse data) = true →
      (ruledTag resolved
          (register [((Tag.parse data).myName, Rule.REPLACE_TAG R1 o1 c1),
            ([], Rule.REPLACE_TAG R2 o2 c2)]) data).toString = R2 ∧
      (ruledTag resolved
          (register [([], Rule.REPLACE_TAG R2 o2 c2),
            ((Tag.parse data).myName, Rule.REPLACE_TAG R1 o1 c1)]) data).toString = R2) := by
  refine ⟨candidateRules_register regs _, evaluated_initial resolved _ _, ?_⟩
  intro R1 R2 o1 c1 o2 c2 h1 h2
  have hn1 : ((Tag.parse data).myName == ([] : Str)) = false := by simpa using hname
  have hn2 : (([] : Str) == (Tag.parse data).myName) = false := by
    simpa using hname
  have hc1 : candidateRules
      (register [((Tag.parse data).myName, Rule.REPLACE_TAG R1 o1 c1),
        ([], Rule.REPLACE_TAG R2 o2 c2)]) (Tag.parse data).myName
      = [Rule.REPLACE_TAG R1 o1 c1, Rule.REPLACE_TAG R2 o2 c2] := by
    rw [candidateRules_register]
    simp [registeredFor, List.filter_cons, hn1, hn2, hname]
  have hc2 : candidateRules
      (register [([], Rule.REPLACE_TAG R2 o2 c2),
        ((Tag.parse data).myName, Rule.REPLACE_TAG R1 o1 c1)]) (Tag.parse data).myName
      = [Rule.REPLACE_TAG R1 o1 c1, Rule.REPLACE_TAG R2 o2 c2] := by
    rw [candidateRules_register]
    simp [registeredFor, List.filter_cons, hn1, hn2, hname]
  have h3 : targets o2 c2 ((Tag.parse data).replaceWith R1) = true := by
    simpa [targets, Tag.replaceWith] using h2
  have hres : (applyTagRules resolved [Rule.REPLACE_TAG R1 o1 c1, Rule.REPLACE_TAG R2 o2 c2]
      (Tag.parse data)).toString = R2 := by
    unfold applyTagRules
    rw [applyRules, if_pos h1, applyRules, if_pos h3, applyRules]
    simp [Tag.toString, Tag.replaceWith]
  unfold ruledTag
  rw [hc1, hc2]
  exact ⟨hres, hres⟩

/-- C11 at the tag `<div>` with a rule on DIV replacing it by `n` and a
wildcard rule replacing it by `w`: the emitted text is `w`. -/
theorem C11_name_rules_then_wildcard_witness :
    (Tag.parse "<div>".toList).myName ≠ [] ∧
    candidateRules (register [([], Rule.REPLACE_TAG "w".toList true true),
        ("DIV".toList, Rule.REPLACE_TAG "n".toList true true)]) (Tag.parse "<div>".toList).myName
      = registeredFor [([], Rule.REPLACE_TAG "w".toList true true),
          ("DIV".toList, Rule.REPLACE_TAG "n".toList true true)] (Tag.parse "<div>".toList).myName
        ++ registeredFor [([], Rule.REPLACE_TAG "w".toList true true),
          ("DIV".toList, Rule.REPLACE_TAG "n".toList true true)] [] ∧
    toString resolvedId (register [([], Rule.REPLACE_TAG "w".toList true true),
        ("DIV".toList, Rule.REPLACE_TAG "n".toList true true)]) "<div>".toList 2
      = some "w".toList :=
  ⟨by decide,
    (C11_name_rules_then_wildcard resolvedId
      [([], Rule.REPLACE_TAG "w".toList true true),
        ("DIV".toList, Rule.REPLACE_TAG "n".toList true true)]
      "<div>".toList (by decide)).1,
    by decide⟩

/-! ### C12 -/

/-- C12, as stated, fails.  A ModifyTag rule registered under P after a
ReplaceContents rule matches `<p>`, and its modifier is not invoked (the
output shows no `!`); and for the nameless tag `<$>` the one wildcard ModifyTag
rule is run twice (the output shows `!!`). -/
theorem C12_counterexample :
    toString resolvedId
      (register [("P".toList, Rule.REPLACE_CONTENTS replaceAByX),
        ("P".toList, Rule.MODIFY_TAG markBefore)]) "<p>".toList 2 = some "<P>".toList ∧
    (evaluated resolvedId
      (candidateRules (register [("P".toList, Rule.REPLACE_CONTENTS replaceAByX),
        ("P".toList, Rule.MODIFY_TAG markBefore)]) (Tag.parse "<p>".toList).myName)
      (Tag.parse "<p>".toList)).length = 1 ∧
    toString resolvedId (register [([], Rule.MODIFY_TAG markBefore)]) "<$>".toList 2
      = some "!!<>".toList ∧
    (evaluated resolvedId
      (candidateRules (register [([], Rule.MODIFY_TAG markBefore)])
        (Tag.parse "<$>".toList).myName)
      (Tag.parse "<$>".toList)).length = 2 := by
  refine ⟨by decide, by decide, by decide, by decide⟩

/-- C12, amended: for a tag with a non-empty name, every rule registered under
its name or under the empty key occurs once in the candidate list; when no
iteration ends with `break` (no ReplaceContents rule, no ResolveUrl rule that
finds an absolute URL) every candidate rule is run once, in order; and a
ModifyTag rule that no such iteration precedes has its modifier invoked once,
on the tag the rules before it leave, after which the rules after it
follow. -/
theorem C12_modifier_invoked_once (resolved : Str → Str → Str) (regs : List (Str × Rule))
    (data : Str) (hname : (Tag.parse data).myName ≠ []) :
    List.Perm (candidateRules (register regs) (Tag.parse data).myName)
      ((regs.filter (fun e => e.1 == (Tag.parse data).myName || e.1 == [])).map Prod.snd) ∧
    ((∀ e ∈ evaluated resolved (candidateRules (register regs) (Tag.parse data).myName)
        (Tag.parse data), stops e = false) →
      (evaluated resolved (candidateRules (register regs) (Tag.parse data).myName)
        (Tag.parse data)).map Prod.fst
        = candidateRules (register regs) (Tag.parse data).myName) ∧
    (∀ (pre post : List Rule) (tagModifier : Tag → Tag),
      candidateRules (register regs) (Tag.parse data).myName
        = pre ++ Rule.MODIFY_TAG tagModifier :: post →
      (∀ e ∈ evaluated resolved pre (Tag.parse data), stops e = false) →
      evaluated resolved (candidateRules (register regs) (Tag.parse data).myName)
          (Tag.parse data)
        = evaluated resolved pre (Tag.parse data) ++
          (Rule.MODIFY_TAG tagModifier, applyTagRules resolved pre (Tag.parse data)) ::
            evaluated resolved post
              (tagModifier (applyTagRules resolved pre (Tag.parse data)))) := by
  refine ⟨?_, ?_, ?_⟩
  · rw [candidateRules_register]
    exact perm_registered regs _ hname
  · intro h
    have := evaluated_append resolved
      (candidateRules (register regs) (Tag.parse data).myName) [] (Tag.parse data) h
    exact this.2
  · intro pre post f hc hpre
    rw [hc]
    exact (evaluated_append resolved pre (Rule.MODIFY_TAG f :: post) (Tag.parse data) hpre).1

/-- C12, amended, at the tag `<p>` with one ModifyTag rule under P and one
under the empty key: the output shows two marks, one of each rule. -/
theorem C12_modifier_invoked_once_witness :
    (Tag.parse "<p>".toList).myName ≠ [] ∧
    List.Perm
      (candidateRules (register [([], Rule.MODIFY_TAG markBefore),
        ("P".toList, Rule.MODIFY_TAG markBefore)]) (Tag.parse "<p>".toList).myName)
      (([([], Rule.MODIFY_TAG markBefore), ("P".toList, Rule.MODIFY_TAG markBefore)].filter
        (fun e => e.1 == (Tag.parse "<p>".toList).myName || e.1 == [])).map Prod.snd) ∧
    toString resolvedId (register [([], Rule.MODIFY_TAG markBefore),
        ("P".toList, Rule.MODIFY_TAG markBefore)]) "<p>".toList 2 = some "!!<P>".toList :=
  ⟨by decide,
    (C12_modifier_invoked_once resolvedId
      [([], Rule.MODIFY_TAG markBefore), ("P".toList, Rule.MODIFY_TAG markBefore)]
      "<p>".toList (by decide)).1,
    by decide⟩

/-! ### C13 -/

/-- C13 at a failing input: the buffer `<!-- x -->` holds a complete comment and
no generic tag, and `findTag` returns the empty text (and leaves `pos`). -/
theorem C13_comment_without_tag_not_found :
    findSub "<!--".toList "<!-- x -->".toList = some 0 ∧
    findSub "-->".toList "<!-- x -->".toList = some 7 ∧
    indexIn RE_TAG "<!-- x -->".toList = none ∧
    findTag "<!-- x -->".toList 5 = ([], 5) := by
  decide

/-! ### C14 -/

/-- C14: for body and tail texts without `<` and a rule set holding only one
ReplaceContents rule on P with substitution `s`, `HtmlSed::toString` applied
to `<P>` ++ body ++ `</P>` ++ tail returns `<P>` ++ s body ++ `</P>` ++ tail,
whatever the length of `s body`. -/
theorem C14_contents_spliced (resolved : Str → Str → Str) (body tail : Str) (s : Str → Str)
    (hb : ∀ x ∈ body, x ≠ '<') (ht : ∀ x ∈ tail, x ≠ '<') :
    Returns resolved (addRule [] "P".toList (Rule.REPLACE_CONTENTS s))
      ("<P>".toList ++ body ++ "</P>".toList ++ tail)
      ("<P>".toList ++ s body ++ "</P>".toList ++ tail) := by
  refine ⟨3, ?_⟩
  unfold toString initialState
  simp only [List.append_assoc]
  -- the opening `<P>`: the start of the contents is pushed
  rw [loop_at resolved (addRule [] "P".toList (Rule.REPLACE_CONTENTS s)) 2 _ [] [] "<P>".toList
    (body ++ ("</P>".toList ++ tail))
    rfl rfl (by simp) (by simp [RE_TAG, findSub]) (by rfl)
    { html := "<P>".toList ++ (body ++ ("</P>".toList ++ tail)),
      offset := 0, tagPosition := 0, contentStack := [("P".toList, 3)],
      tag := Tag.parse "<P>".toList } (by rfl)
    ("<P>".toList ++ (body ++ ("</P>".toList ++ tail)))
    (replaceAt_append [] "<P>".toList _ "<P>".toList)
    3 rfl]
  -- the closing `</P>`: the contents are replaced, then the tag
  have hn : (((3 + body.length : Nat) : Int) - ((3 : Nat) : Int)) = ((body.length : Nat) : Int) := by
    push_cast
    omega
  rw [loop_at resolved (addRule [] "P".toList (Rule.REPLACE_CONTENTS s)) 1 _ "<P>".toList body
    "</P>".toList tail
    rfl rfl hb (by simp [RE_TAG, findSub]) (by rfl)
    { html := "<P>".toList ++ (s body ++ ("</P>".toList ++ tail)),
      offset := 3 + (s body).length,
      tagPosition := 0, contentStack := [],
      tag := Tag.parse "</P>".toList }
    (by
      have e1 : applyRules resolved
          (candidateRules (addRule [] "P".toList (Rule.REPLACE_CONTENTS s))
            (Tag.parse "</P>".toList).myName)
          { html := "<P>".toList ++ (body ++ ("</P>".toList ++ tail)),
            offset := 3,
            tagPosition := body.length, contentStack := [("P".toList, 3)],
            tag := Tag.parse "</P>".toList }
          = { html := replaceAt ("<P>".toList ++ (body ++ ("</P>".toList ++ tail))) 3
                (((3 + body.length : Nat) : Int) - ((3 : Nat) : Int))
                (s (mid ("<P>".toList ++ (body ++ ("</P>".toList ++ tail))) 3
                  (((3 + body.length : Nat) : Int) - ((3 : Nat) : Int)))),
              offset := 3 + (s (mid ("<P>".toList ++ (body ++ ("</P>".toList ++ tail))) 3
                  (((3 + body.length : Nat) : Int) - ((3 : Nat) : Int)))).length,
              tagPosition := 0, contentStack := [], tag := Tag.parse "</P>".toList } := rfl
      have hm : mid ("<P>".toList ++ (body ++ ("</P>".toList ++ tail))) 3 (body.length : Nat)
          = body := mid_append "<P>".toList body ("</P>".toList ++ tail)
      have hr : ∀ X : Str, replaceAt ("<P>".toList ++ (body ++ ("</P>".toList ++ tail))) 3
          (body.length : Nat) X = "<P>".toList ++ (X ++ ("</P>".toList ++ tail)) :=
        fun X => replaceAt_append "<P>".toList body ("</P>".toList ++ tail) X
      exact e1.trans (by rw [hn, hm, hr]))
    (("<P>".toList ++ s body ++ "</P>".toList) ++ tail)
    (by
      have e := replaceAt_append ("<P>".toList ++ s body) "</P>".toList tail "</P>".toList
      have hl : 3 + (s body).length + 0 = ("<P>".toList ++ s body).length := by
        simp
        omega
      have hH : "<P>".toList ++ (s body ++ ("</P>".toList ++ tail))
          = ("<P>".toList ++ s body) ++ ("</P>".toList ++ tail) := by simp
      have hpt : (Tag.parse "</P>".toList).toString = "</P>".toList := rfl
      show replaceAt ("<P>".toList ++ (s body ++ ("</P>".toList ++ tail)))
        (3 + (s body).length + 0) ("</P>".toList.length : Nat)
        (Tag.parse "</P>".toList).toString = _
      rw [hl, hH, hpt, e]
      simp)
    ("<P>".toList ++ s body ++ "</P>".toList).length
    (by
      have : (Tag.parse "</P>".toList).toString = "</P>".toList := rfl
      show 3 + (s body).length + 0 + (Tag.parse "</P>".toList).toString.length = _
      rw [this]
      simp
      omega)]
  rw [loop_text_end resolved _ 0 _ ("<P>".toList ++ s body ++ "</P>".toList) tail rfl rfl ht]
  simp

/-- C14 at `<P>AAbA</P>tail A` with `A` replaced by `X`: the substitution stays
between the tags. -/
theorem C14_contents_spliced_witness :
    Returns resolvedId (addRule [] "P".toList (Rule.REPLACE_CONTENTS replaceAByX))
      ("<P>".toList ++ "AAbA".toList ++ "</P>".toList ++ "tail A".toList)
      ("<P>".toList ++ replaceAByX "AAbA".toList ++ "</P>".toList ++ "tail A".toList) ∧
    "<P>".toList ++ replaceAByX "AAbA".toList ++ "</P>".toList ++ "tail A".toList
      = "<P>XXbX</P>tail A".toList :=
  ⟨C14_contents_spliced resolvedId "AAbA".toList "tail A".toList replaceAByX
      (by decide) (by decide), by decide⟩

/-! ### C15 -/

/-- C15, as stated, fails in its last part.  With the rules ResolveUrl(HREF),
ModifyTag(mark), ReplaceContents registered under P in this order, the tag
`<p href="http://x">` has an absolute URL: the ResolveUrl rule leaves the loop
over the rules, one iteration is run, and the ModifyTag rule, which precedes
the ReplaceContents rule, is not applied (no `!` in the output).  With the
relative URL `x` all three iterations are run. -/
theorem C15_counterexample :
    (evaluated resolvedId
      (candidateRules
        (register [("P".toList, Rule.RESOLVE_URL "HREF".toList "http://base/".toList),
          ("P".toList, Rule.MODIFY_TAG markBefore),
          ("P".toList, Rule.REPLACE_CONTENTS replaceAByX)])
        (Tag.parse "<p href=\"http://x\">".toList).myName)
      (Tag.parse "<p href=\"http://x\">".toList)).length = 1 ∧
    toString resolvedId
      (register [("P".toList, Rule.RESOLVE_URL "HREF".toList "http://base/".toList),
        ("P".toList, Rule.MODIFY_TAG markBefore),
        ("P".toList, Rule.REPLACE_CONTENTS replaceAByX)])
      "<p href=\"http://x\">".toList 2 = some "<P HREF=\"http://x\">".toList ∧
    (evaluated resolvedId
      (candidateRules
        (register [("P".toList, Rule.RESOLVE_URL "HREF".toList "http://base/".toList),
          ("P".toList, Rule.MODIFY_TAG markBefore),
          ("P".toList, Rule.REPLACE_CONTENTS replaceAByX)])
        (Tag.parse "<p href=\"x\">".toList).myName)
      (Tag.parse "<p href=\"x\">".toList)).length = 3 ∧
    toString resolvedId
      (register [("P".toList, Rule.RESOLVE_URL "HREF".toList "http://base/".toList),
        ("P".toList, Rule.MODIFY_TAG markBefore),
        ("P".toList, Rule.REPLACE_CONTENTS replaceAByX)])
      "<p href=\"x\">".toList 2 = some "!<P HREF=\"x\">".toList := by
  refine ⟨by decide, by decide, by decide, by decide⟩

/-- C15, amended: when the candidate rules are `pre`, a ReplaceContents rule,
`post`, the rules of `post` have no effect on any variable of the iteration
and none of them is run, whatever the tag and the stack; the iterations that
are run are an initial part of `pre` followed by the ReplaceContents rule; and
when no iteration of `pre` leaves the loop (no ResolveUrl rule of `pre` finds
an absolute URL, no ReplaceContents rule in `pre`), all rules of `pre` are
run, then the ReplaceContents branch on the tag they leave. -/
theorem C15_contents_rule_ends_rules (resolved : Str → Str → Str) (pre post : List Rule)
    (replace : Str → Str) (s : Scan) :
    applyRules resolved (pre ++ Rule.REPLACE_CONTENTS replace :: post) s
      = applyRules resolved (pre ++ [Rule.REPLACE_CONTENTS replace]) s ∧
    evaluated resolved (pre ++ Rule.REPLACE_CONTENTS replace :: post) s.tag
      = evaluated resolved (pre ++ [Rule.REPLACE_CONTENTS replace]) s.tag ∧
    (∃ k, (evaluated resolved (pre ++ Rule.REPLACE_CONTENTS replace :: post) s.tag).map Prod.fst
      = (pre ++ [Rule.REPLACE_CONTENTS replace]).take k) ∧
    ((∀ e ∈ evaluated resolved pre s.tag, stops e = false) →
      (evaluated resolved (pre ++ Rule.REPLACE_CONTENTS replace :: post) s.tag).map Prod.fst
        = pre ++ [Rule.REPLACE_CONTENTS replace] ∧
      applyRules resolved (pre ++ Rule.REPLACE_CONTENTS replace :: post) s
        = replaceContents replace { s with tag := applyTagRules resolved pre s.tag }) := by
  have hev := evaluated_post_irrelevant resolved replace pre post s.tag
  refine ⟨?_, hev, evaluated_until_contents resolved replace pre post s.tag, ?_⟩
  · rw [applyRules_evaluated resolved (pre ++ Rule.REPLACE_CONTENTS replace :: post) s, hev,
      ← applyRules_evaluated resolved (pre ++ [Rule.REPLACE_CONTENTS replace]) s]
  · intro hpre
    obtain ⟨h1, h2⟩ := evaluated_append resolved pre (Rule.REPLACE_CONTENTS replace :: post)
      s.tag hpre
    have h3 : evaluated resolved (Rule.REPLACE_CONTENTS replace :: post)
        (applyTagRules resolved pre s.tag)
        = [(Rule.REPLACE_CONTENTS replace, applyTagRules resolved pre s.tag)] := rfl
    rw [h3] at h1
    refine ⟨?_, ?_⟩
    · rw [h1, List.map_append, h2]
      rfl
    · apply applyRules_contents
      rw [h1]
      simp

/-- C15, amended, at the opening tag `<p>` with the rules ModifyTag(mark),
ReplaceContents, ReplaceTag(`X`): the mark is applied, the start of the
contents is pushed, and the tag is not replaced. -/
theorem C15_contents_rule_ends_rules_witness :
    (∀ e ∈ evaluated resolvedId [Rule.MODIFY_TAG markBefore] (Tag.parse "<p>".toList),
      stops e = false) ∧
    applyRules resolvedId
      ([Rule.MODIFY_TAG markBefore] ++ Rule.REPLACE_CONTENTS replaceAByX ::
        [Rule.REPLACE_TAG "X".toList true true])
      { html := "<p>".toList, offset := 0, tagPosition := 0, contentStack := [],
        tag := Tag.parse "<p>".toList }
      = replaceContents replaceAByX
          { html := "<p>".toList, offset := 0, tagPosition := 0, contentStack := [],
            tag := applyTagRules resolvedId [Rule.MODIFY_TAG markBefore]
              (Tag.parse "<p>".toList) } ∧
    toString resolvedId
      (register [("P".toList, Rule.MODIFY_TAG markBefore),
        ("P".toList, Rule.REPLACE_CONTENTS replaceAByX),
        ("P".toList, Rule.REPLACE_TAG "X".toList true true)])
      "<p>A</p>".toList 3 = some "!<P>X!</P>".toList :=
  ⟨by simp [evaluated, stops],
    ((C15_contents_rule_ends_rules resolvedId [Rule.MODIFY_TAG markBefore]
      [Rule.REPLACE_TAG "X".toList true true] replaceAByX
      { html := "<p>".toList, offset := 0, tagPosition := 0, contentStack := [],
        tag := Tag.parse "<p>".toList }).2.2.2 (by simp [evaluated, stops])).2,
    by decide⟩

/-! ### C16 -/

/-- C16: a ReplaceContents rule run on a tag that is not opening, while the
stack is empty or the name of its top entry differs from the tag name, leaves
every variable of the iteration as it is (buffer, offset and stack), whatever
lies deeper in the stack; when the loop ends, what it returns is the buffer,
whatever the stack holds; and for a body without `<` the input `<P>` ++ body
with a ReplaceContents rule on P is returned as it is. -/
theorem C16_unmatched_closing_no_fire (resolved : Str → Str → Str) (replace : Str → Str)
    (post : List Rule) (s : Scan) (body : Str)
    (ho : s.tag.myIsOpening = false)
    (htop : ∀ item, s.contentStack.getLast? = some item → item.1 ≠ s.tag.myName)
    (hbody : ∀ c ∈ body, c ≠ '<') :
    applyRules resolved (Rule.REPLACE_CONTENTS replace :: post) s = s ∧
    (∀ (rs : RuleSet) (st : LoopState) (out : Str) (cs : List (Str × Nat)),
      step resolved rs st = Sum.inr out →
      step resolved rs { st with contentStack := cs } = Sum.inr st.html ∧ out = st.html) ∧
    Returns resolved (addRule [] "P".toList (Rule.REPLACE_CONTENTS replace))
      ("<P>".toList ++ body) ("<P>".toList ++ body) := by
  refine ⟨replaceContents_no_fire replace s ho htop, ?_, ?_⟩
  · intro rs st out cs h
    obtain ⟨h1, h2⟩ := step_end_inv resolved rs st out h
    refine ⟨?_, h2⟩
    have h3 : (findTag (List.drop st.offset st.html) st.tagPosition).1.isEmpty = true := by
      rw [h1]; rfl
    simp [step, midFrom, h3]
  · refine ⟨2, ?_⟩
    unfold toString initialState
    rw [loop_at resolved (addRule [] "P".toList (Rule.REPLACE_CONTENTS replace)) 1 _ [] []
      "<P>".toList body
      rfl rfl (by simp) (by simp [RE_TAG, findSub]) (by rfl)
      { html := "<P>".toList ++ body,
        offset := 0, tagPosition := 0, contentStack := [("P".toList, 3)],
        tag := Tag.parse "<P>".toList } (by rfl)
      ("<P>".toList ++ body)
      (by
        have e := replaceAt_append [] "<P>".toList body "<P>".toList
        simpa using e)
      3 rfl]
    exact loop_text_end resolved _ 0 _ "<P>".toList body rfl rfl hbody

/-- C16 at the closing tag `</p>` met while the stack holds an entry for P below
an entry for B: the rule does not fire; and `<P>AAA` comes back as it is. -/
theorem C16_unmatched_closing_no_fire_witness :
    applyRules resolvedId [Rule.REPLACE_CONTENTS replaceAByX]
      { html := "<P>A<B>A</p>".toList, offset := 7, tagPosition := 1,
        contentStack := [("P".toList, 3), ("B".toList, 7)], tag := Tag.parse "</p>".toList }
      = { html := "<P>A<B>A</p>".toList, offset := 7, tagPosition := 1,
          contentStack := [("P".toList, 3), ("B".toList, 7)], tag := Tag.parse "</p>".toList } ∧
    toString resolvedId (addRule [] "P".toList (Rule.REPLACE_CONTENTS replaceAByX))
      "<P>AAA".toList 2 = some "<P>AAA".toList ∧
    Returns resolvedId (addRule [] "P".toList (Rule.REPLACE_CONTENTS replaceAByX))
      ("<P>".toList ++ "AAA".toList) ("<P>".toList ++ "AAA".toList) :=
  ⟨(C16_unmatched_closing_no_fire resolvedId replaceAByX []
      { html := "<P>A<B>A</p>".toList, offset := 7, tagPosition := 1,
        contentStack := [("P".toList, 3), ("B".toList, 7)], tag := Tag.parse "</p>".toList }
      "AAA".toList (by decide) (by decide) (by decide)).1,
    by decide,
    (C16_unmatched_closing_no_fire resolvedId replaceAByX []
      { html := "<P>A<B>A</p>".toList, offset := 7, tagPosition := 1,
        contentStack := [("P".toList, 3), ("B".toList, 7)], tag := Tag.parse "</p>".toList }
      "AAA".toList (by decide) (by decide) (by decide)).2.2⟩

/-! ### C17 -/

/-- C17: for a script body without `</` and `/>`, any text `rest` and a rule set
without ReplaceContents and ModifyTag rules, the tag emitted for `<script>` is
still named SCRIPT, `HtmlSed::toString` returns on
`<script>` ++ body ++ `</script>` ++ rest, and what it returns starts with the
serialized opening tag followed by body; at every later iteration the buffer
starts with them, and while the scan offset is inside the body the buffer is
unchanged and the previous tag is the opening SCRIPT tag. -/
theorem C17_script_body_verbatim (resolved : Str → Str → Str) (rs : RuleSet)
    (body rest : Str)
    (hrs : ∀ e ∈ rs, ∀ r ∈ e.2, isReplaceContents r = false ∧ isModifyTag r = false)
    (h1 : findSub "</".toList body = none) (h2 : findSub "/>".toList body = none) :
    (ruledTag resolved rs "<script>".toList).myName = "SCRIPT".toList ∧
    (∃ tail, Returns resolved rs ("<script>".toList ++ body ++ "</script>".toList ++ rest)
      ((ruledTag resolved rs "<script>".toList).toString ++ body ++ tail)) ∧
    (∀ k, 1 ≤ k →
      ((ruledTag resolved rs "<script>".toList).toString ++ body) <+:
        (stateAfter resolved rs k
          (initialState ("<script>".toList ++ body ++ "</script>".toList ++ rest))).html ∧
      ((stateAfter resolved rs k
          (initialState ("<script>".toList ++ body ++ "</script>".toList ++ rest))).offset
          < ((ruledTag resolved rs "<script>".toList).toString ++ body).length →
        (stateAfter resolved rs k
          (initialState ("<script>".toList ++ body ++ "</script>".toList ++ rest))).html
          = (ruledTag resolved rs "<script>".toList).toString ++
              (body ++ ("</script>".toList ++ rest)) ∧
        (stateAfter resolved rs k
          (initialState ("<script>".toList ++ body ++ "</script>".toList ++ rest))).previousTag
          = ruledTag resolved rs "<script>".toList)) := by
  have hrc : ∀ e ∈ rs, ∀ r ∈ e.2, isReplaceContents r = false :=
    fun e he r hr => (hrs e he r hr).1
  have hkeep := applyRules_keeps resolved
    (candidateRules rs (Tag.parse "<script>".toList).myName)
    { html := [], offset := 0, tagPosition := 0, contentStack := [],
      tag := Tag.parse "<script>".toList }
    (by
      intro r hr
      obtain ⟨e, he, hre⟩ := candidateRules_mem rs _ r hr
      exact hrs e he r hre)
  have hn : (ruledTag resolved rs "<script>".toList).myName = "SCRIPT".toList := hkeep.1
  have hcl : (ruledTag resolved rs "<script>".toList).myIsClosing = false := hkeep.2.1
  have hin : "<script>".toList ++ body ++ "</script>".toList ++ rest
      = "<script>".toList ++ (body ++ ("</script>".toList ++ rest)) := by
    simp only [List.append_assoc]
  rw [hin]
  have hs := step_script_open resolved rs hrc (body ++ ("</script>".toList ++ rest))
  have hJ : ScriptKept (ruledTag resolved rs "<script>".toList).toString body rest
      (ruledTag resolved rs "<script>".toList)
      { html := (ruledTag resolved rs "<script>".toList).toString ++
          (body ++ ("</script>".toList ++ rest))
        offset := (ruledTag resolved rs "<script>".toList).toString.length
        tagPosition := 0
        contentStack := []
        previousTag := ruledTag resolved rs "<script>".toList } := by
    refine ⟨?_, Nat.le_refl _, fun _ => ⟨rfl, rfl⟩⟩
    show _ <+: (ruledTag resolved rs "<script>".toList).toString ++
      (body ++ ("</script>".toList ++ rest))
    rw [← List.append_assoc]
    exact List.prefix_append _ _
  refine ⟨hn, ?_, ?_⟩
  · obtain ⟨hi1, hi2⟩ := initial_invariants
      ("<script>".toList ++ (body ++ ("</script>".toList ++ rest)))
    obtain ⟨out, hout⟩ := loop_terminates resolved rs
      ("<script>".toList ++ (body ++ ("</script>".toList ++ rest))).length
      (initialState ("<script>".toList ++ (body ++ ("</script>".toList ++ rest)))) hi1 hi2
      (fun k => contentsOnBoth_of_no_contents resolved rs hrc _)
      (by
        show ("<script>".toList ++ (body ++ ("</script>".toList ++ rest))).length - 0 ≤ _
        omega)
    have hout2 := hout
    rw [loop_inl resolved rs _ _ _ hs] at hout2
    obtain ⟨tail, htail⟩ := loop_scriptKept resolved rs hrc _ body rest _ hn hcl h1 h2 _ _ out
      hJ hout2
    exact ⟨tail, _, by rw [htail]; exact hout⟩
  · intro k hk
    obtain ⟨j, rfl⟩ : ∃ j, k = j + 1 := ⟨k - 1, by omega⟩
    rw [stateAfter_shift resolved rs _ _ hs j]
    have := stateAfter_scriptKept resolved rs hrc _ body rest _ hn hcl h1 h2 _ hJ j
    exact ⟨this.1, this.2.2⟩

/-- C17 at `<script>a<b>c</script><p>` with the wildcard rule that replaces every
tag by `X`: the tag-like `<b>` of the body is kept, the tags around are
replaced. -/
theorem C17_script_body_verbatim_witness :
    (∀ e ∈ register [([], Rule.REPLACE_TAG "X".toList true true)], ∀ r ∈ e.2,
      isReplaceContents r = false ∧ isModifyTag r = false) ∧
    findSub "</".toList "a<b>c".toList = none ∧
    findSub "/>".toList "a<b>c".toList = none ∧
    (∃ tail, Returns resolvedId (register [([], Rule.REPLACE_TAG "X".toList true true)])
      ("<script>".toList ++ "a<b>c".toList ++ "</script>".toList ++ "<p>".toList)
      ((ruledTag resolvedId (register [([], Rule.REPLACE_TAG "X".toList true true)])
        "<script>".toList).toString ++ "a<b>c".toList ++ tail)) ∧
    toString resolvedId (register [([], Rule.REPLACE_TAG "X".toList true true)])
      "<script>a<b>c</script><p>".toList 5 = some "Xa<b>cXX".toList :=
  ⟨by decide, by decide, by decide,
    (C17_script_body_verbatim resolvedId (register [([], Rule.REPLACE_TAG "X".toList true true)])
      "a<b>c".toList "<p>".toList (by decide) (by decide) (by decide)).2.1,
    by decide⟩

/-! ### C18 -/

/-- C18: when no iteration runs a ReplaceContents branch on a tag that is both
opening and closing, every iteration that does not leave the loop (comment
skip, false-tag skip, splice of contents and tag, with any replacement text,
the empty one included) keeps the scan offset inside the buffer and strictly
shortens the unscanned remainder, buffer length minus scan offset; and
`HtmlSed::toString` returns, within one iteration more than the input has
characters. -/
theorem C18_remainder_decreases (resolved : Str → Str → Str) (rs : RuleSet) (myHtml : Str)
    (hp : ∀ k, contentsOnBoth resolved rs
      (stateAfter resolved rs k (initialState myHtml)) = false) :
    (∀ (k : Nat) (st1 : LoopState),
      step resolved rs (stateAfter resolved rs k (initialState myHtml)) = Sum.inl st1 →
      st1.offset ≤ st1.html.length ∧
      st1.html.length - st1.offset
        < (stateAfter resolved rs k (initialState myHtml)).html.length
          - (stateAfter resolved rs k (initialState myHtml)).offset) ∧
    (∃ out, toString resolved rs myHtml (myHtml.length + 1) = some out) ∧
    (∃ out, Returns resolved rs myHtml out) := by
  obtain ⟨hi1, hi2⟩ := initial_invariants myHtml
  have hterm := loop_terminates resolved rs myHtml.length (initialState myHtml) hi1 hi2 hp
    (by show myHtml.length - 0 ≤ myHtml.length; omega)
  refine ⟨?_, hterm, ?_⟩
  · intro k st1 hs
    obtain ⟨h1, h2⟩ := invariants_stateAfter resolved rs (initialState myHtml) hi1 hi2 k
      (fun j _ => hp j)
    obtain ⟨g1, _, g3, _⟩ := step_preserves resolved rs _ st1 h1 h2 (hp k) hs
    exact ⟨g1.1, g3⟩
  · obtain ⟨out, hout⟩ := hterm
    exact ⟨out, myHtml.length + 1, hout⟩

/-- C18 at `<p>AA</p><br/>` with a ReplaceContents rule on P and a rule on BR
that replaces the tag by the empty text: the loop leaves at its fourth
iteration. -/
theorem C18_remainder_decreases_witness :
    (∀ k, contentsOnBoth resolvedId
      (register [("P".toList, Rule.REPLACE_CONTENTS replaceAByX),
        ("BR".toList, Rule.REPLACE_TAG [] true true)])
      (stateAfter resolvedId
        (register [("P".toList, Rule.REPLACE_CONTENTS replaceAByX),
          ("BR".toList, Rule.REPLACE_TAG [] true true)]) k
        (initialState "<p>AA</p><br/>".toList)) = false) ∧
    (∃ out, toString resolvedId
      (register [("P".toList, Rule.REPLACE_CONTENTS replaceAByX),
        ("BR".toList, Rule.REPLACE_TAG [] true true)])
      "<p>AA</p><br/>".toList ("<p>AA</p><br/>".toList.length + 1) = some out) ∧
    toString resolvedId
      (register [("P".toList, Rule.REPLACE_CONTENTS replaceAByX),
        ("BR".toList, Rule.REPLACE_TAG [] true true)])
      "<p>AA</p><br/>".toList 4 = some "<P>XX</P>".toList := by
  have hp := contentsOnBoth_of_done resolvedId
    (register [("P".toList, Rule.REPLACE_CONTENTS replaceAByX),
      ("BR".toList, Rule.REPLACE_TAG [] true true)])
    (initialState "<p>AA</p><br/>".toList) 3 (by decide) (by decide)
  exact ⟨hp, (C18_remainder_decreases resolvedId _ _ hp).2.1, by decide⟩

/-! ### C19 -/

/-- C19: a Tag with a non-empty name of upper-case letters and digits, an
attribute table (keys in ascending order, as a map keeps them) whose names are
non-empty and made of upper-case letters and digits and whose values hold no
double quote, at least one of the flags set, and no replacement and no
surrounding text, is read back from the text `Tag::toString` returns with the
same name, the same attributes and the same flags. -/
theorem C19_serialize_parse_round_trip (t : Tag)
    (hne : t.myName ≠ []) (hup : ∀ c ∈ t.myName, isUpperOrDigit c = true)
    (hattr : ∀ e ∈ t.myAttributes, e.1 ≠ [] ∧ (∀ c ∈ e.1, isUpperOrDigit c = true) ∧
      (∀ c ∈ e.2, c ≠ '"'))
    (hsorted : List.Pairwise (fun a b : Str × Str => strLt a.1 b.1 = true) t.myAttributes)
    (hflag : t.myIsOpening = true ∨ t.myIsClosing = true)
    (hrep : t.myIsReplaced = false) (hb : t.myBeforeText = []) (ha : t.myAfterText = []) :
    (Tag.parse t.toString).myName = t.myName ∧
    (Tag.parse t.toString).myAttributes = t.myAttributes ∧
    (Tag.parse t.toString).myIsOpening = t.myIsOpening ∧
    (Tag.parse t.toString).myIsClosing = t.myIsClosing := by
  have hal : ∀ c ∈ t.myName, isAlnum c = true := fun c hc => isUpperOrDigit_alnum c (hup c hc)
  have key : ∀ (lead trail : Str), (lead = [] ∨ lead = ['/']) → (trail = [] ∨ trail = ['/']) →
      t.toString = '<' :: (lead ++ (t.myName ++ (attributesText t.myAttributes ++
        (trail ++ ['>'])))) →
      t.myIsOpening = decide (lead = []) →
      t.myIsClosing = (decide (lead = ['/']) || decide (trail = ['/'])) →
      (Tag.parse t.toString).myName = t.myName ∧
      (Tag.parse t.toString).myAttributes = t.myAttributes ∧
      (Tag.parse t.toString).myIsOpening = t.myIsOpening ∧
      (Tag.parse t.toString).myIsClosing = t.myIsClosing := by
    intro lead trail hlead htrail hts ho hc
    obtain ⟨n1, n2⟩ := parse_serialized_name lead trail t.myName t.myAttributes hlead htrail
      hne hup hattr hsorted
    obtain ⟨g1, g2⟩ := parse_serialized_flags lead trail t.myName t.myAttributes hlead htrail
      hne hal
    rw [hts]
    exact ⟨n1, n2, g1.trans ho.symm, g2.trans hc.symm⟩
  have hts := toString_unreplaced t hrep
  rw [hb, ha] at hts
  rcases Bool.eq_false_or_eq_true t.myIsOpening with ho | ho
  · rcases Bool.eq_false_or_eq_true t.myIsClosing with hc | hc
    · exact key [] ['/'] (Or.inl rfl) (Or.inr rfl)
        (by rw [hts, ho, hc]; simp) (by rw [ho]; rfl) (by rw [hc]; rfl)
    · exact key [] [] (Or.inl rfl) (Or.inl rfl)
        (by rw [hts, ho, hc]; simp) (by rw [ho]; rfl) (by rw [hc]; rfl)
  · rcases Bool.eq_false_or_eq_true t.myIsClosing with hc | hc
    · exact key ['/'] [] (Or.inr rfl) (Or.inl rfl)
        (by rw [hts, ho, hc]; simp) (by rw [ho]; rfl) (by rw [hc]; rfl)
    · rw [ho, hc] at hflag
      rcases hflag with h | h <;> cases h

/-- C19 at the closing tag X1 with the attributes A = `a>b /` and
B2 = ` it's = `: the text is `</X1 A="a>b /" B2=" it's = ">` and it is
read back as the same tag. -/
theorem C19_serialize_parse_round_trip_witness :
    Tag.toString
      { myName := "X1".toList,
        myAttributes := [("A".toList, "a>b /".toList), ("B2".toList, " it's = ".toList)],
        myIsOpening := false, myIsClosing := true, myIsReplaced := false,
        myReplaceWith := [], myBeforeText := [], myAfterText := [] }
      = "</X1 A=\"a>b /\" B2=\" it's = \">".toList ∧
    (Tag.parse (Tag.toString
      { myName := "X1".toList,
        myAttributes := [("A".toList, "a>b /".toList), ("B2".toList, " it's = ".toList)],
        myIsOpening := false, myIsClosing := true, myIsReplaced := false,
        myReplaceWith := [], myBeforeText := [], myAfterText := [] })).myAttributes
      = [("A".toList, "a>b /".toList), ("B2".toList, " it's = ".toList)] :=
  ⟨by decide,
    (C19_serialize_parse_round_trip
      { myName := "X1".toList,
        myAttributes := [("A".toList, "a>b /".toList), ("B2".toList, " it's = ".toList)],
        myIsOpening := false, myIsClosing := true, myIsReplaced := false,
        myReplaceWith := [], myBeforeText := [], myAfterText := [] }
      (by decide) (by decide) (by decide) (by decide) (by decide) rfl rfl rfl).2.1⟩

/-! ### C20 -/

end HtmlSed
